import Mathlib

/-!
Verification of the toolbox graph-algorithm library: the Dinic max-flow
solver (`src/dinic.rs`) and the iterative Tarjan SCC solver
(`src/tarjan.rs`), over a shallow embedding of the Rust code.

The shared `StaticGraph` compressed-adjacency structure (file
`static_graph.rs`, not present in the sources) is modelled from the spec's
construction contract: edges sorted and grouped by `(source, target)`,
`edge_range` iterating a node's outgoing edges, `find_edge` looking up the
edge between two named nodes, `number_of_nodes` one past the largest node
id referenced.

Machine-integer conventions: node ids are `usize` (modelled as `Nat`, with
the two reserved sentinels `usize::MAX` and `usize::MAX - 1`); capacities
are `i32` (modelled as `Int`; the value `i32::MAX` seeds the DFS bottleneck).
All loops are modelled with explicit fuel; `MRes.out` is fuel exhaustion and
`MRes.fail` models a Rust panic (a failed `unwrap`).
-/

namespace Toolbox

/-- The sentinel `usize::MAX` (`NodeID::MAX`): "unvisited" / "no parent". -/
def USIZE_MAX : Nat := 2 ^ 64 - 1

/-- The value `i32::MAX`, the initial DFS bottleneck capacity. -/
def I32_MAX : Int := 2 ^ 31 - 1

/-- An edge of the (residual) graph: `InputEdge<EdgeCapacity>` from the Rust
code, a `(source, target, capacity)` triple. -/
structure REdge where
  source : Nat
  target : Nat
  capacity : Int
deriving DecidableEq, Repr

/-- Pointwise update of a state array modelled as a function. -/
def upd (f : Nat → Nat) (i v : Nat) : Nat → Nat := fun x => if x = i then v else f x

/-- `InputEdge::reverse` followed by zeroing the capacity
(dinic.rs `from_edge_list`, lines 65-68). -/
def reversedZero (e : REdge) : REdge := ⟨e.target, e.source, 0⟩

/-- `edge_list.extend_from_within(..)` plus the reverse-and-zero pass
(dinic.rs lines 64-68): append a zero-capacity reversed copy of every edge. -/
def extendReversed (l : List REdge) : List REdge := l ++ l.map reversedZero

/-- Modelled from the spec: the derived `Ord` on `InputEdge` used by
`sort_unstable` (spec 4.1: "sort edges by (source, target, ...)"),
lexicographic on source, then target, then capacity. -/
def edgeLe (a b : REdge) : Bool :=
  a.source < b.source ||
    (a.source == b.source &&
      (a.target < b.target || (a.target == b.target && a.capacity ≤ b.capacity)))

/-- Insert an edge into a sorted list (sorting step of dinic.rs line 74). -/
def insertEdge (e : REdge) : List REdge → List REdge
  | [] => [e]
  | x :: xs => if edgeLe e x then e :: x :: xs else x :: insertEdge e xs

/-- `edge_list.sort_unstable()` (dinic.rs line 74): the sorted sequence is
unique because the order is total on the full triple. -/
def sortEdges (l : List REdge) : List REdge := l.foldr insertEdge []

/-- Scanning helper of `dedup_by` (dinic.rs lines 75-85): `cur` is the last
retained edge; a following parallel edge is dropped with its capacity
accumulated onto `cur`. -/
def dedupMergeGo (cur : REdge) : List REdge → List REdge
  | [] => [cur]
  | e :: rest =>
    if e.source == cur.source && e.target == cur.target then
      dedupMergeGo ⟨cur.source, cur.target, cur.capacity + e.capacity⟩ rest
    else
      cur :: dedupMergeGo e rest

/-- `edge_list.dedup_by(..)` (dinic.rs lines 75-85): merge runs of parallel
edges, summing capacities. -/
def dedupMerge : List REdge → List REdge
  | [] => []
  | e :: rest => dedupMergeGo e rest

/-- The full residual-graph edge construction of `Dinic::from_edge_list`
(dinic.rs lines 60-91): synthesize zero-capacity reverse edges, sort,
and dedup-merge parallel edges. -/
def buildResidual (l : List REdge) : List REdge := dedupMerge (sortEdges (extendReversed l))

/-- Modelled from the spec: `StaticGraph::edge_range(node)` (spec 4.1),
a node's outgoing edges, grouped by source in the sorted edge array. -/
def edgeRange (g : List REdge) (u : Nat) : List REdge := g.filter (fun e => e.source == u)

/-- Modelled from the spec: `StaticGraph::find_edge(u, v)` (spec 4.1), edge
lookup between two named nodes; `none` when no such edge exists after merging. -/
def findEdge (g : List REdge) (u v : Nat) : Option REdge :=
  g.find? (fun e => e.source == u && e.target == v)

/-- Modelled from the spec: `StaticGraph::number_of_nodes()` (spec 4.1),
one past the maximum node id referenced by any edge. -/
def numberOfNodes (g : List REdge) : Nat :=
  g.foldl (fun m e => max m (max (e.source + 1) (e.target + 1))) 0

/-- Result of a fuelled computation: `ok` a value, `fail` models a Rust
panic (failed `unwrap`), `out` is fuel exhaustion of the model. -/
inductive MRes (α : Type) where
  | ok (val : α)
  | fail
  | out
deriving DecidableEq, Repr

/-! ## BFS phase (dinic.rs `Dinic::bfs`, lines 128-169) -/

/-- State of the BFS phase: the level array, the queue, the `found_path`
flag, and a ghost trace of every node pushed onto the queue by the search. -/
structure BfsState where
  level : Nat → Nat
  queue : List Nat
  found : Bool
  pushed : List Nat

/-- One edge examination of the BFS inner loop (dinic.rs lines 145-163):
skip edges without capacity and already-visited heads; label the head with
`level[u] + 1`; a head that was marked as a target sets `found_path` instead
of being enqueued. -/
def bfsEdge (u : Nat) (st : BfsState) (e : REdge) : BfsState :=
  if e.capacity < 1 then st
  else if st.level e.target < USIZE_MAX - 1 then st
  else
    let is_t := st.level e.target == USIZE_MAX - 1
    let lv := upd st.level e.target (st.level u + 1)
    if is_t then ⟨lv, st.queue, true, st.pushed⟩
    else ⟨lv, st.queue ++ [e.target], st.found, st.pushed ++ [e.target]⟩

/-- The BFS work loop (dinic.rs lines 144-164): pop the queue front and scan
the node's outgoing edges. Fuel bounds the number of pops. -/
def bfsLoop (g : List REdge) : Nat → BfsState → Option BfsState
  | 0, st =>
    match st.queue with
    | [] => some st
    | _ :: _ => none
  | fuel + 1, st =>
    match st.queue with
    | [] => some st
    | u :: rest =>
      bfsLoop g fuel ((edgeRange g u).foldl (bfsEdge u) ⟨st.level, rest, st.found, st.pushed⟩)

/-- BFS level initialization (dinic.rs lines 132-140): all `usize::MAX`,
sources 0, targets `usize::MAX - 1` (targets written after sources). -/
def bfsInitLevel (sources targets : List Nat) : Nat → Nat :=
  targets.foldl (fun f t => upd f t (USIZE_MAX - 1))
    (sources.foldl (fun f s => upd f s 0) (fun _ => USIZE_MAX))

/-- `Dinic::bfs` (dinic.rs lines 128-169): seed the queue with the sources,
initialize levels, run the labelled search. -/
def bfsRun (g : List REdge) (sources targets : List Nat) (fuel : Nat) : Option BfsState :=
  bfsLoop g fuel ⟨bfsInitLevel sources targets, sources, false, []⟩

/-! ## DFS / blocking-flow phase (dinic.rs `Dinic::dfs`, lines 171-241) -/

/-- Ghost record of one DFS edge traversal (an edge that passes all three
checks of dinic.rs lines 199-211, so its head is queued or augmented
through): the tail node, the head, the residual capacity, and the BFS
levels of both endpoints at traversal time. -/
structure Trav where
  node : Nat
  tgt : Nat
  cap : Int
  lnode : Nat
  ltgt : Nat
deriving DecidableEq, Repr

/-- In-place capacity increment on the first edge `(u, v)` of the list:
`data_mut(find_edge(u, v)).capacity += d`. -/
def updCap (u v : Nat) (d : Int) : List REdge → List REdge
  | [] => []
  | e :: rest =>
    if e.source == u && e.target == v then ⟨e.source, e.target, e.capacity + d⟩ :: rest
    else e :: updCap u v d rest

/-- The path-unwinding loop of `Dinic::dfs` (dinic.rs lines 217-228): walk
the parent chain from the reached target, moving `flow` units from each
forward edge to its reverse edge; a failed `find_edge` lookup is the Rust
`unwrap` panic, modelled as `.fail`. -/
def augmentGo (parents : Nat → Nat) (flow : Int) : Nat → Nat → List REdge → MRes (List REdge)
  | 0, _, _ => .out
  | fuel + 1, v, g =>
    if parents v = v then .ok g
    else
      match findEdge g (parents v) v with
      | none => .fail
      | some _ =>
        let g1 := updCap (parents v) v (-flow) g
        match findEdge g1 v (parents v) with
        | none => .fail
        | some _ => augmentGo parents flow fuel (parents v) (updCap v (parents v) flow g1)

/-- Outcome of scanning one popped node's edge list: either the scan
finished (`cont`, with updated parents/stack/trace) or a target was reached
(`found`) and the DFS will augment and return. -/
inductive DfsStep where
  | cont (parents : Nat → Nat) (stack : List (Nat × Int)) (trace : List Trav)
  | found (tgt : Nat) (flow : Int) (parents : Nat → Nat) (trace : List Trav)

/-- The DFS inner edge loop (dinic.rs lines 197-235): skip heads already
queued, level-decreasing edges, and capacity-less edges; otherwise record
the traversal, set the parent, and either push the head or report a reached
target. -/
def dfsEdges (level : Nat → Nat) (node : Nat) (flowIn : Int) :
    (Nat → Nat) → List (Nat × Int) → List Trav → List REdge → DfsStep
  | parents, stack, trace, [] => .cont parents stack trace
  | parents, stack, trace, e :: rest =>
    if parents e.target < USIZE_MAX - 1 then dfsEdges level node flowIn parents stack trace rest
    else if level node > level e.target then dfsEdges level node flowIn parents stack trace rest
    else if e.capacity < 1 then dfsEdges level node flowIn parents stack trace rest
    else
      let is_p := parents e.target == USIZE_MAX - 1
      let parents2 := upd parents e.target node
      let flow2 := min flowIn e.capacity
      let trace2 := trace ++ [⟨node, e.target, e.capacity, level node, level e.target⟩]
      if is_p then .found e.target flow2 parents2 trace2
      else dfsEdges level node flowIn parents2 ((e.target, flow2) :: stack) trace2 rest

/-- The DFS stack loop (dinic.rs lines 196-236): pop a node, scan its
edges; on reaching a target, unwind the parent chain and return the pushed
flow together with the mutated residual graph. -/
def dfsLoop (g : List REdge) (level : Nat → Nat) (augFuel : Nat) :
    Nat → (Nat → Nat) → List (Nat × Int) → List Trav → MRes (Option Int × List REdge × List Trav)
  | 0, _, _, _ => .out
  | fuel + 1, parents, stack, trace =>
    match stack with
    | [] => .ok (none, g, trace)
    | (node, flow) :: srest =>
      match dfsEdges level node flow parents srest trace (edgeRange g node) with
      | .cont p2 s2 t2 => dfsLoop g level augFuel fuel p2 s2 t2
      | .found tgt fl p2 t2 =>
        match augmentGo p2 fl augFuel tgt g with
        | .ok g2 => .ok (some fl, g2, t2)
        | .fail => .fail
        | .out => .out

/-- DFS parent initialization (dinic.rs lines 176-191): all `usize::MAX`,
each source its own parent, targets `usize::MAX - 1` (written after
sources). -/
def dfsInitParents (sources targets : List Nat) : Nat → Nat :=
  targets.foldl (fun f t => upd f t (USIZE_MAX - 1))
    (sources.foldl (fun f s => upd f s s) (fun _ => USIZE_MAX))

/-- DFS stack initialization (dinic.rs lines 181-184): every source with
bottleneck `i32::MAX`; the Rust `Vec` pops from the end, so the model list
(head = top of stack) is the reversed source list. -/
def dfsInitStack (sources : List Nat) : List (Nat × Int) :=
  (sources.map (fun s => (s, I32_MAX))).reverse

/-- One full `Dinic::dfs` call (dinic.rs lines 171-241). -/
def dfsRun (g : List REdge) (level : Nat → Nat) (sources targets : List Nat) (fuel : Nat) :
    MRes (Option Int × List REdge × List Trav) :=
  dfsLoop g level fuel fuel (dfsInitParents sources targets) (dfsInitStack sources) []

/-! ## The run loop (dinic.rs `Dinic::run`, lines 105-126) -/

/-- Ghost-instrumented result of `Dinic::run`: the final residual graph,
the accumulated flow, the number of BFS calls, the residual graph after
each augmentation (`snaps`), and all DFS edge traversals (`travs`). -/
structure RunResult where
  graph : List REdge
  flow : Int
  bfsCount : Nat
  snaps : List (List REdge)
  travs : List Trav
deriving DecidableEq, Repr

/-- The inner `while let Some(pushed) = self.dfs()` loop of `Dinic::run`
(dinic.rs lines 119-122): repeat the blocking-flow DFS until it finds no
path, accumulating flow and snapshotting the graph after each augmentation. -/
def dfsPhase (F : Nat) (level : Nat → Nat) (sources targets : List Nat) :
    Nat → List REdge → Int → List (List REdge) → List Trav →
      MRes (List REdge × Int × List (List REdge) × List Trav)
  | 0, _, _, _, _ => .out
  | fuel + 1, g, flow, snaps, travs =>
    match dfsRun g level sources targets F with
    | .fail => .fail
    | .out => .out
    | .ok (none, g2, tr) => .ok (g2, flow, snaps, travs ++ tr)
    | .ok (some pushed, g2, tr) =>
      dfsPhase F level sources targets fuel g2 (flow + pushed) (snaps ++ [g2]) (travs ++ tr)

/-- The outer loop of `Dinic::run` (dinic.rs lines 114-123): BFS; if no
target was reached the flow value is final, otherwise run the blocking-flow
phase and repeat. -/
def runLoop (F : Nat) (sources targets : List Nat) :
    Nat → List REdge → Int → Nat → List (List REdge) → List Trav → MRes RunResult
  | 0, _, _, _, _, _ => .out
  | fuel + 1, g, flow, bc, snaps, travs =>
    match bfsRun g sources targets F with
    | none => .out
    | some bst =>
      if bst.found then
        match dfsPhase F bst.level sources targets F g flow snaps travs with
        | .fail => .fail
        | .out => .out
        | .ok (g2, fl2, sn2, tv2) => runLoop F sources targets fuel g2 fl2 (bc + 1) sn2 tv2
      else .ok ⟨g, flow, bc + 1, snaps, travs⟩

/-! ## The solver object -/

/-- The `Dinic` solver state: the residual graph, the accumulated flow, the
`finished` flag, and the source/target lists captured at construction time
(dinic.rs lines 21-33, 90-102). -/
structure Dinic where
  graph : List REdge
  maxFlowVal : Int
  finished : Bool
  sources : List Nat
  targets : List Nat
deriving DecidableEq, Repr

/-- `Dinic::from_edge_list` (dinic.rs lines 55-103). -/
def from_edge_list (l : List REdge) (sources targets : List Nat) : Dinic :=
  ⟨buildResidual l, 0, false, sources, targets⟩

/-- `Dinic::run(sources, targets)` (dinic.rs lines 105-126). The two
argument lists are only reported, never read: the BFS and DFS phases use
the construction-time `self.sources` / `self.targets` (dinic.rs lines 133,
181, 189). Returns the updated solver together with the ghost run record. -/
def dinicRun (F : Nat) (d : Dinic) (_argSources _argTargets : List Nat) :
    MRes (Dinic × RunResult) :=
  match runLoop F d.sources d.targets F d.graph 0 0 [] [] with
  | .ok r => .ok (⟨r.graph, r.flow, true, d.sources, d.targets⟩, r)
  | .fail => .fail
  | .out => .out

/-- `Dinic::max_flow` (dinic.rs lines 243-249). -/
def max_flow (d : Dinic) : Except String Int :=
  if !d.finished then .error "Assigment was not computed."
  else .ok d.maxFlowVal

/-- The edge scan of the `assignment` reachability flood (dinic.rs lines
266-272): collect the heads to push, in edge order; reading a head beyond
the bit-vector length is the Rust `unwrap` panic, modelled as `.fail`. -/
def assignScan (n : Nat) (reach : Nat → Bool) : List REdge → MRes (List Nat)
  | [] => .ok []
  | e :: rest =>
    if e.target < n then
      match assignScan n reach rest with
      | .ok l => if !reach e.target && e.capacity > 0 then .ok (e.target :: l) else .ok l
      | .fail => .fail
      | .out => .out
    else .fail

/-- The `assignment` flood loop (dinic.rs lines 260-273): pop the stack,
skip already-reached nodes, mark, and push the capacity-positive out-edges
(the Rust `Vec` pops from the end, so pushes go to the front of the model
list). -/
def assignLoop (g : List REdge) (n : Nat) : Nat → List Nat → (Nat → Bool) → MRes (Nat → Bool)
  | 0, stack, reach =>
    match stack with
    | [] => .ok reach
    | _ :: _ => .out
  | fuel + 1, stack, reach =>
    match stack with
    | [] => .ok reach
    | node :: rest =>
      if node < n then
        if reach node then assignLoop g n fuel rest reach
        else
          let reach2 := fun x => if x = node then true else reach x
          match assignScan n reach2 (edgeRange g node) with
          | .ok pushes => assignLoop g n fuel (pushes.reverse ++ rest) reach2
          | .fail => .fail
          | .out => .out
      else .fail

/-- `Dinic::assignment(sources)` (dinic.rs lines 251-275): the "uncomputed"
error before the flag check, then a reachability flood over strictly
positive residual capacities, returned as a bit-per-node vector. -/
def assignment (d : Dinic) (sources : List Nat) (fuel : Nat) :
    MRes (Except String (List Bool)) :=
  if !d.finished then .ok (.error "Assigment was not computed.")
  else
    let n := numberOfNodes d.graph
    match assignLoop d.graph n fuel sources.reverse (fun _ => false) with
    | .ok reach => .ok (.ok ((List.range n).map reach))
    | .fail => .fail
    | .out => .out

/-! ## The iterative Tarjan SCC solver (src/tarjan.rs) -/

/-- Per-node DFS state of the Tarjan solver (tarjan.rs lines 5-24). -/
structure NodeInfo where
  index : Nat
  lowlink : Nat
  caller : Nat
  neighbor : Nat
  on_stack : Bool
deriving DecidableEq, Repr

/-- `NodeInfo::new` (tarjan.rs lines 14-23): all sentinels, not on stack. -/
def NodeInfo.fresh : NodeInfo := ⟨USIZE_MAX, USIZE_MAX, USIZE_MAX, USIZE_MAX, false⟩

/-- Update one node's DFS record. -/
def updNI (f : Nat → NodeInfo) (i : Nat) (g : NodeInfo → NodeInfo) : Nat → NodeInfo :=
  fun x => if x = i then g (f x) else f x

/-- The mutable state of `Tarjan::run` (tarjan.rs lines 45-51): the DFS
records, the candidate stack, the assignment vector (`USIZE_MAX` =
unassigned), the discovery-index counter and the component counter. -/
structure TState where
  dfs : Nat → NodeInfo
  stack : List Nat
  asg : Nat → Nat
  idx : Nat
  nscc : Nat

/-- `graph.out_degree(u)`: the number of outgoing edges of `u`. -/
def outDeg (g : List REdge) (u : Nat) : Nat := (edgeRange g u).length

/-- `graph.edge_range(u).nth(i)` followed by `graph.target`:
the head of the `i`-th outgoing edge of `u`. -/
def nthTarget (g : List REdge) (u i : Nat) : Option Nat :=
  ((edgeRange g u).get? i).map (fun e => e.target)

/-- The component-closing pop loop (tarjan.rs lines 88-102): pop down to
and including `last`, clearing `on_stack` and assigning component id `c`;
popping an empty stack is the Rust `expect` panic. -/
def popScc (last c : Nat) :
    List Nat → (Nat → NodeInfo) → (Nat → Nat) →
      MRes (List Nat × (Nat → NodeInfo) × (Nat → Nat))
  | [], _, _ => .fail
  | top :: rest, dfs, asg =>
    let dfs2 := updNI dfs top (fun ni => { ni with on_stack := false })
    let asg2 := fun x => if x = top then c else asg x
    if top = last then .ok (rest, dfs2, asg2)
    else popScc last c rest dfs2 asg2

/-- The `neighbor` cursor advance (tarjan.rs line 73). -/
def bumpNb (st : TState) (last : Nat) : TState :=
  { st with dfs := updNI st.dfs last (fun ni => { ni with neighbor := ni.neighbor + 1 }) }

/-- The post-state of the back-edge branch (tarjan.rs lines 83-86): after
the cursor advance, the current node's lowlink absorbs the target's
discovery index. -/
def backState (st : TState) (last w : Nat) : TState :=
  { bumpNb st last with
    dfs := updNI (bumpNb st last).dfs last (fun ni =>
      { ni with lowlink := min ni.lowlink ((bumpNb st last).dfs w).index }) }

/-- The post-state of the descend branch (tarjan.rs lines 74-82): after
the cursor advance, the unvisited target is discovered and pushed. -/
def descState (st : TState) (last w : Nat) : TState :=
  { bumpNb st last with
    dfs := updNI (bumpNb st last).dfs w (fun ni =>
      { ni with caller := last, neighbor := 0, index := (bumpNb st last).idx,
                lowlink := (bumpNb st last).idx, on_stack := true }),
    idx := (bumpNb st last).idx + 1,
    stack := w :: (bumpNb st last).stack }

/-- The post-state of the component-closing pop (tarjan.rs lines 88-102),
with `Q` the popped prefix of the stack and `rest` what remains. -/
def popState (st : TState) (Q rest : List Nat) : TState :=
  ⟨fun v => if v ∈ Q then { st.dfs v with on_stack := false } else st.dfs v,
   rest,
   fun v => if v ∈ Q then st.nscc + 1 else st.asg v,
   st.idx, st.nscc + 1⟩

/-- The caller's lowlink merge on return (tarjan.rs lines 104-110). -/
def retState (st : TState) (last nl : Nat) : TState :=
  { st with dfs := updNI st.dfs nl (fun ni => { ni with lowlink := min ni.lowlink (st.dfs last).lowlink }) }

/-- Rooting a fresh DFS tree (tarjan.rs lines 57-63). -/
def rootState (st : TState) (n : Nat) : TState :=
  { st with
    dfs := updNI st.dfs n (fun ni => { ni with index := st.idx, lowlink := st.idx, neighbor := 0, caller := USIZE_MAX, on_stack := true }),
    idx := st.idx + 1,
    stack := n :: st.stack }

/-- The inner DFS state machine of `Tarjan::run` (tarjan.rs lines 66-115):
while the current node has unexamined edges, examine the next one
(descend / record back-edge / skip); once exhausted, close its component
when it is a root, then resume its caller or break. -/
def tarjanInner (g : List REdge) : Nat → Nat → TState → MRes TState
  | 0, _, _ => .out
  | fuel + 1, last, st =>
    if (st.dfs last).neighbor < outDeg g last then
      match nthTarget g last (st.dfs last).neighbor with
      | none => .fail
      | some w =>
        if ((bumpNb st last).dfs w).index = USIZE_MAX then
          tarjanInner g fuel w (descState st last w)
        else if ((bumpNb st last).dfs w).on_stack then
          tarjanInner g fuel last (backState st last w)
        else
          tarjanInner g fuel last (bumpNb st last)
    else
      match (if (st.dfs last).lowlink = (st.dfs last).index then
              match popScc last (st.nscc + 1) st.stack st.dfs st.asg with
              | .ok (stack2, dfs2, asg2) =>
                .ok (⟨dfs2, stack2, asg2, st.idx, st.nscc + 1⟩ : TState)
              | .fail => .fail
              | .out => .out
             else .ok st : MRes TState) with
      | .fail => .fail
      | .out => .out
      | .ok st1 =>
        if (st1.dfs last).caller = USIZE_MAX then .ok st1
        else
          tarjanInner g fuel ((st1.dfs last).caller)
            (retState st1 last ((st1.dfs last).caller))

/-- The outer loop of `Tarjan::run` (tarjan.rs lines 52-116): start a fresh
DFS tree at every still-unvisited node. -/
def tarjanOuter (g : List REdge) (F : Nat) : List Nat → TState → MRes TState
  | [], st => .ok st
  | n :: rest, st =>
    if (st.dfs n).index ≠ USIZE_MAX then tarjanOuter g F rest st
    else
      match tarjanInner g F n (rootState st n) with
      | .ok st2 => tarjanOuter g F rest st2
      | .fail => .fail
      | .out => .out

/-- `Tarjan::run` (tarjan.rs lines 45-118): returns the dense per-node
component-id assignment. -/
def tarjanRun (g : List REdge) (F : Nat) : MRes (List Nat) :=
  match tarjanOuter g F (List.range (numberOfNodes g))
      ⟨fun _ => NodeInfo.fresh, [], fun _ => USIZE_MAX, 0, 0⟩ with
  | .ok st => .ok ((List.range (numberOfNodes g)).map st.asg)
  | .fail => .fail
  | .out => .out

/-- One directed edge step of the graph. -/
def EdgeR (g : List REdge) (u v : Nat) : Prop := ∃ e ∈ g, e.source = u ∧ e.target = v

/-- Reachability along the graph's edges (reflexive-transitive closure). -/
def Reach (g : List REdge) : Nat → Nat → Prop := Relation.ReflTransGen (EdgeR g)

/-- The SCC-relevant graph of the `scc_wiki1` test (tarjan.rs lines
130-145). -/
def wikiEdges : List REdge :=
  [⟨0, 1, 3⟩, ⟨1, 2, 3⟩, ⟨1, 4, 1⟩, ⟨1, 5, 6⟩, ⟨2, 3, 2⟩, ⟨2, 6, 2⟩, ⟨3, 2, 2⟩,
   ⟨3, 7, 2⟩, ⟨4, 0, 2⟩, ⟨4, 5, 2⟩, ⟨5, 6, 2⟩, ⟨6, 5, 2⟩, ⟨7, 3, 2⟩, ⟨7, 6, 2⟩]

/-- A node is visited when its discovery index has been set
(tarjan.rs lines 53, 74: the `usize::MAX` sentinel means unvisited). -/
def Vis (st : TState) (v : Nat) : Prop := (st.dfs v).index ≠ USIZE_MAX

instance (st : TState) (v : Nat) : Decidable (Vis st v) := by
  unfold Vis; infer_instance

/-- The caller links of the active DFS call chain (head = current node,
last = tree root with the `usize::MAX` caller sentinel). -/
def CallerLinks (st : TState) : List Nat → Prop
  | [] => True
  | [c] => (st.dfs c).caller = USIZE_MAX
  | c :: c2 :: rest => (st.dfs c).caller = c2 ∧ CallerLinks st (c2 :: rest)

/-- Each chain node was discovered over a graph edge from its caller. -/
def ChainEdges (g : List REdge) : List Nat → Prop
  | [] => True
  | [_] => True
  | c :: c2 :: rest => EdgeR g c2 c ∧ ChainEdges g (c2 :: rest)

/-- Chain-independent invariants of the Tarjan state: bookkeeping of the
visited set, candidate stack, discovery indices, lowlinks and the
component assignment. -/
structure TBase (g : List REdge) (st : TState) : Prop where
  vis_lt : ∀ v, Vis st v → v < numberOfNodes g
  vis_idx : ∀ v, Vis st v → (st.dfs v).index < st.idx
  card_idx :
    ((Finset.range (numberOfNodes g)).filter (fun v => Vis st v)).card = st.idx
  index_inj : ∀ u v, Vis st u → Vis st v →
    (st.dfs u).index = (st.dfs v).index → u = v
  low_le : ∀ v, Vis st v → (st.dfs v).lowlink ≤ (st.dfs v).index
  unvis_fresh : ∀ v, ¬ Vis st v → st.dfs v = NodeInfo.fresh ∧ st.asg v = USIZE_MAX
  stack_vis : ∀ v ∈ st.stack, Vis st v
  stack_nodup : st.stack.Nodup
  onstack_iff : ∀ v, (st.dfs v).on_stack = true ↔ v ∈ st.stack
  stack_unasg : ∀ v ∈ st.stack, st.asg v = USIZE_MAX
  vis_cover : ∀ v, Vis st v → st.asg v ≠ USIZE_MAX ∨ v ∈ st.stack
  stack_sorted : st.stack.Pairwise (fun a b => (st.dfs b).index < (st.dfs a).index)
  asg_pos : ∀ v, st.asg v ≠ USIZE_MAX → 1 ≤ st.asg v ∧ st.asg v ≤ st.nscc
  asg_dense : ∀ c, 1 ≤ c → c ≤ st.nscc → ∃ v, st.asg v = c
  nscc_card :
    st.nscc ≤ ((Finset.range (numberOfNodes g)).filter (fun v => st.asg v ≠ USIZE_MAX)).card
  asg_closed : ∀ u v, st.asg u ≠ USIZE_MAX → Reach g u v → st.asg v ≠ USIZE_MAX
  asg_mutual : ∀ u v, st.asg u ≠ USIZE_MAX → st.asg v ≠ USIZE_MAX →
    st.asg u = st.asg v → Reach g u v ∧ Reach g v u
  mutual_asg : ∀ u v, st.asg u ≠ USIZE_MAX → st.asg v ≠ USIZE_MAX →
    Reach g u v → Reach g v u → st.asg u = st.asg v
  low_wit : ∀ v ∈ st.stack, (st.dfs v).lowlink = (st.dfs v).index ∨
    ∃ w ∈ st.stack, (st.dfs w).index = (st.dfs v).lowlink ∧ Reach g v w
  edge_acct : ∀ u, Vis st u → ∀ i, i < (st.dfs u).neighbor →
    ∀ w, nthTarget g u i = some w →
      Vis st w ∧ (st.asg w ≠ USIZE_MAX ∨ (st.dfs u).lowlink ≤ (st.dfs w).index)

/-- Invariants of the active DFS call chain `ch` (head = current node)
and of the finished-but-unassigned nodes left on the candidate stack. -/
structure TChain (g : List REdge) (st : TState) (ch : List Nat) : Prop where
  sub_stack : ∀ c ∈ ch, c ∈ st.stack
  links : CallerLinks st ch
  edges : ChainEdges g ch
  sorted : ch.Pairwise (fun a b => (st.dfs b).index < (st.dfs a).index)
  root_min : ∀ r, ch.getLast? = some r → ∀ u ∈ st.stack,
    (st.dfs r).index ≤ (st.dfs u).index
  fin_low : ∀ p ∈ st.stack, p ∉ ch → (st.dfs p).lowlink < (st.dfs p).index
  fin_exh : ∀ p ∈ st.stack, p ∉ ch → outDeg g p ≤ (st.dfs p).neighbor
  fin_anchor : ∀ p ∈ st.stack, p ∉ ch → ∃ c ∈ ch,
    (st.dfs c).index < (st.dfs p).index ∧
    (∀ c' ∈ ch, (st.dfs c').index < (st.dfs p).index →
      (st.dfs c').index ≤ (st.dfs c).index) ∧
    (st.dfs c).lowlink ≤ (st.dfs p).lowlink
  down_reach : ∀ c ∈ ch, ∀ u ∈ st.stack,
    (st.dfs c).index ≤ (st.dfs u).index → Reach g c u

/-! ## Concrete networks used by the tests and the spec's scenarios -/

/-- The CLR textbook network of `tests::max_flow_clr` (dinic.rs lines 289-300). -/
def clrEdges : List REdge :=
  [⟨0, 1, 16⟩, ⟨0, 2, 13⟩, ⟨1, 2, 10⟩, ⟨1, 3, 12⟩, ⟨2, 1, 4⟩,
   ⟨2, 4, 14⟩, ⟨3, 2, 9⟩, ⟨3, 5, 20⟩, ⟨4, 3, 7⟩, ⟨4, 5, 4⟩]

/-- The CLR network extended with `(5,6,1)` and `(6,1,41)`
(`tests::max_flow_clr_multi_target_set`, dinic.rs lines 323-336). -/
def clrMultiEdges : List REdge := clrEdges ++ [⟨5, 6, 1⟩, ⟨6, 1, 41⟩]

/-- A small diamond network on which the DFS traverses an edge between two
nodes of equal BFS level. -/
def diamondEdges : List REdge := [⟨0, 1, 1⟩, ⟨0, 2, 1⟩, ⟨1, 2, 1⟩, ⟨2, 3, 1⟩]

/-- Build, run, and return the finished solver (discarding the ghost record). -/
def afterRun (F : Nat) (es : List REdge) (srcs tgts : List Nat) : Option Dinic :=
  match dinicRun F (from_edge_list es srcs tgts) srcs tgts with
  | .ok (d, _) => some d
  | _ => none

/-- Build, run, and return the ghost traversal trace of the whole run. -/
def travsOfRun (F : Nat) (es : List REdge) (srcs tgts : List Nat) : List Trav :=
  match dinicRun F (from_edge_list es srcs tgts) srcs tgts with
  | .ok (_, r) => r.travs
  | _ => []

/-- Build, run, and return the ghost run record. -/
def recordOfRun (F : Nat) (es : List REdge) (srcs tgts : List Nat) : Option RunResult :=
  match dinicRun F (from_edge_list es srcs tgts) srcs tgts with
  | .ok (_, r) => some r
  | _ => none

/-- A fuel budget sufficient for the `assignment` reachability flood: one
step per initial stack entry plus, per markable node, one pop and at most
one push per graph edge. -/
def assignFuel (g : List REdge) (srcs : List Nat) : Nat :=
  srcs.length + numberOfNodes g * (g.length + 1)

/-- The payload of an `MRes.ok`, with a default for the other cases. -/
def okOr {α : Type} (r : MRes α) (dflt : α) : α :=
  match r with
  | .ok v => v
  | _ => dflt

/-- The solver-and-record pair of the finished CLR run. -/
def clrRun : Dinic × RunResult :=
  okOr (dinicRun 64 (from_edge_list clrEdges [0] [5]) [0] [5])
    (from_edge_list [] [] [], ⟨[], 0, 0, [], []⟩)

/-- The single-edge network used to exhibit that `run` ignores its
argument lists. -/
def tinyEdges : List REdge := [⟨0, 1, 1⟩]

/-- Build with one source/target configuration but call `run` with
different argument lists (which the Rust code ignores). -/
def afterRunArgs (F : Nat) (es : List REdge) (srcs tgts argS argT : List Nat) : Option Dinic :=
  match dinicRun F (from_edge_list es srcs tgts) argS argT with
  | .ok (d, _) => some d
  | _ => none

/-- The BFS phase invariant, relative to the target list `tg`, the level
bound `K` and the remaining fuel: queued nodes carry small levels and are
never targets, the sentinel `USIZE_MAX - 1` marks exactly (a subset of) the
targets, targets never carry the `USIZE_MAX` unvisited sentinel, and the
`found_path` flag tracks whether some target has been assigned a level. -/
def BfsOk (tg : List Nat) (K fuel : Nat) (st : BfsState) : Prop :=
  (∀ v ∈ st.queue, st.level v + fuel ≤ K) ∧
  (∀ v, st.level v = USIZE_MAX - 1 → v ∈ tg) ∧
  (∀ x ∈ tg, st.level x ≠ USIZE_MAX) ∧
  (st.found = false → ∀ x ∈ tg, st.level x = USIZE_MAX - 1) ∧
  (st.found = true → ∃ x, x ∈ tg ∧ st.level x < USIZE_MAX - 1) ∧
  (∀ x ∈ st.pushed, x ∉ tg) ∧
  (∀ v ∈ st.queue, v ∉ tg) ∧
  (∀ v, st.level v ≤ USIZE_MAX)

/-- Extract the state of a completed BFS (default for the `none` case). -/
def someBfs (o : Option BfsState) : BfsState := o.getD ⟨fun _ => 0, [], false, []⟩

/-- The `(source, target)` key list of a graph (edge identity for lookup). -/
def keysList (g : List REdge) : List (Nat × Nat) := g.map (fun e => (e.source, e.target))

/-- Lexicographic (non-strict) order on edge keys. -/
def keyLe (k1 k2 : Nat × Nat) : Prop := k1.1 < k2.1 ∨ (k1.1 = k2.1 ∧ k1.2 ≤ k2.2)

/-- Lexicographic (strict) order on edge keys. -/
def keyLt (k1 k2 : Nat × Nat) : Prop := k1.1 < k2.1 ∨ (k1.1 = k2.1 ∧ k1.2 < k2.2)

/-- No two edges of the graph share a `(source, target)` key (the merge
invariant of `from_edge_list`). -/
def keyUnique (g : List REdge) : Prop := (keysList g).Nodup

/-- Every edge key has its reversed key present (the reverse-edge synthesis
invariant of `from_edge_list`). -/
def revClosed (g : List REdge) : Prop := ∀ k ∈ keysList g, (k.2, k.1) ∈ keysList g

/-- All node ids referenced by the graph stay below the reserved parent
sentinels (`NodeID::MAX` and `NodeID::MAX - 1`). -/
def idsBdd (g : List REdge) : Prop :=
  ∀ k ∈ keysList g, k.1 < USIZE_MAX - 1 ∧ k.2 < USIZE_MAX - 1

/-- Total capacity carried by a key in a raw edge list (parallel edges
summed), the quantity preserved by the sort/merge construction. -/
def keyCapSum (l : List REdge) (k : Nat × Nat) : Int :=
  ((l.filter (fun e => e.source == k.1 && e.target == k.2)).map (fun e => e.capacity)).sum

/-- The parent chain recorded by the DFS from a node back to its source:
`SChain g parents f v L` says `L = [v, parents v, …, s]` ends at a
self-parented source, every chain edge exists in `g` with residual capacity
at least `f`, and every reverse chain edge exists in `g`. -/
inductive SChain (g : List REdge) (parents : Nat → Nat) (f : Int) : Nat → List Nat → Prop where
  | stop (v : Nat) : parents v = v → SChain g parents f v [v]
  | step (v : Nat) (l : List Nat) :
      parents v ≠ v →
      (∃ e ∈ g, e.source = parents v ∧ e.target = v ∧ f ≤ e.capacity) →
      (∃ e ∈ g, e.source = v ∧ e.target = parents v) →
      SChain g parents f (parents v) l →
      SChain g parents f v (v :: l)

/-- A DFS stack entry is backed by a duplicate-free parent chain whose
nodes all carry real (non-sentinel) parents. -/
def ChainInv (g : List REdge) (parents : Nat → Nat) (fl : Int) (v : Nat) : Prop :=
  ∃ L, SChain g parents fl v L ∧ L.Nodup ∧ ∀ x ∈ L, parents x < USIZE_MAX - 1

/-- The DFS stack invariant: every entry has non-negative bottleneck flow,
a non-sentinel node id, and a valid parent chain. -/
def StackInv (g : List REdge) (parents : Nat → Nat) (stack : List (Nat × Int)) : Prop :=
  ∀ p ∈ stack, 0 ≤ p.2 ∧ p.1 < USIZE_MAX - 1 ∧ ChainInv g parents p.2 p.1

/-- The capacity stored in an optional edge (0 when absent). -/
def optCap : Option REdge → Int
  | none => 0
  | some e => e.capacity

/-- The conserved quantity of a paired residual edge: the sum of the two
capacities `cap(u→v) + cap(v→u)`. -/
def capSum (g : List REdge) (u v : Nat) : Int :=
  optCap (findEdge g u v) + optCap (findEdge g v u)

/-! ## Trace lemmas: every recorded DFS traversal passed the three checks -/

/-- The ghost trace carried by a `DfsStep`. -/
def stepTrace : DfsStep → List Trav
  | .cont _ _ t => t
  | .found _ _ _ t => t

/-- Every traversal recorded by the DFS edge scan is either inherited from
the incoming trace or passed the capacity and level checks. -/
theorem dfsEdges_trace (level : Nat → Nat) (node : Nat) (flowIn : Int) :
    ∀ (es : List REdge) (parents : Nat → Nat) (stack : List (Nat × Int)) (trace : List Trav),
      ∀ tr ∈ stepTrace (dfsEdges level node flowIn parents stack trace es),
        tr ∈ trace ∨ (1 ≤ tr.cap ∧ tr.lnode ≤ tr.ltgt) := by
  intro es
  induction es with
  | nil => intro parents stack trace tr htr; exact Or.inl htr
  | cons e rest ih =>
    intro parents stack trace tr htr
    simp only [dfsEdges] at htr
    by_cases h1 : parents e.target < USIZE_MAX - 1
    · simp only [h1, if_pos] at htr; exact ih parents stack trace tr htr
    · simp only [h1, if_neg, if_false] at htr
      by_cases h2 : level node > level e.target
      · simp only [h2, if_pos] at htr; exact ih parents stack trace tr htr
      · simp only [h2, if_neg, if_false] at htr
        by_cases h3 : e.capacity < 1
        · simp only [h3, if_pos] at htr; exact ih parents stack trace tr htr
        · simp only [h3, if_neg, if_false] at htr
          have hrec : 1 ≤ e.capacity ∧ level node ≤ level e.target :=
            ⟨by omega, by omega⟩
          by_cases h4 : parents e.target == USIZE_MAX - 1
          · simp only [h4, if_pos, stepTrace] at htr
            rcases List.mem_append.mp htr with h | h
            · exact Or.inl h
            · rcases List.mem_singleton.mp h with rfl
              exact Or.inr hrec
          · simp only [h4, if_neg, Bool.false_eq_true, if_false] at htr
            rcases ih _ _ _ tr htr with h | h
            · rcases List.mem_append.mp h with h | h
              · exact Or.inl h
              · rcases List.mem_singleton.mp h with rfl
                exact Or.inr hrec
            · exact Or.inr h

/-- Trace accumulation through the DFS stack loop. -/
theorem dfsLoop_trace (g : List REdge) (level : Nat → Nat) (augFuel : Nat) :
    ∀ (fuel : Nat) (parents : Nat → Nat) (stack : List (Nat × Int)) (trace : List Trav)
      (o : Option Int) (g2 : List REdge) (tr2 : List Trav),
      dfsLoop g level augFuel fuel parents stack trace = .ok (o, g2, tr2) →
      ∀ tr ∈ tr2, tr ∈ trace ∨ (1 ≤ tr.cap ∧ tr.lnode ≤ tr.ltgt) := by
  intro fuel
  induction fuel with
  | zero => intro _ _ _ _ _ _ h; exact absurd h (by simp [dfsLoop])
  | succ n ih =>
    intro parents stack trace o g2 tr2 h tr htr
    simp only [dfsLoop] at h
    split at h
    · simp only [MRes.ok.injEq, Prod.mk.injEq] at h
      exact Or.inl (h.2.2 ▸ htr)
    · rename_i node flow srest
      split at h
      · rename_i p2 s2 t2 hstep
        rcases ih p2 s2 t2 o g2 tr2 h tr htr with hmem | hp
        · exact dfsEdges_trace level node flow (edgeRange g node) parents srest trace tr
            (by rw [hstep]; exact hmem)
        · exact Or.inr hp
      · rename_i tgt fl p2 t2 hstep
        split at h
        · simp only [MRes.ok.injEq, Prod.mk.injEq] at h
          exact dfsEdges_trace level node flow (edgeRange g node) parents srest trace tr
            (by rw [hstep]; exact (h.2.2 ▸ htr : tr ∈ stepTrace (DfsStep.found tgt fl p2 t2)))
        · exact absurd h (by simp)
        · exact absurd h (by simp)

/-- Trace accumulation through one blocking-flow phase. -/
theorem dfsPhase_trace (F : Nat) (level : Nat → Nat) (sources targets : List Nat) :
    ∀ (fuel : Nat) (g : List REdge) (flow : Int) (snaps : List (List REdge)) (travs : List Trav)
      (g2 : List REdge) (fl2 : Int) (sn2 : List (List REdge)) (tv2 : List Trav),
      dfsPhase F level sources targets fuel g flow snaps travs = .ok (g2, fl2, sn2, tv2) →
      ∀ tr ∈ tv2, tr ∈ travs ∨ (1 ≤ tr.cap ∧ tr.lnode ≤ tr.ltgt) := by
  intro fuel
  induction fuel with
  | zero => intro _ _ _ _ _ _ _ _ h; exact absurd h (by simp [dfsPhase])
  | succ n ih =>
    intro g flow snaps travs g2 fl2 sn2 tv2 h tr htr
    simp only [dfsPhase] at h
    split at h
    · exact absurd h (by simp)
    · exact absurd h (by simp)
    · rename_i g3 tr3 hrun
      have htr3 : ∀ x ∈ tr3, 1 ≤ x.cap ∧ x.lnode ≤ x.ltgt := by
        intro x hx
        rcases dfsLoop_trace g level F F _ _ _ none g3 tr3 hrun x hx with hc | hc
        · exact absurd hc (List.not_mem_nil x)
        · exact hc
      simp only [MRes.ok.injEq, Prod.mk.injEq] at h
      rcases List.mem_append.mp (h.2.2.2 ▸ htr) with hm | hm
      · exact Or.inl hm
      · exact Or.inr (htr3 tr hm)
    · rename_i pushed g3 tr3 hrun
      have htr3 : ∀ x ∈ tr3, 1 ≤ x.cap ∧ x.lnode ≤ x.ltgt := by
        intro x hx
        rcases dfsLoop_trace g level F F _ _ _ (some pushed) g3 tr3 hrun x hx with hc | hc
        · exact absurd hc (List.not_mem_nil x)
        · exact hc
      rcases ih _ _ _ _ _ _ _ _ h tr htr with hm | hp
      · rcases List.mem_append.mp hm with hm2 | hm2
        · exact Or.inl hm2
        · exact Or.inr (htr3 tr hm2)
      · exact Or.inr hp

/-- Trace accumulation through the outer run loop. -/
theorem runLoop_trace (F : Nat) (sources targets : List Nat) :
    ∀ (fuel : Nat) (g : List REdge) (flow : Int) (bc : Nat) (snaps : List (List REdge))
      (travs : List Trav) (r : RunResult),
      runLoop F sources targets fuel g flow bc snaps travs = .ok r →
      ∀ tr ∈ r.travs, tr ∈ travs ∨ (1 ≤ tr.cap ∧ tr.lnode ≤ tr.ltgt) := by
  intro fuel
  induction fuel with
  | zero => intro _ _ _ _ _ _ h; exact absurd h (by simp [runLoop])
  | succ n ih =>
    intro g flow bc snaps travs r h tr htr
    simp only [runLoop] at h
    split at h
    · exact absurd h (by simp)
    · rename_i bst hbfs
      split at h
      · split at h
        · exact absurd h (by simp)
        · exact absurd h (by simp)
        · rename_i g2 fl2 sn2 tv2 hph
          rcases ih _ _ _ _ _ _ h tr htr with hm | hp
          · rcases dfsPhase_trace F bst.level sources targets F g flow snaps travs
              g2 fl2 sn2 tv2 hph tr hm with hm2 | hp2
            · exact Or.inl hm2
            · exact Or.inr hp2
          · exact Or.inr hp
      · simp only [MRes.ok.injEq] at h
        subst h
        exact Or.inl htr

/-! ## The sort/merge construction of the residual graph -/

theorem edgeLe_total (a b : REdge) : edgeLe a b = true ∨ edgeLe b a = true := by
  simp only [edgeLe, Bool.or_eq_true, Bool.and_eq_true, beq_iff_eq, decide_eq_true_eq]
  omega

theorem edgeLe_trans (a b c : REdge) :
    edgeLe a b = true → edgeLe b c = true → edgeLe a c = true := by
  simp only [edgeLe, Bool.or_eq_true, Bool.and_eq_true, beq_iff_eq, decide_eq_true_eq]
  omega

theorem edgeLe_keyLe (a b : REdge) (h : edgeLe a b = true) :
    keyLe (a.source, a.target) (b.source, b.target) := by
  simp only [edgeLe, Bool.or_eq_true, Bool.and_eq_true, beq_iff_eq, decide_eq_true_eq] at h
  simp only [keyLe]
  omega

theorem keyLe_ne_lt (k1 k2 : Nat × Nat) (hle : keyLe k1 k2) (hne : k1 ≠ k2) : keyLt k1 k2 := by
  have hne2 : k1.1 ≠ k2.1 ∨ k1.2 ≠ k2.2 := by
    by_contra hc
    push_neg at hc
    exact hne (Prod.ext hc.1 hc.2)
  simp only [keyLe] at hle
  simp only [keyLt]
  omega

theorem keyLt_of_lt_of_le (k1 k2 k3 : Nat × Nat) (h1 : keyLt k1 k2) (h2 : keyLe k2 k3) :
    keyLt k1 k3 := by
  simp only [keyLt, keyLe] at h1 h2 ⊢
  omega

theorem keyLt_irrefl (k : Nat × Nat) : ¬ keyLt k k := by
  simp only [keyLt]
  omega

theorem insertEdge_mem : ∀ (l : List REdge) (e x : REdge), x ∈ insertEdge e l → x = e ∨ x ∈ l := by
  intro l
  induction l with
  | nil =>
    intro e x hx
    simp only [insertEdge] at hx
    exact Or.inl (List.mem_singleton.mp hx)
  | cons a rest ih =>
    intro e x hx
    simp only [insertEdge] at hx
    by_cases h : edgeLe e a = true
    · rw [if_pos h] at hx
      rcases List.mem_cons.mp hx with rfl | hx2
      · exact Or.inl rfl
      · exact Or.inr hx2
    · rw [if_neg h] at hx
      rcases List.mem_cons.mp hx with rfl | hx2
      · exact Or.inr (List.mem_cons_self _ _)
      · rcases ih e x hx2 with h3 | h3
        · exact Or.inl h3
        · exact Or.inr (List.mem_cons_of_mem a h3)

theorem insertEdge_perm : ∀ (l : List REdge) (e : REdge), (insertEdge e l).Perm (e :: l) := by
  intro l
  induction l with
  | nil => intro e; simp [insertEdge]
  | cons a rest ih =>
    intro e
    simp only [insertEdge]
    by_cases h : edgeLe e a = true
    · rw [if_pos h]
    · rw [if_neg h]
      exact (List.Perm.cons a (ih e)).trans (List.Perm.swap e a rest)

theorem insertEdge_pairwise : ∀ (l : List REdge) (e : REdge),
    l.Pairwise (fun a b => edgeLe a b = true) →
    (insertEdge e l).Pairwise (fun a b => edgeLe a b = true) := by
  intro l
  induction l with
  | nil => intro e _; simp [insertEdge]
  | cons a rest ih =>
    intro e hp
    obtain ⟨ha, hrest⟩ := List.pairwise_cons.mp hp
    simp only [insertEdge]
    by_cases h : edgeLe e a = true
    · rw [if_pos h]
      refine List.pairwise_cons.mpr ⟨?_, hp⟩
      intro x hx
      rcases List.mem_cons.mp hx with rfl | hx2
      · exact h
      · exact edgeLe_trans e a x h (ha x hx2)
    · rw [if_neg h]
      refine List.pairwise_cons.mpr ⟨?_, ih e hrest⟩
      intro x hx
      rcases insertEdge_mem rest e x hx with rfl | hx2
      · rcases edgeLe_total a x with h2 | h2
        · exact h2
        · exact absurd h2 h
      · exact ha x hx2

theorem sortEdges_perm (l : List REdge) : (sortEdges l).Perm l := by
  induction l with
  | nil => simp [sortEdges]
  | cons a rest ih =>
    have : sortEdges (a :: rest) = insertEdge a (sortEdges rest) := rfl
    rw [this]
    exact (insertEdge_perm (sortEdges rest) a).trans (List.Perm.cons a ih)

theorem sortEdges_pairwise (l : List REdge) :
    (sortEdges l).Pairwise (fun a b => edgeLe a b = true) := by
  induction l with
  | nil => simp [sortEdges]
  | cons a rest ih => exact insertEdge_pairwise (sortEdges rest) a ih

theorem keyCapSum_cons (e : REdge) (l : List REdge) (k : Nat × Nat) :
    keyCapSum (e :: l) k =
      (if (e.source == k.1 && e.target == k.2) = true then e.capacity else 0) + keyCapSum l k := by
  simp only [keyCapSum, List.filter_cons]
  by_cases h : (e.source == k.1 && e.target == k.2) = true
  · rw [if_pos h, if_pos h]
    simp [List.map_cons]
  · rw [if_neg h, if_neg h]
    omega

theorem keyCapSum_nil (k : Nat × Nat) : keyCapSum [] k = 0 := rfl

theorem dedupMergeGo_keys : ∀ (l : List REdge) (cur : REdge) (k : Nat × Nat),
    k ∈ keysList (dedupMergeGo cur l) ↔ k = (cur.source, cur.target) ∨ k ∈ keysList l := by
  intro l
  induction l with
  | nil =>
    intro cur k
    simp [dedupMergeGo, keysList]
  | cons e rest ih =>
    intro cur k
    simp only [dedupMergeGo]
    by_cases h : (e.source == cur.source && e.target == cur.target) = true
    · rw [if_pos h]
      rw [ih]
      simp only [Bool.and_eq_true, beq_iff_eq] at h
      simp only [keysList, List.map_cons, List.mem_cons]
      constructor
      · intro hc
        rcases hc with hc | hc
        · exact Or.inl hc
        · exact Or.inr (Or.inr hc)
      · intro hc
        rcases hc with hc | hc | hc
        · exact Or.inl hc
        · rw [h.1, h.2] at hc
          exact Or.inl hc
        · exact Or.inr hc
    · rw [if_neg h]
      simp only [keysList, List.map_cons, List.mem_cons] at ih ⊢
      rw [ih]

theorem dedupMergeGo_capSum : ∀ (l : List REdge) (cur : REdge) (k : Nat × Nat),
    keyCapSum (dedupMergeGo cur l) k = keyCapSum (cur :: l) k := by
  intro l
  induction l with
  | nil => intro cur k; rfl
  | cons e rest ih =>
    intro cur k
    simp only [dedupMergeGo]
    by_cases h : (e.source == cur.source && e.target == cur.target) = true
    · rw [if_pos h]
      rw [ih]
      simp only [Bool.and_eq_true, beq_iff_eq] at h
      rw [keyCapSum_cons, keyCapSum_cons, keyCapSum_cons]
      have hcond : ((cur.source == k.1 && cur.target == k.2)) =
          ((e.source == k.1 && e.target == k.2)) := by
        rw [h.1, h.2]
      by_cases h2 : (cur.source == k.1 && cur.target == k.2) = true
      · rw [if_pos h2, if_pos h2, if_pos (hcond ▸ h2)]
        ring
      · rw [if_neg h2, if_neg h2, if_neg (fun hc => h2 (hcond ▸ hc))]
        ring
    · rw [if_neg h]
      rw [keyCapSum_cons, keyCapSum_cons, keyCapSum_cons, ih, keyCapSum_cons]

theorem dedupMergeGo_pairwise : ∀ (l : List REdge) (cur : REdge),
    (∀ x ∈ l, keyLe (cur.source, cur.target) (x.source, x.target)) →
    l.Pairwise (fun a b => edgeLe a b = true) →
    (dedupMergeGo cur l).Pairwise (fun a b => keyLt (a.source, a.target) (b.source, b.target)) := by
  intro l
  induction l with
  | nil => intro cur _ _; simp [dedupMergeGo]
  | cons e rest ih =>
    intro cur hle hp
    obtain ⟨he, hrest⟩ := List.pairwise_cons.mp hp
    simp only [dedupMergeGo]
    by_cases h : (e.source == cur.source && e.target == cur.target) = true
    · rw [if_pos h]
      refine ih _ ?_ hrest
      intro x hx
      simp only [Bool.and_eq_true, beq_iff_eq] at h
      show keyLe (cur.source, cur.target) (x.source, x.target)
      have : keyLe (e.source, e.target) (x.source, x.target) := edgeLe_keyLe e x (he x hx)
      rw [h.1, h.2] at this
      exact this
    · rw [if_neg h]
      refine List.pairwise_cons.mpr ⟨?_, ih e (fun x hx => edgeLe_keyLe e x (he x hx)) hrest⟩
      intro y hy
      have hcurlt : keyLt (cur.source, cur.target) (e.source, e.target) := by
        refine keyLe_ne_lt _ _ (hle e (List.mem_cons_self e rest)) ?_
        intro hc
        simp only [Prod.mk.injEq] at hc
        simp only [Bool.and_eq_true, beq_iff_eq] at h
        exact h ⟨hc.1.symm, hc.2.symm⟩
      have hykey : (y.source, y.target) = (e.source, e.target) ∨
          (y.source, y.target) ∈ keysList rest := by
        have := (dedupMergeGo_keys rest e (y.source, y.target)).mp
        exact this (by simp only [keysList]; exact List.mem_map_of_mem _ hy)
      rcases hykey with hk | hk
      · rw [hk]; exact hcurlt
      · simp only [keysList, List.mem_map] at hk
        obtain ⟨z, hz, hzk⟩ := hk
        rw [← hzk]
        exact keyLt_of_lt_of_le _ _ _ hcurlt (edgeLe_keyLe e z (he z hz))

theorem dedupMerge_keys (l : List REdge) (k : Nat × Nat) :
    k ∈ keysList (dedupMerge l) ↔ k ∈ keysList l := by
  match l with
  | [] => rfl
  | e :: rest =>
    simp only [dedupMerge]
    rw [dedupMergeGo_keys]
    simp [keysList]

theorem dedupMerge_capSum (l : List REdge) (k : Nat × Nat) :
    keyCapSum (dedupMerge l) k = keyCapSum l k := by
  match l with
  | [] => rfl
  | e :: rest => exact dedupMergeGo_capSum rest e k

theorem dedupMerge_pairwise (l : List REdge)
    (hp : l.Pairwise (fun a b => edgeLe a b = true)) :
    (dedupMerge l).Pairwise (fun a b => keyLt (a.source, a.target) (b.source, b.target)) := by
  match l with
  | [] => simp [dedupMerge]
  | e :: rest =>
    obtain ⟨he, hrest⟩ := List.pairwise_cons.mp hp
    exact dedupMergeGo_pairwise rest e (fun x hx => edgeLe_keyLe e x (he x hx)) hrest

/-! ## Facts about `buildResidual` -/

theorem buildResidual_pairwise (es : List REdge) :
    (buildResidual es).Pairwise (fun a b => keyLt (a.source, a.target) (b.source, b.target)) :=
  dedupMerge_pairwise _ (sortEdges_pairwise (extendReversed es))

theorem buildResidual_keyUnique (es : List REdge) : keyUnique (buildResidual es) := by
  have hp := buildResidual_pairwise es
  show (List.map (fun e => (e.source, e.target)) (buildResidual es)).Pairwise Ne
  rw [List.pairwise_map]
  refine hp.imp (fun hab => ?_)
  intro hc
  exact keyLt_irrefl _ (hc ▸ hab)

theorem keysList_append (l1 l2 : List REdge) :
    keysList (l1 ++ l2) = keysList l1 ++ keysList l2 := by
  simp [keysList]

theorem extendReversed_keys (l : List REdge) :
    keysList (extendReversed l) = keysList l ++ (keysList l).map Prod.swap := by
  unfold extendReversed
  rw [keysList_append]
  congr 1
  simp only [keysList, List.map_map]
  rfl

theorem extendReversed_keys_mem (l : List REdge) (k : Nat × Nat) :
    k ∈ keysList (extendReversed l) ↔ k ∈ keysList l ∨ (k.2, k.1) ∈ keysList l := by
  rw [extendReversed_keys, List.mem_append]
  constructor
  · intro h
    rcases h with h | h
    · exact Or.inl h
    · obtain ⟨k0, hk0, hks⟩ := List.mem_map.mp h
      refine Or.inr ?_
      have : (k.2, k.1) = k0 := by rw [← hks]; rfl
      rw [this]
      exact hk0
  · intro h
    rcases h with h | h
    · exact Or.inl h
    · refine Or.inr (List.mem_map.mpr ⟨(k.2, k.1), h, rfl⟩)

theorem keyCapSum_append (l1 l2 : List REdge) (k : Nat × Nat) :
    keyCapSum (l1 ++ l2) k = keyCapSum l1 k + keyCapSum l2 k := by
  simp only [keyCapSum, List.filter_append, List.map_append, List.sum_append]

theorem keyCapSum_zero_caps (l : List REdge) (hz : ∀ e ∈ l, e.capacity = 0) (k : Nat × Nat) :
    keyCapSum l k = 0 := by
  induction l with
  | nil => rfl
  | cons e rest ih =>
    rw [keyCapSum_cons, ih (fun x hx => hz x (List.mem_cons_of_mem e hx))]
    have he := hz e (List.mem_cons_self e rest)
    by_cases h : (e.source == k.1 && e.target == k.2) = true
    · rw [if_pos h, he]; ring
    · rw [if_neg h]; ring

theorem keyCapSum_perm (l1 l2 : List REdge) (h : l1.Perm l2) (k : Nat × Nat) :
    keyCapSum l1 k = keyCapSum l2 k := by
  unfold keyCapSum
  exact List.Perm.sum_eq (List.Perm.map _ (List.Perm.filter _ h))

theorem keysList_perm (l1 l2 : List REdge) (h : l1.Perm l2) : (keysList l1).Perm (keysList l2) :=
  List.Perm.map _ h

/-- Key membership in the built residual graph is key membership in the
doubled edge list. -/
theorem buildResidual_keys_mem (es : List REdge) (k : Nat × Nat) :
    k ∈ keysList (buildResidual es) ↔ k ∈ keysList (extendReversed es) := by
  unfold buildResidual
  rw [dedupMerge_keys]
  exact (keysList_perm _ _ (sortEdges_perm (extendReversed es))).mem_iff

/-- The built residual graph accumulates exactly the keyed capacity sums of
the doubled edge list. -/
theorem buildResidual_capSum (es : List REdge) (k : Nat × Nat) :
    keyCapSum (buildResidual es) k = keyCapSum (extendReversed es) k := by
  unfold buildResidual
  rw [dedupMerge_capSum]
  exact keyCapSum_perm _ _ (sortEdges_perm (extendReversed es)) k

theorem buildResidual_revClosed (es : List REdge) : revClosed (buildResidual es) := by
  intro k hk
  rw [buildResidual_keys_mem] at hk ⊢
  rw [extendReversed_keys] at hk ⊢
  rcases List.mem_append.mp hk with hm | hm
  · refine List.mem_append.mpr (Or.inr ?_)
    refine List.mem_map.mpr ⟨k, hm, rfl⟩
  · obtain ⟨k0, hk0, hks⟩ := List.mem_map.mp hm
    refine List.mem_append.mpr (Or.inl ?_)
    have : (k.2, k.1) = k0 := by
      rw [← hks]
      rfl
    rw [this]
    exact hk0

theorem buildResidual_idsBdd (es : List REdge)
    (h : ∀ e ∈ es, e.source < USIZE_MAX - 1 ∧ e.target < USIZE_MAX - 1) :
    idsBdd (buildResidual es) := by
  intro k hk
  rw [buildResidual_keys_mem, extendReversed_keys] at hk
  rcases List.mem_append.mp hk with hm | hm
  · obtain ⟨e, he, hke⟩ := List.mem_map.mp hm
    obtain ⟨h1, h2⟩ := h e he
    rw [← hke]
    exact ⟨h1, h2⟩
  · obtain ⟨k0, hk0, hks⟩ := List.mem_map.mp hm
    obtain ⟨e, he, hke⟩ := List.mem_map.mp hk0
    obtain ⟨h1, h2⟩ := h e he
    rw [← hks, ← hke]
    exact ⟨h2, h1⟩

/-- A key absent from a list contributes capacity sum 0. -/
theorem keyCapSum_not_mem (l : List REdge) (k : Nat × Nat) (h : k ∉ keysList l) :
    keyCapSum l k = 0 := by
  induction l with
  | nil => rfl
  | cons e rest ih =>
    rw [keyCapSum_cons]
    have hne : ¬ (e.source == k.1 && e.target == k.2) = true := by
      intro hc
      simp only [Bool.and_eq_true, beq_iff_eq] at hc
      refine h ?_
      simp only [keysList, List.map_cons, List.mem_cons]
      exact Or.inl (by rw [hc.1, hc.2])
    rw [if_neg hne, ih (fun hc => h (by
      simp only [keysList, List.map_cons, List.mem_cons]
      simp only [keysList] at hc
      exact Or.inr hc))]
    ring

/-- Two strictly key-sorted edge lists with the same key membership and the
same keyed capacity sums are equal. -/
theorem keySorted_ext :
    ∀ (l1 l2 : List REdge),
      l1.Pairwise (fun a b => keyLt (a.source, a.target) (b.source, b.target)) →
      l2.Pairwise (fun a b => keyLt (a.source, a.target) (b.source, b.target)) →
      (∀ k, k ∈ keysList l1 ↔ k ∈ keysList l2) →
      (∀ k, keyCapSum l1 k = keyCapSum l2 k) →
      l1 = l2 := by
  intro l1
  induction l1 with
  | nil =>
    intro l2 _ _ hmem _
    match l2 with
    | [] => rfl
    | b :: l2' =>
      have : (b.source, b.target) ∈ keysList ([] : List REdge) :=
        (hmem _).mpr (by simp [keysList])
      simp [keysList] at this
  | cons a l1' ih =>
    intro l2 hp1 hp2 hmem hcap
    match l2 with
    | [] =>
      have : (a.source, a.target) ∈ keysList ([] : List REdge) :=
        (hmem _).mp (by simp [keysList])
      simp [keysList] at this
    | b :: l2' =>
      obtain ⟨ha1, hp1'⟩ := List.pairwise_cons.mp hp1
      obtain ⟨hb1, hp2'⟩ := List.pairwise_cons.mp hp2
      have hnotin1 : (a.source, a.target) ∉ keysList l1' := by
        intro hc
        simp only [keysList, List.mem_map] at hc
        obtain ⟨z, hz, hzk⟩ := hc
        exact keyLt_irrefl _ (hzk ▸ ha1 z hz)
      have hnotin2 : (b.source, b.target) ∉ keysList l2' := by
        intro hc
        simp only [keysList, List.mem_map] at hc
        obtain ⟨z, hz, hzk⟩ := hc
        exact keyLt_irrefl _ (hzk ▸ hb1 z hz)
      have hkeyab : (a.source, a.target) = (b.source, b.target) := by
        have hamem : (a.source, a.target) ∈ keysList (b :: l2') :=
          (hmem _).mp (by simp [keysList])
        have hbmem : (b.source, b.target) ∈ keysList (a :: l1') :=
          (hmem _).mpr (by simp [keysList])
        simp only [keysList, List.map_cons, List.mem_cons] at hamem hbmem
        rcases hamem with h1 | h1
        · exact h1
        · rcases hbmem with h2 | h2
          · exact h2.symm
          · exfalso
            simp only [List.mem_map] at h1 h2
            obtain ⟨z1, hz1, hz1k⟩ := h1
            obtain ⟨z2, hz2, hz2k⟩ := h2
            have hlt1 : keyLt (b.source, b.target) (a.source, a.target) :=
              hz1k ▸ hb1 z1 hz1
            have hlt2 : keyLt (a.source, a.target) (b.source, b.target) :=
              hz2k ▸ ha1 z2 hz2
            simp only [keyLt] at hlt1 hlt2
            omega
      have hcapa : a.capacity = b.capacity := by
        have h1 := hcap (a.source, a.target)
        rw [keyCapSum_cons, keyCapSum_cons] at h1
        rw [keyCapSum_not_mem l1' _ hnotin1, keyCapSum_not_mem l2' _ (hkeyab ▸ hnotin2)] at h1
        simp only [Prod.mk.injEq] at hkeyab
        rw [if_pos (by simp), if_pos (by simp [hkeyab.1, hkeyab.2])] at h1
        omega
      have hab : a = b := by
        simp only [Prod.mk.injEq] at hkeyab
        cases a; cases b
        simp only [REdge.mk.injEq]
        simp only at hkeyab hcapa
        exact ⟨hkeyab.1, hkeyab.2, hcapa⟩
      subst hab
      have htails : l1' = l2' := by
        refine ih l2' hp1' hp2' ?_ ?_
        · intro k
          constructor
          · intro hk
            have hk2 : k ∈ keysList (a :: l2') := (hmem k).mp (by
              simp only [keysList, List.map_cons, List.mem_cons]
              simp only [keysList] at hk
              exact Or.inr hk)
            simp only [keysList, List.map_cons, List.mem_cons] at hk2
            rcases hk2 with h1 | h1
            · exact absurd (h1 ▸ hk) hnotin1
            · exact h1
          · intro hk
            have hk2 : k ∈ keysList (a :: l1') := (hmem k).mpr (by
              simp only [keysList, List.map_cons, List.mem_cons]
              simp only [keysList] at hk
              exact Or.inr hk)
            simp only [keysList, List.map_cons, List.mem_cons] at hk2
            rcases hk2 with h1 | h1
            · exact absurd (h1 ▸ hk) hnotin2
            · exact h1
        · intro k
          by_cases hka : k = (a.source, a.target)
          · rw [hka, keyCapSum_not_mem l1' _ hnotin1, keyCapSum_not_mem l2' _ hnotin2]
          · have h1 := hcap k
            rw [keyCapSum_cons, keyCapSum_cons] at h1
            have hcond : ¬ (a.source == k.1 && a.target == k.2) = true := by
              intro hc
              simp only [Bool.and_eq_true, beq_iff_eq] at hc
              exact hka (Prod.ext hc.1.symm hc.2.symm)
            rw [if_neg hcond] at h1
            omega
      rw [htails]

/-! ## Bounds on `numberOfNodes` and termination of the `assignment` flood -/

theorem foldl_max_le_init (l : List REdge) :
    ∀ a : Nat, a ≤ l.foldl (fun m e => max m (max (e.source + 1) (e.target + 1))) a := by
  induction l with
  | nil => intro a; exact Nat.le_refl a
  | cons e rest ih =>
    intro a
    exact le_trans (Nat.le_max_left a _) (ih (max a (max (e.source + 1) (e.target + 1))))

theorem foldl_max_mem (l : List REdge) :
    ∀ (a : Nat), ∀ e ∈ l,
      max (e.source + 1) (e.target + 1) ≤
        l.foldl (fun m e => max m (max (e.source + 1) (e.target + 1))) a := by
  induction l with
  | nil => intro a e he; exact absurd he (List.not_mem_nil e)
  | cons x rest ih =>
    intro a e he
    rcases List.mem_cons.mp he with rfl | hmem
    · exact le_trans (Nat.le_max_right a _) (foldl_max_le_init rest _)
    · exact ih _ e hmem

/-- Every node id referenced by a graph edge is below `numberOfNodes`. -/
theorem numberOfNodes_bound (g : List REdge) (e : REdge) (he : e ∈ g) :
    e.source < numberOfNodes g ∧ e.target < numberOfNodes g := by
  have h := foldl_max_mem g 0 e he
  unfold numberOfNodes
  omega

/-- The number of not-yet-reached node indices below `n`. -/
def unmarked (n : Nat) (reach : Nat → Bool) : Nat :=
  ((Finset.range n).filter (fun x => reach x = false)).card

theorem unmarked_le (n : Nat) (reach : Nat → Bool) : unmarked n reach ≤ n := by
  calc ((Finset.range n).filter (fun x => reach x = false)).card
      ≤ (Finset.range n).card := Finset.card_filter_le _ _
    _ = n := Finset.card_range n

theorem unmarked_mark (n node : Nat) (reach : Nat → Bool) (hn : node < n)
    (hr : reach node = false) :
    unmarked n (fun x => if x = node then true else reach x) + 1 = unmarked n reach := by
  unfold unmarked
  have hset : (Finset.range n).filter (fun x => (fun x => if x = node then true else reach x) x = false)
      = ((Finset.range n).filter (fun x => reach x = false)).erase node := by
    ext x
    simp only [Finset.mem_filter, Finset.mem_erase, Finset.mem_range]
    constructor
    · intro ⟨hx, hcond⟩
      by_cases hxe : x = node
      · rw [if_pos hxe] at hcond; exact absurd hcond (by simp)
      · rw [if_neg hxe] at hcond; exact ⟨hxe, hx, hcond⟩
    · intro ⟨hxe, hx, hcond⟩
      exact ⟨hx, by rw [if_neg hxe]; exact hcond⟩
  rw [hset]
  have hmem : node ∈ (Finset.range n).filter (fun x => reach x = false) := by
    simp only [Finset.mem_filter, Finset.mem_range]
    exact ⟨hn, hr⟩
  have hpos : 0 < ((Finset.range n).filter (fun x => reach x = false)).card :=
    Finset.card_pos.mpr ⟨node, hmem⟩
  rw [Finset.card_erase_of_mem hmem]
  omega

theorem unmarked_pos (n node : Nat) (reach : Nat → Bool) (hn : node < n)
    (hr : reach node = false) : 1 ≤ unmarked n reach := by
  have := unmarked_mark n node reach hn hr
  omega

/-- The edge scan of the flood succeeds and produces a bounded push list
when all edge heads are in bounds. -/
theorem assignScan_ok (n : Nat) (reach : Nat → Bool) :
    ∀ es : List REdge, (∀ e ∈ es, e.target < n) →
      ∃ pushes, assignScan n reach es = .ok pushes ∧ pushes.length ≤ es.length ∧
        ∀ x ∈ pushes, x < n := by
  intro es
  induction es with
  | nil => intro _; exact ⟨[], rfl, by simp, by simp⟩
  | cons e rest ih =>
    intro hb
    obtain ⟨pushes, hok, hlen, hmem⟩ := ih (fun x hx => hb x (List.mem_cons_of_mem e hx))
    have ht : e.target < n := hb e (List.mem_cons_self e rest)
    refine ⟨if !reach e.target && e.capacity > 0 then e.target :: pushes else pushes, ?_, ?_, ?_⟩
    · simp only [assignScan, if_pos ht, hok]
      by_cases hc : !reach e.target && e.capacity > 0
      · rw [if_pos hc, if_pos hc]
      · rw [if_neg hc, if_neg hc]
    · by_cases hc : !reach e.target && e.capacity > 0
      · rw [if_pos hc]; simp only [List.length_cons]; omega
      · rw [if_neg hc]; simp only [List.length_cons]; omega
    · intro x hx
      by_cases hc : !reach e.target && e.capacity > 0
      · rw [if_pos hc] at hx
        rcases List.mem_cons.mp hx with rfl | hx2
        · exact ht
        · exact hmem x hx2
      · rw [if_neg hc] at hx; exact hmem x hx

theorem edgeRange_sublist (g : List REdge) (u : Nat) : (edgeRange g u).length ≤ g.length :=
  List.length_filter_le _ g

theorem edgeRange_mem (g : List REdge) (u : Nat) (e : REdge) (he : e ∈ edgeRange g u) :
    e ∈ g ∧ e.source = u := by
  have h := List.mem_filter.mp he
  exact ⟨h.1, by simpa using h.2⟩

/-- The flood loop returns `ok` when given in-bounds stack entries, a
big-enough unmarked budget, and the fuel bound of `assignFuel`. -/
theorem assignLoop_ok (g : List REdge) (n : Nat) (hgb : ∀ e ∈ g, e.target < n) :
    ∀ (fuel : Nat) (stack : List Nat) (reach : Nat → Bool) (u : Nat),
      (∀ x ∈ stack, x < n) → unmarked n reach ≤ u →
      stack.length + u * (g.length + 1) ≤ fuel →
      ∃ r, assignLoop g n fuel stack reach = .ok r := by
  intro fuel
  induction fuel with
  | zero =>
    intro stack reach u hs hu hf
    match stack with
    | [] => exact ⟨reach, rfl⟩
    | x :: rest => simp only [List.length_cons] at hf; omega
  | succ f ih =>
    intro stack reach u hs hu hf
    match stack with
    | [] => exact ⟨reach, rfl⟩
    | node :: rest =>
      have hn : node < n := hs node (List.mem_cons_self node rest)
      simp only [assignLoop, if_pos hn]
      by_cases hr : reach node
      · rw [if_pos hr]
        exact ih rest reach u (fun x hx => hs x (List.mem_cons_of_mem node hx)) hu
          (by simp only [List.length_cons] at hf; omega)
      · rw [if_neg hr]
        have hrf : reach node = false := by simpa using hr
        obtain ⟨pushes, hok, hlen, hpmem⟩ :=
          assignScan_ok n (fun x => if x = node then true else reach x)
            (edgeRange g node) (fun e he => hgb e (edgeRange_mem g node e he).1)
        rw [hok]
        have hu1 : 1 ≤ u := le_trans (unmarked_pos n node reach hn hrf) hu
        refine ih (pushes.reverse ++ rest) _ (u - 1) ?_ ?_ ?_
        · intro x hx
          rcases List.mem_append.mp hx with hx2 | hx2
          · exact hpmem x (List.mem_reverse.mp hx2)
          · exact hs x (List.mem_cons_of_mem node hx2)
        · have := unmarked_mark n node reach hn hrf
          omega
        · have h1 : pushes.length ≤ g.length :=
            le_trans hlen (edgeRange_sublist g node)
          simp only [List.length_append, List.length_reverse, List.length_cons] at hf ⊢
          have hu' : u = (u - 1) + 1 := by omega
          have hx : u * (g.length + 1) = (u - 1) * (g.length + 1) + (g.length + 1) := by
            conv_lhs => rw [hu']
            rw [Nat.succ_mul]
          omega

/-- After `run` has finished, `assignment` with in-bounds sources and the
`assignFuel` budget returns an `Ok` bit vector. -/
theorem assignment_ok (d : Dinic) (srcs : List Nat) (hfin : d.finished = true)
    (hs : ∀ x ∈ srcs, x < numberOfNodes d.graph) :
    ∃ bs, assignment d srcs (assignFuel d.graph srcs) = .ok (.ok bs) := by
  obtain ⟨r, hr⟩ := assignLoop_ok d.graph (numberOfNodes d.graph)
    (fun e he => (numberOfNodes_bound d.graph e he).2)
    (assignFuel d.graph srcs) srcs.reverse (fun _ => false) (numberOfNodes d.graph)
    (fun x hx => hs x (List.mem_reverse.mp hx))
    (unmarked_le _ _)
    (by simp only [assignFuel, List.length_reverse]; omega)
  refine ⟨(List.range (numberOfNodes d.graph)).map r, ?_⟩
  simp only [assignment, hfin, Bool.not_true, Bool.false_eq_true, if_false, hr]

/-! ## Capacity conservation: `cap(u→v) + cap(v→u)` is invariant -/

theorem findEdge_updCap_same (u v : Nat) (d : Int) :
    ∀ g : List REdge,
      findEdge (updCap u v d g) u v =
        Option.map (fun e => REdge.mk e.source e.target (e.capacity + d)) (findEdge g u v) := by
  intro g
  induction g with
  | nil => rfl
  | cons e rest ih =>
    by_cases h : (e.source == u && e.target == v) = true
    · simp only [updCap, findEdge, h, if_pos]
      rw [List.find?_cons_of_pos _ (by simpa using h), List.find?_cons_of_pos _ (by simpa using h)]
      rfl
    · simp only [updCap, findEdge, h, Bool.false_eq_true, if_false] at ih ⊢
      rw [List.find?_cons_of_neg _ (by simpa using h), List.find?_cons_of_neg _ (by simpa using h)]
      exact ih

theorem findEdge_updCap_ne (u v a b : Nat) (d : Int) (hne : ¬(a = u ∧ b = v)) :
    ∀ g : List REdge, findEdge (updCap u v d g) a b = findEdge g a b := by
  intro g
  induction g with
  | nil => rfl
  | cons e rest ih =>
    by_cases h : (e.source == u && e.target == v) = true
    · have hk : e.source = u ∧ e.target = v := by
        simp only [Bool.and_eq_true, beq_iff_eq] at h; exact h
      have hp : ¬((e.source == a && e.target == b) = true) := by
        simp only [Bool.and_eq_true, beq_iff_eq]
        intro hc
        exact hne ⟨hc.1 ▸ hk.1.symm ▸ rfl, hc.2 ▸ hk.2.symm ▸ rfl⟩
      simp only [updCap, h, if_pos, findEdge]
      rw [List.find?_cons_of_neg _ (by simpa using hp), List.find?_cons_of_neg _ (by simpa using hp)]
    · simp only [updCap, h, Bool.false_eq_true, if_false, findEdge] at ih ⊢
      by_cases hp : (e.source == a && e.target == b) = true
      · rw [List.find?_cons_of_pos _ (by simpa using hp),
          List.find?_cons_of_pos _ (by simpa using hp)]
      · rw [List.find?_cons_of_neg _ (by simpa using hp),
          List.find?_cons_of_neg _ (by simpa using hp)]
        exact ih

theorem updCap_keys (u v : Nat) (d : Int) :
    ∀ g : List REdge, keysList (updCap u v d g) = keysList g := by
  intro g
  induction g with
  | nil => rfl
  | cons e rest ih =>
    by_cases h : (e.source == u && e.target == v) = true
    · simp only [updCap, h, if_pos, keysList, List.map_cons]
    · simp only [updCap, h, Bool.false_eq_true, if_false, keysList, List.map_cons] at ih ⊢
      rw [ih]

/-- One parent-chain step of the augmentation (forward `-fl`, reverse `+fl`)
leaves every `capSum` pair unchanged, provided the two looked-up edges
exist and the step is not a self-loop. -/
theorem capSum_step (g : List REdge) (u v : Nat) (fl : Int) (hne : u ≠ v)
    (e1 e2 : REdge) (hfwd : findEdge g u v = some e1)
    (hrev : findEdge (updCap u v (-fl) g) v u = some e2) :
    ∀ a b, capSum (updCap v u fl (updCap u v (-fl) g)) a b = capSum g a b := by
  intro a b
  have hrev0 : findEdge g v u = some e2 := by
    rw [← findEdge_updCap_ne u v v u (-fl) (fun hc => hne hc.1.symm) g]
    exact hrev
  unfold capSum
  by_cases h1 : a = u ∧ b = v
  · obtain ⟨rfl, rfl⟩ := h1
    rw [findEdge_updCap_ne b a a b fl (fun hc => hne hc.1) _,
      findEdge_updCap_same a b (-fl) g, hfwd,
      findEdge_updCap_same b a fl _, hrev, hrev0]
    show (e1.capacity + -fl) + (e2.capacity + fl) = e1.capacity + e2.capacity
    ring
  · by_cases h2 : a = v ∧ b = u
    · obtain ⟨rfl, rfl⟩ := h2
      rw [findEdge_updCap_same a b fl _, hrev,
        findEdge_updCap_ne a b b a fl (fun hc => hne hc.1) _,
        findEdge_updCap_same b a (-fl) g, hfwd, hrev0]
      show (e2.capacity + fl) + (e1.capacity + -fl) = e2.capacity + e1.capacity
      ring
    · rw [findEdge_updCap_ne v u a b fl h2 _,
        findEdge_updCap_ne u v a b (-fl) h1 _,
        findEdge_updCap_ne v u b a fl (fun hc => h1 ⟨hc.2, hc.1⟩) _,
        findEdge_updCap_ne u v b a (-fl) (fun hc => h2 ⟨hc.2, hc.1⟩) _]

/-- The whole path unwinding preserves the key list and every `capSum`. -/
theorem augmentGo_preserves (parents : Nat → Nat) (fl : Int) :
    ∀ (fuel v : Nat) (g g2 : List REdge),
      augmentGo parents fl fuel v g = .ok g2 →
      keysList g2 = keysList g ∧ ∀ a b, capSum g2 a b = capSum g a b := by
  intro fuel
  induction fuel with
  | zero => intro v g g2 h; exact absurd h (by simp [augmentGo])
  | succ f ih =>
    intro v g g2 h
    simp only [augmentGo] at h
    split at h
    · simp only [MRes.ok.injEq] at h
      subst h
      exact ⟨rfl, fun a b => rfl⟩
    · rename_i hvne
      split at h
      · exact absurd h (by simp)
      · rename_i e1 hfwd
        split at h
        · exact absurd h (by simp)
        · rename_i e2 hrev
          obtain ⟨hk, hc⟩ := ih (parents v) _ g2 h
          refine ⟨?_, ?_⟩
          · rw [hk, updCap_keys, updCap_keys]
          · intro a b
            rw [hc a b, capSum_step g (parents v) v fl hvne e1 e2 hfwd hrev a b]

/-- The DFS stack loop changes the graph only through one augmentation. -/
theorem dfsLoop_graph (g : List REdge) (level : Nat → Nat) (augFuel : Nat) :
    ∀ (fuel : Nat) (parents : Nat → Nat) (stack : List (Nat × Int)) (trace : List Trav)
      (o : Option Int) (g2 : List REdge) (tr2 : List Trav),
      dfsLoop g level augFuel fuel parents stack trace = .ok (o, g2, tr2) →
      keysList g2 = keysList g ∧ ∀ a b, capSum g2 a b = capSum g a b := by
  intro fuel
  induction fuel with
  | zero => intro _ _ _ _ _ _ h; exact absurd h (by simp [dfsLoop])
  | succ n ih =>
    intro parents stack trace o g2 tr2 h
    simp only [dfsLoop] at h
    split at h
    · simp only [MRes.ok.injEq, Prod.mk.injEq] at h
      obtain ⟨-, hg, -⟩ := h
      exact hg ▸ ⟨rfl, fun a b => rfl⟩
    · rename_i node flow srest
      split at h
      · exact ih _ _ _ o g2 tr2 h
      · rename_i tgt fl p2 t2 hstep
        split at h
        · rename_i g3 haug
          simp only [MRes.ok.injEq, Prod.mk.injEq] at h
          obtain ⟨-, hg, -⟩ := h
          exact hg ▸ augmentGo_preserves p2 fl augFuel tgt g g3 haug
        · exact absurd h (by simp)
        · exact absurd h (by simp)

/-- Conservation through one blocking-flow phase, relative to the
construction graph `g0`, for the running graph and every snapshot. -/
theorem dfsPhase_graph (F : Nat) (level : Nat → Nat) (s t : List Nat) (g0 : List REdge) :
    ∀ (fuel : Nat) (g : List REdge) (flow : Int) (snaps : List (List REdge)) (travs : List Trav)
      (g2 : List REdge) (fl2 : Int) (sn2 : List (List REdge)) (tv2 : List Trav),
      dfsPhase F level s t fuel g flow snaps travs = .ok (g2, fl2, sn2, tv2) →
      (keysList g = keysList g0 ∧ ∀ a b, capSum g a b = capSum g0 a b) →
      (∀ gs ∈ snaps, keysList gs = keysList g0 ∧ ∀ a b, capSum gs a b = capSum g0 a b) →
      (keysList g2 = keysList g0 ∧ ∀ a b, capSum g2 a b = capSum g0 a b) ∧
      (∀ gs ∈ sn2, keysList gs = keysList g0 ∧ ∀ a b, capSum gs a b = capSum g0 a b) := by
  intro fuel
  induction fuel with
  | zero => intro _ _ _ _ _ _ _ _ h; exact absurd h (by simp [dfsPhase])
  | succ n ih =>
    intro g flow snaps travs g2 fl2 sn2 tv2 h hg hsn
    simp only [dfsPhase] at h
    split at h
    · exact absurd h (by simp)
    · exact absurd h (by simp)
    · rename_i g3 tr3 hrun
      obtain ⟨hk3, hc3⟩ := dfsLoop_graph g level F F _ _ _ none g3 tr3 hrun
      simp only [MRes.ok.injEq, Prod.mk.injEq] at h
      obtain ⟨hgg, -, hss, -⟩ := h
      subst hgg; subst hss
      exact ⟨⟨hk3.trans hg.1, fun a b => (hc3 a b).trans (hg.2 a b)⟩, hsn⟩
    · rename_i pushed g3 tr3 hrun
      obtain ⟨hk3, hc3⟩ := dfsLoop_graph g level F F _ _ _ (some pushed) g3 tr3 hrun
      have hg3 : keysList g3 = keysList g0 ∧ ∀ a b, capSum g3 a b = capSum g0 a b :=
        ⟨hk3.trans hg.1, fun a b => (hc3 a b).trans (hg.2 a b)⟩
      exact ih g3 _ _ _ g2 fl2 sn2 tv2 h hg3
        (fun gs hgs => by
          rcases List.mem_append.mp hgs with hm | hm
          · exact hsn gs hm
          · rcases List.mem_singleton.mp hm with rfl
            exact hg3)

/-- Conservation through the whole run loop. -/
theorem runLoop_graph (F : Nat) (s t : List Nat) (g0 : List REdge) :
    ∀ (fuel : Nat) (g : List REdge) (flow : Int) (bc : Nat) (snaps : List (List REdge))
      (travs : List Trav) (r : RunResult),
      runLoop F s t fuel g flow bc snaps travs = .ok r →
      (keysList g = keysList g0 ∧ ∀ a b, capSum g a b = capSum g0 a b) →
      (∀ gs ∈ snaps, keysList gs = keysList g0 ∧ ∀ a b, capSum gs a b = capSum g0 a b) →
      (keysList r.graph = keysList g0 ∧ ∀ a b, capSum r.graph a b = capSum g0 a b) ∧
      (∀ gs ∈ r.snaps, keysList gs = keysList g0 ∧ ∀ a b, capSum gs a b = capSum g0 a b) := by
  intro fuel
  induction fuel with
  | zero => intro _ _ _ _ _ _ h; exact absurd h (by simp [runLoop])
  | succ n ih =>
    intro g flow bc snaps travs r h hg hsn
    simp only [runLoop] at h
    split at h
    · exact absurd h (by simp)
    · rename_i bst hbfs
      split at h
      · split at h
        · exact absurd h (by simp)
        · exact absurd h (by simp)
        · rename_i g2 fl2 sn2 tv2 hph
          obtain ⟨hg2, hsn2⟩ :=
            dfsPhase_graph F bst.level s t g0 F g flow snaps travs g2 fl2 sn2 tv2 hph hg hsn
          exact ih g2 fl2 (bc + 1) sn2 tv2 r h hg2 hsn2
      · simp only [MRes.ok.injEq] at h
        subst h
        exact ⟨hg, hsn⟩

/-! ## BFS phase invariants -/

theorem USIZE_MAX_eq : USIZE_MAX = 18446744073709551615 := by norm_num [USIZE_MAX]

theorem foldl_upd_const (c : Nat) :
    ∀ (l : List Nat) (f : Nat → Nat) (x : Nat),
      (l.foldl (fun f s => upd f s c) f) x = if x ∈ l then c else f x := by
  intro l
  induction l with
  | nil => intro f x; simp
  | cons a rest ih =>
    intro f x
    simp only [List.foldl_cons, ih, upd]
    by_cases hr : x ∈ rest
    · rw [if_pos hr, if_pos (List.mem_cons_of_mem a hr)]
    · rw [if_neg hr]
      by_cases ha : x = a
      · rw [if_pos ha, if_pos (ha ▸ List.mem_cons_self a rest)]
      · rw [if_neg ha, if_neg (by simp [ha, hr])]

/-- The initial BFS level array: targets get `USIZE_MAX - 1`, remaining
sources 0, everything else `USIZE_MAX`. -/
theorem bfsInitLevel_eq (s t : List Nat) (x : Nat) :
    bfsInitLevel s t x = if x ∈ t then USIZE_MAX - 1 else if x ∈ s then 0 else USIZE_MAX := by
  unfold bfsInitLevel
  rw [foldl_upd_const, foldl_upd_const]

theorem BfsOk_mono (tg : List Nat) (K fuel : Nat) (st : BfsState)
    (h : BfsOk tg K (fuel + 1) st) : BfsOk tg K fuel st := by
  obtain ⟨h1, h2, h3, h4, h5, h6, h7, h8⟩ := h
  exact ⟨fun v hv => by have := h1 v hv; omega, h2, h3, h4, h5, h6, h7, h8⟩

/-- The BFS edge scan preserves the invariant and does not disturb the
level of the node being expanded. -/
theorem bfsFold_inv (tg : List Nat) (K fuel : Nat) (hK : K + 1 < USIZE_MAX - 1) (u : Nat) :
    ∀ (es : List REdge) (st : BfsState),
      st.level u < USIZE_MAX - 1 →
      st.level u + 1 + fuel ≤ K →
      BfsOk tg K fuel st →
      (List.foldl (bfsEdge u) st es).level u = st.level u ∧
      BfsOk tg K fuel (List.foldl (bfsEdge u) st es) := by
  intro es
  induction es with
  | nil => intro st hu hub hok; exact ⟨rfl, hok⟩
  | cons e rest ih =>
    intro st hu hub hok
    obtain ⟨h1, h2, h3, h4, h5, h6, h7, h8⟩ := hok
    simp only [List.foldl_cons]
    by_cases hc : e.capacity < 1
    · rw [show bfsEdge u st e = st by simp only [bfsEdge, if_pos hc]]
      exact ih st hu hub ⟨h1, h2, h3, h4, h5, h6, h7, h8⟩
    · by_cases hv : st.level e.target < USIZE_MAX - 1
      · rw [show bfsEdge u st e = st by simp only [bfsEdge, if_neg hc, if_pos hv]]
        exact ih st hu hub ⟨h1, h2, h3, h4, h5, h6, h7, h8⟩
      · have hne : e.target ≠ u := fun hh => hv (hh ▸ hu)
        have hlvl : ∀ x, (upd st.level e.target (st.level u + 1)) x =
            if x = e.target then st.level u + 1 else st.level x := fun x => rfl
        have hrange : USIZE_MAX - 1 ≤ st.level e.target := by omega
        have hassign_ne : st.level u + 1 ≠ USIZE_MAX - 1 := by
          rw [USIZE_MAX_eq] at hK ⊢; omega
        have hassign_lt : st.level u + 1 < USIZE_MAX - 1 := by
          rw [USIZE_MAX_eq] at hK ⊢; omega
        have hulvl : (upd st.level e.target (st.level u + 1)) u = st.level u := by
          rw [hlvl u, if_neg (fun hh => hne hh.symm)]
        have hq1 : ∀ v ∈ st.queue, (upd st.level e.target (st.level u + 1)) v + fuel ≤ K := by
          intro v hv2
          rw [hlvl v]
          by_cases hve : v = e.target
          · rw [if_pos hve]
            have := h1 v hv2
            rw [hve] at this
            rw [USIZE_MAX_eq] at hK hrange
            omega
          · rw [if_neg hve]; exact h1 v hv2
        have hq2 : ∀ v, (upd st.level e.target (st.level u + 1)) v = USIZE_MAX - 1 → v ∈ tg := by
          intro v hveq
          rw [hlvl v] at hveq
          by_cases hve : v = e.target
          · rw [if_pos hve] at hveq; exact absurd hveq hassign_ne
          · rw [if_neg hve] at hveq; exact h2 v hveq
        have hq3 : ∀ x ∈ tg, (upd st.level e.target (st.level u + 1)) x ≠ USIZE_MAX := by
          intro x hx
          rw [hlvl x]
          by_cases hxe : x = e.target
          · rw [if_pos hxe]
            rw [USIZE_MAX_eq] at hK ⊢; omega
          · rw [if_neg hxe]; exact h3 x hx
        have hq8 : ∀ v, (upd st.level e.target (st.level u + 1)) v ≤ USIZE_MAX := by
          intro v
          rw [hlvl v]
          by_cases hve : v = e.target
          · rw [if_pos hve]
            rw [USIZE_MAX_eq] at hK ⊢; omega
          · rw [if_neg hve]; exact h8 v
        by_cases ht : (st.level e.target == USIZE_MAX - 1) = true
        · have htgt : e.target ∈ tg := h2 e.target (by simpa using ht)
          rw [show bfsEdge u st e =
              ⟨upd st.level e.target (st.level u + 1), st.queue, true, st.pushed⟩ by
            simp only [bfsEdge, if_neg hc, if_neg hv, ht, if_pos]]
          have hA : (⟨upd st.level e.target (st.level u + 1), st.queue, true,
              st.pushed⟩ : BfsState).level u < USIZE_MAX - 1 := by
            show upd st.level e.target (st.level u + 1) u < USIZE_MAX - 1
            rw [hulvl]; exact hu
          have hB : (⟨upd st.level e.target (st.level u + 1), st.queue, true,
              st.pushed⟩ : BfsState).level u + 1 + fuel ≤ K := by
            show upd st.level e.target (st.level u + 1) u + 1 + fuel ≤ K
            rw [hulvl]; exact hub
          have hok : BfsOk tg K fuel (⟨upd st.level e.target (st.level u + 1), st.queue, true,
              st.pushed⟩ : BfsState) := by
            refine ⟨hq1, hq2, hq3, ?_, ?_, h6, h7, hq8⟩
            · intro hff; exact absurd hff (by simp)
            · intro _
              refine ⟨e.target, htgt, ?_⟩
              show upd st.level e.target (st.level u + 1) e.target < USIZE_MAX - 1
              rw [hlvl e.target, if_pos rfl]
              exact hassign_lt
          have hres := ih _ hA hB hok
          exact ⟨hres.1.trans hulvl, hres.2⟩
        · have hUM : st.level e.target = USIZE_MAX := by
            have h2' : st.level e.target ≠ USIZE_MAX - 1 := by simpa using ht
            have h8' := h8 e.target
            omega
          have hntgt : e.target ∉ tg := fun hh => h3 e.target hh hUM
          rw [show bfsEdge u st e =
              ⟨upd st.level e.target (st.level u + 1), st.queue ++ [e.target], st.found,
                st.pushed ++ [e.target]⟩ by
            simp only [bfsEdge, if_neg hc, if_neg hv, ht, Bool.false_eq_true, if_false]]
          have hA : (⟨upd st.level e.target (st.level u + 1), st.queue ++ [e.target], st.found,
              st.pushed ++ [e.target]⟩ : BfsState).level u < USIZE_MAX - 1 := by
            show upd st.level e.target (st.level u + 1) u < USIZE_MAX - 1
            rw [hulvl]; exact hu
          have hB : (⟨upd st.level e.target (st.level u + 1), st.queue ++ [e.target], st.found,
              st.pushed ++ [e.target]⟩ : BfsState).level u + 1 + fuel ≤ K := by
            show upd st.level e.target (st.level u + 1) u + 1 + fuel ≤ K
            rw [hulvl]; exact hub
          have hok : BfsOk tg K fuel (⟨upd st.level e.target (st.level u + 1),
              st.queue ++ [e.target], st.found, st.pushed ++ [e.target]⟩ : BfsState) := by
            refine ⟨?_, hq2, hq3, ?_, ?_, ?_, ?_, hq8⟩
            · intro v hv2
              show upd st.level e.target (st.level u + 1) v + fuel ≤ K
              rcases List.mem_append.mp hv2 with hm | hm
              · exact hq1 v hm
              · rcases List.mem_singleton.mp hm with rfl
                rw [hlvl e.target, if_pos rfl]
                omega
            · intro hff x hx
              show upd st.level e.target (st.level u + 1) x = USIZE_MAX - 1
              rw [hlvl x, if_neg (fun hh : x = e.target => hntgt (hh ▸ hx))]
              exact h4 hff x hx
            · intro hft
              obtain ⟨x, hx, hxl⟩ := h5 hft
              refine ⟨x, hx, ?_⟩
              show upd st.level e.target (st.level u + 1) x < USIZE_MAX - 1
              rw [hlvl x, if_neg (fun hh : x = e.target => hntgt (hh ▸ hx))]
              exact hxl
            · intro x hx
              rcases List.mem_append.mp hx with hm | hm
              · exact h6 x hm
              · rcases List.mem_singleton.mp hm with rfl
                exact hntgt
            · intro v hv2
              rcases List.mem_append.mp hv2 with hm | hm
              · exact h7 v hm
              · rcases List.mem_singleton.mp hm with rfl
                exact hntgt
          have hres := ih _ hA hB hok
          exact ⟨hres.1.trans hulvl, hres.2⟩

theorem BfsOk_le (tg : List Nat) (K : Nat) (st : BfsState) :
    ∀ fuel fuel2 : Nat, fuel2 ≤ fuel → BfsOk tg K fuel st → BfsOk tg K fuel2 st := by
  intro fuel fuel2 hle h
  obtain ⟨h1, h2, h3, h4, h5, h6, h7, h8⟩ := h
  exact ⟨fun v hv => by have := h1 v hv; omega, h2, h3, h4, h5, h6, h7, h8⟩

/-- The BFS work loop preserves the invariant down to exhausted fuel. -/
theorem bfsLoop_inv (g : List REdge) (tg : List Nat) (K : Nat) (hK : K + 1 < USIZE_MAX - 1) :
    ∀ (fuel : Nat) (st st' : BfsState),
      bfsLoop g fuel st = some st' → BfsOk tg K fuel st → BfsOk tg K 0 st' := by
  intro fuel
  induction fuel with
  | zero =>
    intro st st' h hok
    simp only [bfsLoop] at h
    split at h
    · simp only [Option.some.injEq] at h
      exact h ▸ hok
    · exact absurd h (by simp)
  | succ f ih =>
    intro st st' h hok
    simp only [bfsLoop] at h
    split at h
    · simp only [Option.some.injEq] at h
      exact h ▸ BfsOk_le tg K st (f + 1) 0 (Nat.zero_le _) hok
    · rename_i u rest hq
      obtain ⟨h1, h2, h3, h4, h5, h6, h7, h8⟩ := hok
      have hu1 := h1 u (by rw [hq]; exact List.mem_cons_self u rest)
      have hu_lt : st.level u < USIZE_MAX - 1 := by rw [USIZE_MAX_eq] at hK ⊢; omega
      have hub : st.level u + 1 + f ≤ K := by omega
      have hmid : BfsOk tg K f ⟨st.level, rest, st.found, st.pushed⟩ := by
        refine ⟨?_, h2, h3, h4, h5, h6, ?_, h8⟩
        · intro v hv
          show st.level v + f ≤ K
          have := h1 v (by rw [hq]; exact List.mem_cons_of_mem u hv)
          omega
        · intro v hv
          exact h7 v (by rw [hq]; exact List.mem_cons_of_mem u hv)
      obtain ⟨hlv, hok2⟩ := bfsFold_inv tg K f hK u (edgeRange g u)
        ⟨st.level, rest, st.found, st.pushed⟩ hu_lt hub hmid
      exact ih _ st' h hok2

/-- The invariant holds for the freshly initialized BFS state, given
disjoint sources and targets and in-range fuel. -/
theorem bfsRun_inv (g : List REdge) (s t : List Nat) (F : Nat) (hF : F + 1 < USIZE_MAX - 1)
    (hdis : ∀ x ∈ s, x ∉ t) (bst : BfsState) (h : bfsRun g s t F = some bst) :
    (∀ x ∈ bst.pushed, x ∉ t) ∧
    (bst.found = true ↔ ∃ x, x ∈ t ∧ bst.level x < USIZE_MAX - 1) := by
  have hinit : BfsOk t F F ⟨bfsInitLevel s t, s, false, []⟩ := by
    refine ⟨?_, ?_, ?_, ?_, ?_, ?_, ?_, ?_⟩
    · intro v hv
      show bfsInitLevel s t v + F ≤ F
      rw [bfsInitLevel_eq, if_neg (hdis v hv), if_pos hv]
      omega
    · intro v hveq
      show v ∈ t
      rw [show (⟨bfsInitLevel s t, s, false, []⟩ : BfsState).level v = bfsInitLevel s t v
        from rfl, bfsInitLevel_eq] at hveq
      by_cases hvt : v ∈ t
      · exact hvt
      · rw [if_neg hvt] at hveq
        by_cases hvs : v ∈ s
        · rw [if_pos hvs] at hveq
          rw [USIZE_MAX_eq] at hveq; omega
        · rw [if_neg hvs] at hveq
          rw [USIZE_MAX_eq] at hveq; omega
    · intro x hx
      show bfsInitLevel s t x ≠ USIZE_MAX
      rw [bfsInitLevel_eq, if_pos hx]
      rw [USIZE_MAX_eq]; omega
    · intro _ x hx
      show bfsInitLevel s t x = USIZE_MAX - 1
      rw [bfsInitLevel_eq, if_pos hx]
    · intro hff; exact absurd hff (by simp)
    · intro x hx; exact absurd hx (List.not_mem_nil x)
    · exact hdis
    · intro v
      show bfsInitLevel s t v ≤ USIZE_MAX
      rw [bfsInitLevel_eq]
      by_cases hvt : v ∈ t
      · rw [if_pos hvt]; omega
      · rw [if_neg hvt]
        by_cases hvs : v ∈ s
        · rw [if_pos hvs]; omega
        · rw [if_neg hvs]
  obtain ⟨c1, c2, c3, c4, c5, c6, c7, c8⟩ := bfsLoop_inv g t F hF F _ bst h hinit
  refine ⟨c6, ?_, ?_⟩
  · intro hf
    exact c5 hf
  · intro ⟨x, hx, hlt⟩
    cases hfd : bst.found with
    | true => rfl
    | false =>
      have := c4 hfd x hx
      rw [this] at hlt
      exact absurd hlt (lt_irrefl _)

/-- A completed `dinicRun` returns a solver marked finished, whose flow
and graph come from the run record. -/
theorem dinicRun_ok_fields (F : Nat) (d0 : Dinic) (a b : List Nat) (d : Dinic) (r : RunResult)
    (h : dinicRun F d0 a b = .ok (d, r)) :
    d.finished = true ∧ d.maxFlowVal = r.flow ∧ d.graph = r.graph := by
  simp only [dinicRun] at h
  split at h
  · rename_i r0 hrl
    simp only [MRes.ok.injEq, Prod.mk.injEq] at h
    obtain ⟨hd, hr⟩ := h
    subst hr
    exact ⟨by rw [← hd], by rw [← hd], by rw [← hd]⟩
  · exact absurd h (by simp)
  · exact absurd h (by simp)

/-! ## Claim C5: parallel edges merge by capacity sum -/

theorem reversedZero_caps (l : List REdge) : ∀ e ∈ l.map reversedZero, e.capacity = 0 := by
  intro e he
  obtain ⟨z, _, hz⟩ := List.mem_map.mp he
  rw [← hz]
  rfl

theorem extendReversed_capSum (l : List REdge) (k : Nat × Nat) :
    keyCapSum (extendReversed l) k = keyCapSum l k := by
  unfold extendReversed
  rw [keyCapSum_append, keyCapSum_zero_caps (l.map reversedZero) (reversedZero_caps l) k]
  ring

/-- C5: appending two parallel edges `(u,v,c1)`, `(u,v,c2)` builds the very
same solver as appending the single edge `(u,v,c1+c2)`: the residual graphs
are equal, so `run`, `max_flow()` and `assignment()` behave identically. -/
theorem C5_parallel_edges_merge (L : List REdge) (u v : Nat) (c1 c2 : Int) (s t : List Nat) :
    from_edge_list (L ++ [⟨u, v, c1⟩, ⟨u, v, c2⟩]) s t =
      from_edge_list (L ++ [⟨u, v, c1 + c2⟩]) s t ∧
    (∀ (F : Nat) (a b : List Nat),
      dinicRun F (from_edge_list (L ++ [⟨u, v, c1⟩, ⟨u, v, c2⟩]) s t) a b =
        dinicRun F (from_edge_list (L ++ [⟨u, v, c1 + c2⟩]) s t) a b) ∧
    (∀ (F fl : Nat) (a b q : List Nat),
      (afterRunArgs F (L ++ [⟨u, v, c1⟩, ⟨u, v, c2⟩]) s t a b).map max_flow =
        (afterRunArgs F (L ++ [⟨u, v, c1 + c2⟩]) s t a b).map max_flow ∧
      (afterRunArgs F (L ++ [⟨u, v, c1⟩, ⟨u, v, c2⟩]) s t a b).map
          (fun d => assignment d q fl) =
        (afterRunArgs F (L ++ [⟨u, v, c1 + c2⟩]) s t a b).map (fun d => assignment d q fl)) := by
  have hg : buildResidual (L ++ [⟨u, v, c1⟩, ⟨u, v, c2⟩]) =
      buildResidual (L ++ [⟨u, v, c1 + c2⟩]) := by
    refine keySorted_ext _ _ (buildResidual_pairwise _) (buildResidual_pairwise _) ?_ ?_
    · intro k
      rw [buildResidual_keys_mem, buildResidual_keys_mem, extendReversed_keys_mem,
        extendReversed_keys_mem, keysList_append, keysList_append]
      have h1 : ∀ j : Nat × Nat, j ∈ keysList [REdge.mk u v c1, REdge.mk u v c2] ↔ j = (u, v) := by
        intro j
        simp [keysList]
      have h2 : ∀ j : Nat × Nat, j ∈ keysList [REdge.mk u v (c1 + c2)] ↔ j = (u, v) := by
        intro j
        simp [keysList]
      rw [List.mem_append, List.mem_append, List.mem_append, List.mem_append,
        h1 k, h1 (k.2, k.1), h2 k, h2 (k.2, k.1)]
    · intro k
      rw [buildResidual_capSum, buildResidual_capSum, extendReversed_capSum,
        extendReversed_capSum, keyCapSum_append, keyCapSum_append]
      have h2 : keyCapSum [REdge.mk u v c1, REdge.mk u v c2] k =
          keyCapSum [REdge.mk u v (c1 + c2)] k := by
        rw [keyCapSum_cons, keyCapSum_cons, keyCapSum_cons, keyCapSum_nil]
        by_cases hc : (u == k.1 && v == k.2) = true
        · rw [if_pos hc, if_pos hc, if_pos hc]
          ring
        · rw [if_neg hc, if_neg hc, if_neg hc]
          ring
      rw [h2]
  have hfel : from_edge_list (L ++ [⟨u, v, c1⟩, ⟨u, v, c2⟩]) s t =
      from_edge_list (L ++ [⟨u, v, c1 + c2⟩]) s t := by
    unfold from_edge_list
    rw [hg]
  refine ⟨hfel, fun F a b => by rw [hfel], fun F fl a b q => ?_⟩
  constructor
  · unfold afterRunArgs
    rw [hfel]
  · unfold afterRunArgs
    rw [hfel]

/-! ## DFS safety: parent chains, lookups, and non-negative capacities -/

theorem findEdge_some_key (g : List REdge) (u v : Nat) (e : REdge)
    (h : findEdge g u v = some e) : e ∈ g ∧ e.source = u ∧ e.target = v := by
  have hm := List.mem_of_find?_eq_some h
  have hp := List.find?_some h
  simp only [Bool.and_eq_true, beq_iff_eq] at hp
  exact ⟨hm, hp.1, hp.2⟩

theorem findEdge_isSome_of_key (g : List REdge) (u v : Nat)
    (h : (u, v) ∈ keysList g) : ∃ e, findEdge g u v = some e := by
  simp only [keysList, List.mem_map] at h
  obtain ⟨e, he, hke⟩ := h
  simp only [Prod.mk.injEq] at hke
  have : (findEdge g u v).isSome := by
    rw [findEdge, List.find?_isSome]
    exact ⟨e, he, by simp [hke.1, hke.2]⟩
  exact Option.isSome_iff_exists.mp this

theorem keyUnique_cons (e : REdge) (rest : List REdge) (h : keyUnique (e :: rest)) :
    keyUnique rest ∧ (e.source, e.target) ∉ keysList rest := by
  have h2 : ((e.source, e.target) :: keysList rest).Nodup := h
  exact ⟨List.Nodup.of_cons h2, (List.nodup_cons.mp h2).1⟩

theorem findEdge_eq_of_keyUnique (g : List REdge) (e : REdge) (hku : keyUnique g)
    (he : e ∈ g) : findEdge g e.source e.target = some e := by
  induction g with
  | nil => exact absurd he (List.not_mem_nil e)
  | cons h0 rest ih =>
    obtain ⟨hkur, hknot⟩ := keyUnique_cons h0 rest hku
    rcases List.mem_cons.mp he with rfl | hmem
    · unfold findEdge
      rw [List.find?_cons_of_pos _ (by simp)]
    · have hne : ¬(h0.source == e.source && h0.target == e.target) = true := by
        intro hc
        simp only [Bool.and_eq_true, beq_iff_eq] at hc
        refine hknot ?_
        simp only [keysList, List.mem_map]
        exact ⟨e, hmem, by rw [hc.1, hc.2]⟩
      unfold findEdge
      rw [List.find?_cons_of_neg _ (by exact hne)]
      exact ih hkur hmem

theorem mem_updCap_of_ne (u v : Nat) (d : Int) :
    ∀ (g : List REdge) (e : REdge), e ∈ g → ¬(e.source = u ∧ e.target = v) →
      e ∈ updCap u v d g := by
  intro g
  induction g with
  | nil => intro e he _; exact absurd he (List.not_mem_nil e)
  | cons h0 rest ih =>
    intro e he hne
    simp only [updCap]
    by_cases hc : (h0.source == u && h0.target == v) = true
    · rw [if_pos hc]
      rcases List.mem_cons.mp he with rfl | hmem
      · simp only [Bool.and_eq_true, beq_iff_eq] at hc
        exact absurd ⟨hc.1, hc.2⟩ hne
      · exact List.mem_cons_of_mem _ hmem
    · rw [if_neg hc]
      rcases List.mem_cons.mp he with rfl | hmem
      · exact List.mem_cons_self _ _
      · exact List.mem_cons_of_mem _ (ih e hmem hne)

theorem mem_updCap_cases (u v : Nat) (d : Int) :
    ∀ (g : List REdge) (e2 : REdge), e2 ∈ updCap u v d g →
      e2 ∈ g ∨ ∃ e ∈ g, e.source = u ∧ e.target = v ∧ e2 = ⟨u, v, e.capacity + d⟩ := by
  intro g
  induction g with
  | nil => intro e2 he2; exact absurd he2 (List.not_mem_nil e2)
  | cons h0 rest ih =>
    intro e2 he2
    simp only [updCap] at he2
    by_cases hc : (h0.source == u && h0.target == v) = true
    · rw [if_pos hc] at he2
      simp only [Bool.and_eq_true, beq_iff_eq] at hc
      rcases List.mem_cons.mp he2 with rfl | hmem
      · refine Or.inr ⟨h0, List.mem_cons_self _ _, hc.1, hc.2, ?_⟩
        rw [← hc.1, ← hc.2]
      · exact Or.inl (List.mem_cons_of_mem _ hmem)
    · rw [if_neg hc] at he2
      rcases List.mem_cons.mp he2 with rfl | hmem
      · exact Or.inl (List.mem_cons_self _ _)
      · rcases ih e2 hmem with h | ⟨e, he, h1, h2, h3⟩
        · exact Or.inl (List.mem_cons_of_mem _ h)
        · exact Or.inr ⟨e, List.mem_cons_of_mem _ he, h1, h2, h3⟩

theorem SChain_head_mem (g : List REdge) (p : Nat → Nat) (f : Int) (v : Nat) (l : List Nat)
    (h : SChain g p f v l) : v ∈ l := by
  cases h with
  | stop => exact List.mem_singleton.mpr rfl
  | step => exact List.mem_cons_self _ _

theorem SChain_mono (g : List REdge) (p : Nat → Nat) (f f2 : Int) (hf : f2 ≤ f) :
    ∀ (l : List Nat) (v : Nat), SChain g p f v l → SChain g p f2 v l := by
  intro l v h
  induction h with
  | stop v hp => exact SChain.stop v hp
  | step v l hne hfwd hrev _ ih =>
    obtain ⟨e, he, hs, ht, hcap⟩ := hfwd
    exact SChain.step v l hne ⟨e, he, hs, ht, le_trans hf hcap⟩ hrev ih

theorem SChain_agree (g : List REdge) (p p2 : Nat → Nat) (f : Int) :
    ∀ (l : List Nat) (v : Nat), SChain g p f v l → (∀ x ∈ l, p2 x = p x) →
      SChain g p2 f v l := by
  intro l v h
  induction h with
  | stop v hp =>
    intro hagree
    refine SChain.stop v ?_
    rw [hagree v (List.mem_singleton.mpr rfl)]
    exact hp
  | step v l hne hfwd hrev htail ih =>
    intro hagree
    have hav : p2 v = p v := hagree v (List.mem_cons_self _ _)
    have htail2 : SChain g p2 f (p2 v) l := by
      rw [hav]
      exact ih (fun x hx => hagree x (List.mem_cons_of_mem _ hx))
    refine SChain.step v l ?_ ?_ ?_ htail2
    · rw [hav]; exact hne
    · rw [hav]; exact hfwd
    · rw [hav]; exact hrev

theorem SChain_shift (p : Nat → Nat) (fl d1 d2 : Int) (u0 v0 : Nat) (g : List REdge) :
    ∀ (l : List Nat) (w : Nat), SChain g p fl w l → v0 ∉ l →
      SChain (updCap v0 u0 d2 (updCap u0 v0 d1 g)) p fl w l := by
  intro l w h
  induction h with
  | stop v hp => intro _; exact SChain.stop v hp
  | step v l hne hfwd hrev htail ih =>
    intro hv0
    have hv0v : v0 ≠ v := fun hc => hv0 (hc ▸ List.mem_cons_self _ _)
    have hv0l : v0 ∉ l := fun hc => hv0 (List.mem_cons_of_mem _ hc)
    have hpv : p v ∈ l := SChain_head_mem g p fl (p v) l htail
    have hpvne : p v ≠ v0 := fun hc => hv0l (hc ▸ hpv)
    refine SChain.step v l hne ?_ ?_ (ih hv0l)
    · obtain ⟨e, he, hs, ht, hcap⟩ := hfwd
      refine ⟨e, ?_, hs, ht, hcap⟩
      refine mem_updCap_of_ne v0 u0 d2 _ e ?_ ?_
      · exact mem_updCap_of_ne u0 v0 d1 g e he
          (fun hc => hv0v (by rw [← hc.2, ht]))
      · intro hc
        exact hpvne (by rw [← hs, hc.1])
    · obtain ⟨e2, he2, hs2, ht2⟩ := hrev
      refine ⟨e2, ?_, hs2, ht2⟩
      refine mem_updCap_of_ne v0 u0 d2 _ e2 ?_ ?_
      · exact mem_updCap_of_ne u0 v0 d1 g e2 he2
          (fun hc => hpvne (by rw [← ht2, hc.2]))
      · intro hc
        exact hv0v (by rw [← hs2, hc.1])

/-- Along a valid duplicate-free parent chain, the path unwinding never
hits a failed lookup; when it completes it preserves the key list, and
keeps all capacities non-negative when the pushed flow is non-negative. -/
theorem augmentGo_chain (parents : Nat → Nat) (fl : Int) :
    ∀ (l : List Nat) (g : List REdge) (v : Nat) (fuel : Nat),
      SChain g parents fl v l → l.Nodup → keyUnique g →
      augmentGo parents fl fuel v g ≠ .fail ∧
      (∀ g2, augmentGo parents fl fuel v g = .ok g2 →
        keysList g2 = keysList g ∧
        ((∀ e ∈ g, 0 ≤ e.capacity) → 0 ≤ fl → ∀ e ∈ g2, 0 ≤ e.capacity)) := by
  intro l
  induction l with
  | nil =>
    intro g v fuel hsc _ _
    exact absurd (SChain_head_mem _ _ _ _ _ hsc) (List.not_mem_nil v)
  | cons x l' ih =>
    intro g v fuel hsc hnd hku
    match fuel with
    | 0 =>
      exact ⟨by simp [augmentGo], fun g2 h => absurd h (by simp [augmentGo])⟩
    | fuel + 1 =>
      cases hsc with
      | stop v2 hp =>
        constructor
        · simp [augmentGo, hp]
        · intro g2 h
          simp only [augmentGo, if_pos hp, MRes.ok.injEq] at h
          subst h
          exact ⟨rfl, fun hg _ => hg⟩
      | step v2 l2 hne hfwd hrev htail =>
        obtain ⟨e, he, hs, ht, hcap⟩ := hfwd
        obtain ⟨e2, he2, hs2, ht2⟩ := hrev
        have hfe : findEdge g (parents x) x = some e := by
          have h0 := findEdge_eq_of_keyUnique g e hku he
          rw [hs, ht] at h0
          exact h0
        have hkey2 : (x, parents x) ∈ keysList (updCap (parents x) x (-fl) g) := by
          rw [updCap_keys]
          simp only [keysList, List.mem_map]
          exact ⟨e2, he2, by rw [hs2, ht2]⟩
        obtain ⟨e3, hfe3⟩ := findEdge_isSome_of_key _ x (parents x) hkey2
        have hxl : x ∉ l' := (List.nodup_cons.mp hnd).1
        have hnd' : l'.Nodup := (List.nodup_cons.mp hnd).2
        have hsc2 : SChain (updCap x (parents x) fl (updCap (parents x) x (-fl) g))
            parents fl (parents x) l' :=
          SChain_shift parents fl (-fl) fl (parents x) x g l' (parents x) htail hxl
        have hku2 : keyUnique (updCap x (parents x) fl (updCap (parents x) x (-fl) g)) := by
          unfold keyUnique
          rw [updCap_keys, updCap_keys]
          exact hku
        obtain ⟨hnf, hok⟩ := ih _ (parents x) fuel hsc2 hnd' hku2
        have hunf : augmentGo parents fl (fuel + 1) x g =
            augmentGo parents fl fuel (parents x)
              (updCap x (parents x) fl (updCap (parents x) x (-fl) g)) := by
          simp only [augmentGo, if_neg hne, hfe, hfe3]
        constructor
        · rw [hunf]
          exact hnf
        · intro g2 h
          rw [hunf] at h
          obtain ⟨hk2, hc2⟩ := hok g2 h
          constructor
          · rw [hk2, updCap_keys, updCap_keys]
          · intro hg hfl
            refine hc2 ?_ hfl
            intro e4 he4
            rcases mem_updCap_cases x (parents x) fl _ e4 he4 with h4 | ⟨e5, he5, h51, h52, h53⟩
            · rcases mem_updCap_cases (parents x) x (-fl) g e4 h4 with
                h6 | ⟨e6, he6, h61, h62, h63⟩
              · exact hg e4 h6
              · have he6e : e6 = e := by
                  have hf6 := findEdge_eq_of_keyUnique g e6 hku he6
                  rw [h61, h62, hfe] at hf6
                  exact (Option.some.injEq _ _).mp hf6.symm
                rw [h63, he6e]
                show 0 ≤ e.capacity + -fl
                omega
            · rcases mem_updCap_cases (parents x) x (-fl) g e5 he5 with
                h6 | ⟨e6, he6, h61, h62, h63⟩
              · have := hg e5 h6
                rw [h53]
                show 0 ≤ e5.capacity + fl
                omega
              · rw [h53, h63]
                show 0 ≤ e6.capacity + -fl + fl
                have := hg e6 he6
                have he6e : e6 = e := by
                  have hf6 := findEdge_eq_of_keyUnique g e6 hku he6
                  rw [h61, h62, hfe] at hf6
                  exact (Option.some.injEq _ _).mp hf6.symm
                omega

theorem ChainInv_upd (g : List REdge) (parents : Nat → Nat) (fl : Int) (v t0 nd : Nat)
    (ht0 : USIZE_MAX - 1 ≤ parents t0) (h : ChainInv g parents fl v) :
    ChainInv g (upd parents t0 nd) fl v := by
  obtain ⟨L, hsc, hnd2, hbd⟩ := h
  have hnot : t0 ∉ L := fun hc => by have := hbd t0 hc; omega
  have hagree : ∀ x ∈ L, upd parents t0 nd x = parents x := by
    intro x hx
    have hxne : x ≠ t0 := fun hc => hnot (hc ▸ hx)
    simp only [upd, if_neg hxne]
  refine ⟨L, SChain_agree g parents _ fl L v hsc hagree, hnd2, ?_⟩
  intro x hx
  rw [hagree x hx]
  exact hbd x hx

theorem StackInv_upd (g : List REdge) (parents : Nat → Nat) (stack : List (Nat × Int))
    (t0 nd : Nat) (ht0 : USIZE_MAX - 1 ≤ parents t0) (h : StackInv g parents stack) :
    StackInv g (upd parents t0 nd) stack := by
  intro p hp
  obtain ⟨h1, h2, h3⟩ := h p hp
  exact ⟨h1, h2, ChainInv_upd g parents p.2 p.1 t0 nd ht0 h3⟩

/-- The DFS edge scan keeps the stack invariant; when it reports a reached
target, the recorded bottleneck is non-negative and the target has a valid
parent chain. -/
theorem dfsEdges_inv (g : List REdge) (level : Nat → Nat) (hids : idsBdd g)
    (hrev : revClosed g) (node : Nat) (flowIn : Int) :
    ∀ (es : List REdge) (parents : Nat → Nat) (stack : List (Nat × Int)) (trace : List Trav),
      (∀ e ∈ es, e ∈ g ∧ e.source = node) →
      0 ≤ flowIn → node < USIZE_MAX - 1 →
      ChainInv g parents flowIn node →
      StackInv g parents stack →
      (match dfsEdges level node flowIn parents stack trace es with
       | .cont p2 s2 _ => StackInv g p2 s2
       | .found tgt fl p2 _ => 0 ≤ fl ∧ ChainInv g p2 fl tgt) := by
  intro es
  induction es with
  | nil =>
    intro parents stack trace _ _ _ _ hstack
    exact hstack
  | cons e rest ih =>
    intro parents stack trace hes hflow hnode hchain hstack
    obtain ⟨heg, hesrc⟩ := hes e (List.mem_cons_self e rest)
    have hrest : ∀ e2 ∈ rest, e2 ∈ g ∧ e2.source = node :=
      fun e2 he2 => hes e2 (List.mem_cons_of_mem e he2)
    simp only [dfsEdges]
    by_cases h1 : parents e.target < USIZE_MAX - 1
    · rw [if_pos h1]
      exact ih parents stack trace hrest hflow hnode hchain hstack
    · rw [if_neg h1]
      by_cases h2 : level node > level e.target
      · rw [if_pos h2]
        exact ih parents stack trace hrest hflow hnode hchain hstack
      · rw [if_neg h2]
        by_cases h3 : e.capacity < 1
        · rw [if_pos h3]
          exact ih parents stack trace hrest hflow hnode hchain hstack
        · rw [if_neg h3]
          have ht0 : USIZE_MAX - 1 ≤ parents e.target := by omega
          have hkey : (e.source, e.target) ∈ keysList g := by
            simp only [keysList, List.mem_map]
            exact ⟨e, heg, rfl⟩
          have htgt_lt : e.target < USIZE_MAX - 1 := (hids (e.source, e.target) hkey).2
          obtain ⟨L, hsc, hndL, hbdL⟩ := hchain
          have hnodeL : node ∈ L := SChain_head_mem _ _ _ _ _ hsc
          have htL : e.target ∉ L := fun hc => by have := hbdL e.target hc; omega
          have htne : e.target ≠ node := fun hc => htL (hc ▸ hnodeL)
          have hagree : ∀ x ∈ L, upd parents e.target node x = parents x := by
            intro x hx
            have hxne : x ≠ e.target := fun hc => htL (hc ▸ hx)
            simp only [upd, if_neg hxne]
          have hsc2 : SChain g (upd parents e.target node) flowIn node L :=
            SChain_agree g parents _ flowIn L node hsc hagree
          have hcap0 : 0 ≤ min flowIn e.capacity := le_min hflow (by omega)
          have hscNew : SChain g (upd parents e.target node) (min flowIn e.capacity)
              e.target (e.target :: L) := by
            refine SChain.step e.target L ?_ ?_ ?_ ?_
            · show upd parents e.target node e.target ≠ e.target
              simp only [upd, if_pos rfl]
              exact fun hc => htne hc.symm
            · refine ⟨e, heg, ?_, rfl, min_le_right _ _⟩
              show e.source = upd parents e.target node e.target
              simp only [upd, if_pos rfl]
              exact hesrc
            · obtain ⟨e2, he2, hke2⟩ := by
                have hr := hrev (e.source, e.target) hkey
                simp only [keysList, List.mem_map] at hr
                exact hr
              refine ⟨e2, he2, ?_, ?_⟩
              · show e2.source = e.target
                exact congrArg Prod.fst hke2
              · show e2.target = upd parents e.target node e.target
                simp only [upd, if_pos rfl]
                have h5 : e2.target = e.source := congrArg Prod.snd hke2
                rw [h5]
                exact hesrc
            · show SChain g (upd parents e.target node) (min flowIn e.capacity)
                (upd parents e.target node e.target) L
              simp only [upd, if_pos rfl]
              exact SChain_mono g _ flowIn _ (min_le_left _ _) L node hsc2
          have hchainNew : ChainInv g (upd parents e.target node)
              (min flowIn e.capacity) e.target := by
            refine ⟨e.target :: L, hscNew, List.nodup_cons.mpr ⟨htL, hndL⟩, ?_⟩
            intro x hx
            rcases List.mem_cons.mp hx with rfl | hxL
            · simp only [upd, if_pos rfl]
              exact hnode
            · rw [hagree x hxL]
              exact hbdL x hxL
          by_cases h4 : (parents e.target == USIZE_MAX - 1) = true
          · rw [if_pos h4]
            exact ⟨hcap0, hchainNew⟩
          · rw [if_neg h4]
            refine ih (upd parents e.target node)
              ((e.target, min flowIn e.capacity) :: stack) _ hrest hflow hnode ?_ ?_
            · refine ⟨L, hsc2, hndL, ?_⟩
              intro x hx
              rw [hagree x hx]
              exact hbdL x hx
            · intro p hp
              rcases List.mem_cons.mp hp with rfl | hps
              · exact ⟨hcap0, htgt_lt, hchainNew⟩
              · exact StackInv_upd g parents stack e.target node ht0 hstack p hps

/-- The DFS stack loop never fails a lookup, preserves the key list, and
keeps capacities non-negative. -/
theorem dfsLoop_safe (g : List REdge) (level : Nat → Nat) (augFuel : Nat)
    (hku : keyUnique g) (hrev : revClosed g) (hids : idsBdd g) :
    ∀ (fuel : Nat) (parents : Nat → Nat) (stack : List (Nat × Int)) (trace : List Trav),
      StackInv g parents stack →
      dfsLoop g level augFuel fuel parents stack trace ≠ .fail ∧
      (∀ o g2 tr2, dfsLoop g level augFuel fuel parents stack trace = .ok (o, g2, tr2) →
        keysList g2 = keysList g ∧
        ((∀ e ∈ g, 0 ≤ e.capacity) → ∀ e ∈ g2, 0 ≤ e.capacity)) := by
  intro fuel
  induction fuel with
  | zero =>
    intro parents stack trace _
    exact ⟨by simp [dfsLoop], fun o g2 tr2 h => absurd h (by simp [dfsLoop])⟩
  | succ n ih =>
    intro parents stack trace hstack
    match stack with
    | [] =>
      refine ⟨by simp [dfsLoop], fun o g2 tr2 h => ?_⟩
      simp only [dfsLoop, MRes.ok.injEq, Prod.mk.injEq] at h
      obtain ⟨-, hg, -⟩ := h
      exact hg ▸ ⟨rfl, fun hcaps => hcaps⟩
    | (node, flow) :: srest =>
      obtain ⟨hflow, hnode, hchain⟩ := hstack (node, flow) (List.mem_cons_self _ _)
      have hstack' : StackInv g parents srest :=
        fun p hp => hstack p (List.mem_cons_of_mem _ hp)
      have hstep := dfsEdges_inv g level hids hrev node flow (edgeRange g node)
        parents srest trace
        (fun e he => ⟨(edgeRange_mem g node e he).1, (edgeRange_mem g node e he).2⟩)
        hflow hnode hchain hstack'
      rcases hres : dfsEdges level node flow parents srest trace (edgeRange g node) with
        ⟨p2, s2, t2⟩ | ⟨tgt, fl, p2, t2⟩
      · rw [hres] at hstep
        have hstack2 : StackInv g p2 s2 := hstep
        have hunf : dfsLoop g level augFuel (n + 1) parents ((node, flow) :: srest) trace =
            dfsLoop g level augFuel n p2 s2 t2 := by
          simp only [dfsLoop, hres]
        rw [hunf]
        exact ih p2 s2 t2 hstack2
      · rw [hres] at hstep
        have hfound : 0 ≤ fl ∧ ChainInv g p2 fl tgt := hstep
        have hfl : 0 ≤ fl := hfound.1
        obtain ⟨L, hscL, hndL, hbdL⟩ := hfound.2
        obtain ⟨hnf, hok⟩ := augmentGo_chain p2 fl L g tgt augFuel hscL hndL hku
        have hunf : dfsLoop g level augFuel (n + 1) parents ((node, flow) :: srest) trace =
            (match augmentGo p2 fl augFuel tgt g with
             | .ok g3 => .ok (some fl, g3, t2)
             | .fail => .fail
             | .out => .out) := by
          simp only [dfsLoop, hres]
        rw [hunf]
        rcases haug : augmentGo p2 fl augFuel tgt g with g3 | _ | _
        · refine ⟨by simp, fun o g2 tr2 h => ?_⟩
          simp only [MRes.ok.injEq, Prod.mk.injEq] at h
          obtain ⟨-, hg, -⟩ := h
          obtain ⟨hk, hc⟩ := hok g3 haug
          exact hg ▸ ⟨hk, fun hcaps => hc hcaps hfl⟩
        · exact absurd haug hnf
        · exact ⟨by simp, fun o g2 tr2 h => absurd h (by simp)⟩

theorem foldl_upd_self :
    ∀ (l : List Nat) (f : Nat → Nat) (x : Nat),
      (l.foldl (fun f s => upd f s s) f) x = if x ∈ l then x else f x := by
  intro l
  induction l with
  | nil => intro f x; simp
  | cons a rest ih =>
    intro f x
    simp only [List.foldl_cons, ih, upd]
    by_cases hr : x ∈ rest
    · rw [if_pos hr, if_pos (List.mem_cons_of_mem a hr)]
    · rw [if_neg hr]
      by_cases ha : x = a
      · rw [if_pos ha, if_pos (ha ▸ List.mem_cons_self a rest), ha]
      · rw [if_neg ha, if_neg (by simp [ha, hr])]

/-- The initial DFS parent array: targets `USIZE_MAX - 1`, remaining
sources self-parented, everything else `USIZE_MAX`. -/
theorem dfsInitParents_eq (s t : List Nat) (x : Nat) :
    dfsInitParents s t x =
      if x ∈ t then USIZE_MAX - 1 else if x ∈ s then x else USIZE_MAX := by
  unfold dfsInitParents
  rw [foldl_upd_const, foldl_upd_self]

/-- One full DFS call is safe and preserves the residual-graph facts. -/
theorem dfsRun_safe (g : List REdge) (level : Nat → Nat) (s t : List Nat) (F : Nat)
    (hku : keyUnique g) (hrev : revClosed g) (hids : idsBdd g)
    (hsrc : ∀ x ∈ s, x < USIZE_MAX - 1) (hdis : ∀ x ∈ s, x ∉ t) :
    dfsRun g level s t F ≠ .fail ∧
    (∀ o g2 tr2, dfsRun g level s t F = .ok (o, g2, tr2) →
      keysList g2 = keysList g ∧
      ((∀ e ∈ g, 0 ≤ e.capacity) → ∀ e ∈ g2, 0 ≤ e.capacity)) := by
  have hstack : StackInv g (dfsInitParents s t) (dfsInitStack s) := by
    intro p hp
    have hp2 : p ∈ s.map (fun x => (x, I32_MAX)) := List.mem_reverse.mp hp
    obtain ⟨x, hx, hxp⟩ := List.mem_map.mp hp2
    have hpx : dfsInitParents s t x = x := by
      rw [dfsInitParents_eq, if_neg (hdis x hx), if_pos hx]
    subst hxp
    refine ⟨by norm_num [I32_MAX], hsrc x hx, ?_⟩
    refine ⟨[x], SChain.stop x hpx, List.nodup_singleton x, ?_⟩
    intro y hy
    rcases List.mem_singleton.mp hy with rfl
    rw [hpx]
    exact hsrc y hx
  exact dfsLoop_safe g level F hku hrev hids F _ _ [] hstack

/-- One blocking-flow phase is safe, preserves the key list, and keeps all
capacities (of the running graph and every snapshot) non-negative. -/
theorem dfsPhase_safe (F : Nat) (level : Nat → Nat) (s t : List Nat) (g0 : List REdge)
    (hku0 : keyUnique g0) (hrev0 : revClosed g0) (hids0 : idsBdd g0)
    (hsrc : ∀ x ∈ s, x < USIZE_MAX - 1) (hdis : ∀ x ∈ s, x ∉ t) :
    ∀ (fuel : Nat) (g : List REdge) (flow : Int) (snaps : List (List REdge)) (travs : List Trav),
      keysList g = keysList g0 →
      dfsPhase F level s t fuel g flow snaps travs ≠ .fail ∧
      (∀ g2 fl2 sn2 tv2, dfsPhase F level s t fuel g flow snaps travs = .ok (g2, fl2, sn2, tv2) →
        keysList g2 = keysList g0 ∧
        ((∀ e ∈ g, 0 ≤ e.capacity) → (∀ gs ∈ snaps, ∀ e ∈ gs, 0 ≤ e.capacity) →
          (∀ e ∈ g2, 0 ≤ e.capacity) ∧ (∀ gs ∈ sn2, ∀ e ∈ gs, 0 ≤ e.capacity))) := by
  intro fuel
  induction fuel with
  | zero =>
    intro g flow snaps travs _
    exact ⟨by simp [dfsPhase], fun g2 fl2 sn2 tv2 h => absurd h (by simp [dfsPhase])⟩
  | succ n ih =>
    intro g flow snaps travs hk
    have hku : keyUnique g := by unfold keyUnique; rw [hk]; exact hku0
    have hrev : revClosed g := by unfold revClosed; rw [hk]; exact hrev0
    have hids : idsBdd g := by unfold idsBdd; rw [hk]; exact hids0
    obtain ⟨hnf, hok⟩ := dfsRun_safe g level s t F hku hrev hids hsrc hdis
    rcases hrun : dfsRun g level s t F with ⟨o, g3, tr3⟩ | _ | _
    · obtain ⟨hk3, hc3⟩ := hok o g3 tr3 hrun
      cases o with
      | none =>
        have hunf : dfsPhase F level s t (n + 1) g flow snaps travs =
            .ok (g3, flow, snaps, travs ++ tr3) := by
          simp only [dfsPhase, hrun]
        rw [hunf]
        refine ⟨by simp, fun g2 fl2 sn2 tv2 h => ?_⟩
        simp only [MRes.ok.injEq, Prod.mk.injEq] at h
        obtain ⟨hg, -, hs2, -⟩ := h
        subst hg; subst hs2
        exact ⟨hk3.trans hk, fun hcg hcs => ⟨hc3 hcg, hcs⟩⟩
      | some pushed =>
        have hunf : dfsPhase F level s t (n + 1) g flow snaps travs =
            dfsPhase F level s t n g3 (flow + pushed) (snaps ++ [g3]) (travs ++ tr3) := by
          simp only [dfsPhase, hrun]
        rw [hunf]
        obtain ⟨hnf2, hok2⟩ := ih g3 (flow + pushed) (snaps ++ [g3]) (travs ++ tr3)
          (hk3.trans hk)
        refine ⟨hnf2, fun g2 fl2 sn2 tv2 h => ?_⟩
        obtain ⟨hkk, hcc⟩ := hok2 g2 fl2 sn2 tv2 h
        refine ⟨hkk, fun hcg hcs => ?_⟩
        refine hcc (hc3 hcg) ?_
        intro gs hgs
        rcases List.mem_append.mp hgs with hm | hm
        · exact hcs gs hm
        · rcases List.mem_singleton.mp hm with rfl
          exact hc3 hcg
    · exact absurd hrun hnf
    · have hunf : dfsPhase F level s t (n + 1) g flow snaps travs = .out := by
        simp only [dfsPhase, hrun]
      rw [hunf]
      exact ⟨by simp, fun g2 fl2 sn2 tv2 h => absurd h (by simp)⟩

/-- The outer run loop is safe and keeps all capacities non-negative. -/
theorem runLoop_safe (F : Nat) (s t : List Nat) (g0 : List REdge)
    (hku0 : keyUnique g0) (hrev0 : revClosed g0) (hids0 : idsBdd g0)
    (hsrc : ∀ x ∈ s, x < USIZE_MAX - 1) (hdis : ∀ x ∈ s, x ∉ t) :
    ∀ (fuel : Nat) (g : List REdge) (flow : Int) (bc : Nat) (snaps : List (List REdge))
      (travs : List Trav),
      keysList g = keysList g0 →
      runLoop F s t fuel g flow bc snaps travs ≠ .fail ∧
      (∀ r, runLoop F s t fuel g flow bc snaps travs = .ok r →
        keysList r.graph = keysList g0 ∧
        ((∀ e ∈ g, 0 ≤ e.capacity) → (∀ gs ∈ snaps, ∀ e ∈ gs, 0 ≤ e.capacity) →
          (∀ e ∈ r.graph, 0 ≤ e.capacity) ∧ (∀ gs ∈ r.snaps, ∀ e ∈ gs, 0 ≤ e.capacity))) := by
  intro fuel
  induction fuel with
  | zero =>
    intro g flow bc snaps travs _
    exact ⟨by simp [runLoop], fun r h => absurd h (by simp [runLoop])⟩
  | succ n ih =>
    intro g flow bc snaps travs hk
    rcases hbfs : bfsRun g s t F with _ | bst
    · have hunf : runLoop F s t (n + 1) g flow bc snaps travs = .out := by
        simp only [runLoop, hbfs]
      rw [hunf]
      exact ⟨by simp, fun r h => absurd h (by simp)⟩
    · by_cases hf : bst.found = true
      · obtain ⟨hnf, hok⟩ := dfsPhase_safe F bst.level s t g0 hku0 hrev0 hids0 hsrc hdis
          F g flow snaps travs hk
        rcases hph : dfsPhase F bst.level s t F g flow snaps travs with
          ⟨g2, fl2, sn2, tv2⟩ | _ | _
        · obtain ⟨hk2, hc2⟩ := hok g2 fl2 sn2 tv2 hph
          have hunf : runLoop F s t (n + 1) g flow bc snaps travs =
              runLoop F s t n g2 fl2 (bc + 1) sn2 tv2 := by
            simp only [runLoop, hbfs, hf, if_pos, hph]
          rw [hunf]
          obtain ⟨hnf2, hok2⟩ := ih g2 fl2 (bc + 1) sn2 tv2 hk2
          refine ⟨hnf2, fun r h => ?_⟩
          obtain ⟨hkk, hcc⟩ := hok2 r h
          refine ⟨hkk, fun hcg hcs => ?_⟩
          obtain ⟨hcg2, hcs2⟩ := hc2 hcg hcs
          exact hcc hcg2 hcs2
        · exact absurd hph hnf
        · have hunf : runLoop F s t (n + 1) g flow bc snaps travs = .out := by
            simp only [runLoop, hbfs, hf, if_pos, hph]
          rw [hunf]
          exact ⟨by simp, fun r h => absurd h (by simp)⟩
      · have hunf : runLoop F s t (n + 1) g flow bc snaps travs =
            .ok ⟨g, flow, bc + 1, snaps, travs⟩ := by
          simp only [runLoop, hbfs, hf, Bool.false_eq_true, if_false]
        rw [hunf]
        refine ⟨by simp, fun r h => ?_⟩
        simp only [MRes.ok.injEq] at h
        subst h
        exact ⟨hk, fun hcg hcs => ⟨hcg, hcs⟩⟩

/-- Every merged residual edge carries the keyed capacity sum of its key. -/
theorem keyCapSum_of_unique :
    ∀ (g : List REdge), keyUnique g → ∀ e ∈ g,
      keyCapSum g (e.source, e.target) = e.capacity := by
  intro g
  induction g with
  | nil => intro _ e he; exact absurd he (List.not_mem_nil e)
  | cons h0 rest ih =>
    intro hku e he
    obtain ⟨hkur, hknot⟩ := keyUnique_cons h0 rest hku
    rw [keyCapSum_cons]
    rcases List.mem_cons.mp he with rfl | hmem
    · rw [if_pos (by simp)]
      rw [keyCapSum_not_mem rest _ hknot]
      ring
    · have hne : ¬(h0.source == e.source && h0.target == e.target) = true := by
        intro hc
        simp only [Bool.and_eq_true, beq_iff_eq] at hc
        refine hknot ?_
        simp only [keysList, List.mem_map]
        exact ⟨e, hmem, by rw [hc.1, hc.2]⟩
      rw [if_neg hne, ih hkur e hmem]
      ring

theorem keyCapSum_nonneg (l : List REdge) (h : ∀ e ∈ l, 0 ≤ e.capacity) (k : Nat × Nat) :
    0 ≤ keyCapSum l k := by
  induction l with
  | nil => exact le_refl 0
  | cons e rest ih =>
    rw [keyCapSum_cons]
    have h1 := h e (List.mem_cons_self e rest)
    have h2 := ih (fun x hx => h x (List.mem_cons_of_mem e hx))
    by_cases hc : (e.source == k.1 && e.target == k.2) = true
    · rw [if_pos hc]; omega
    · rw [if_neg hc]; omega

/-- Non-negative input capacities give a non-negative residual graph. -/
theorem buildResidual_caps_nonneg (es : List REdge) (hcap : ∀ e ∈ es, 0 ≤ e.capacity) :
    ∀ e ∈ buildResidual es, 0 ≤ e.capacity := by
  intro e he
  rw [← keyCapSum_of_unique (buildResidual es) (buildResidual_keyUnique es) e he,
    buildResidual_capSum]
  refine keyCapSum_nonneg _ ?_ _
  intro e2 he2
  rcases List.mem_append.mp he2 with hm | hm
  · exact hcap e2 hm
  · rw [reversedZero_caps es e2 hm]

/-! ## Claims C7 and C9 -/

/-- C9: with in-range node ids and the documented disjoint source/target
contract, the two `find_edge` lookups of the path unwinding always return
`Some`, so the run never panics. -/
theorem C9_unwind_lookups_never_fail (F : Nat) (es : List REdge) (s t a b : List Nat)
    (hids : ∀ e ∈ es, e.source < USIZE_MAX - 1 ∧ e.target < USIZE_MAX - 1)
    (hsrc : ∀ x ∈ s, x < USIZE_MAX - 1)
    (hdis : ∀ x ∈ s, x ∉ t) :
    dinicRun F (from_edge_list es s t) a b ≠ .fail := by
  obtain ⟨hnf, -⟩ := runLoop_safe F s t (buildResidual es)
    (buildResidual_keyUnique es) (buildResidual_revClosed es) (buildResidual_idsBdd es hids)
    hsrc hdis F (buildResidual es) 0 0 [] [] rfl
  simp only [dinicRun]
  split
  · simp
  · rename_i hrl
    exact absurd hrl hnf
  · simp

/-- Witness for C9: the CLR run never panics. -/
theorem C9_unwind_lookups_never_fail_witness :
    dinicRun 64 (from_edge_list clrEdges [0] [5]) [0] [5] ≠ .fail :=
  C9_unwind_lookups_never_fail 64 clrEdges [0] [5] [0] [5]
    (by decide) (by decide) (by decide)

/-- C7: with non-negative input capacities (and in-range ids, disjoint
sources/targets), no residual capacity is ever negative: after every
augmentation every edge capacity is at least zero. -/
theorem C7_capacities_stay_nonnegative (F : Nat) (es : List REdge) (s t a b : List Nat)
    (hcap : ∀ e ∈ es, 0 ≤ e.capacity)
    (hids : ∀ e ∈ es, e.source < USIZE_MAX - 1 ∧ e.target < USIZE_MAX - 1)
    (hsrc : ∀ x ∈ s, x < USIZE_MAX - 1)
    (hdis : ∀ x ∈ s, x ∉ t)
    (d : Dinic) (r : RunResult)
    (h : dinicRun F (from_edge_list es s t) a b = .ok (d, r)) :
    ∀ g' ∈ r.snaps ++ [d.graph], ∀ e ∈ g', 0 ≤ e.capacity := by
  intro g' hg' e he
  obtain ⟨-, hok⟩ := runLoop_safe F s t (buildResidual es)
    (buildResidual_keyUnique es) (buildResidual_revClosed es) (buildResidual_idsBdd es hids)
    hsrc hdis F (buildResidual es) 0 0 [] [] rfl
  simp only [dinicRun] at h
  split at h
  · rename_i r0 hrl
    simp only [MRes.ok.injEq, Prod.mk.injEq] at h
    obtain ⟨hd, hr⟩ := h
    subst hr
    obtain ⟨-, hcc⟩ := hok r0 hrl
    obtain ⟨hgr, hsn⟩ := hcc (buildResidual_caps_nonneg es hcap)
      (fun gs hgs => absurd hgs (List.not_mem_nil gs))
    rcases List.mem_append.mp hg' with hm | hm
    · exact hsn g' hm e he
    · rcases List.mem_singleton.mp hm with rfl
      refine hgr e ?_
      have hdg : d.graph = r0.graph := by rw [← hd]
      rw [← hdg]
      exact he
  · exact absurd h (by simp)
  · exact absurd h (by simp)

/-- Witness for C7: the first edge of the finished CLR residual graph has
non-negative capacity. -/
theorem C7_capacities_stay_nonnegative_witness :
    0 ≤ (clrRun.1.graph.getD 0 ⟨0, 0, 0⟩).capacity :=
  C7_capacities_stay_nonnegative 64 clrEdges [0] [5] [0] [5]
    (by decide) (by decide) (by decide) (by decide) clrRun.1 clrRun.2 rfl
    clrRun.1.graph (by decide) _ (by decide)

/-! ## Claim C8: BFS target handling and loop exit -/

/-- C8: with disjoint sources and targets and in-range fuel, the BFS never
enqueues a target; it reports success exactly when some target received a
BFS level; and when it reports failure, the run loop exits immediately with
the accumulated flow as the final value. -/
theorem C8_bfs_target_handling (g : List REdge) (s t : List Nat) (F : Nat)
    (hF : F + 1 < USIZE_MAX - 1) (hdis : ∀ x ∈ s, x ∉ t) (bst : BfsState)
    (h : bfsRun g s t F = some bst) :
    (∀ x ∈ bst.pushed, x ∉ t) ∧
    (bst.found = true ↔ ∃ x, x ∈ t ∧ bst.level x < USIZE_MAX - 1) ∧
    (bst.found = false →
      ∀ (fuel : Nat) (flow : Int) (bc : Nat) (snaps : List (List REdge)) (travs : List Trav),
        runLoop F s t (fuel + 1) g flow bc snaps travs = .ok ⟨g, flow, bc + 1, snaps, travs⟩) := by
  obtain ⟨c1, c2⟩ := bfsRun_inv g s t F hF hdis bst h
  refine ⟨c1, c2, ?_⟩
  intro hff fuel flow bc snaps travs
  simp only [runLoop, h, hff, Bool.false_eq_true, if_false]

/-- Witness for C8: on the single-edge network with unreachable target 2,
the BFS finds nothing and the run loop exits at once. -/
theorem C8_bfs_target_handling_witness :
    runLoop 8 [0] [2] 1 (buildResidual tinyEdges) 0 0 [] [] =
      .ok ⟨buildResidual tinyEdges, 0, 1, [], []⟩ :=
  ((C8_bfs_target_handling (buildResidual tinyEdges) [0] [2] 8 (by norm_num [USIZE_MAX])
      (by decide) (someBfs (bfsRun (buildResidual tinyEdges) [0] [2] 8)) rfl).2.2
    (by rfl) 0 0 0 [] [])

/-! ## Claim C10: runs with empty source or target sets -/

/-- C10 counterexample: `run`'s own argument lists are ignored: a solver
built with source `{0}` and target `{1}` on the single unit edge, but
*called* with empty source and target lists, still pushes one unit of flow,
so `max_flow()` is `Ok(1)`, not `Ok(0)`. -/
theorem C10_counterexample :
    (afterRunArgs 8 tinyEdges [0] [1] [] []).map max_flow = some (.ok 1) ∧
    some (Except.ok (1 : Int) : Except String Int) ≠ some (.ok 0) :=
  ⟨rfl, by simp⟩

/-- C10 (amended): `run` reads the construction-time source/target lists,
not its arguments. For a solver whose construction source list is empty,
`run` returns after a single BFS phase with no augmentations and flow 0;
likewise (with in-range fuel) when the construction target list is empty;
in both cases `max_flow()` then returns `Ok(0)` and `assignment` on
in-bounds sources succeeds. -/
theorem C10_empty_sources_or_targets (es : List REdge) (s t a b q : List Nat) (F : Nat) :
    (∀ fuel, dinicRun (fuel + 1) (from_edge_list es [] t) a b =
        .ok (⟨buildResidual es, 0, true, [], t⟩, ⟨buildResidual es, 0, 1, [], []⟩)) ∧
    (F + 1 < USIZE_MAX - 1 → ∀ d r, dinicRun F (from_edge_list es s []) a b = .ok (d, r) →
        r.bfsCount = 1 ∧ r.snaps = [] ∧ r.flow = 0 ∧ max_flow d = .ok 0) ∧
    (∀ (F2 : Nat) (d : Dinic) (r : RunResult),
      (dinicRun F2 (from_edge_list es [] t) a b = .ok (d, r) ∨
        dinicRun F2 (from_edge_list es s []) a b = .ok (d, r)) →
      (∀ x ∈ q, x < numberOfNodes d.graph) →
      ∃ bs, assignment d q (assignFuel d.graph q) = .ok (.ok bs)) := by
  refine ⟨?_, ?_, ?_⟩
  · intro fuel
    rfl
  · intro hF d r hrun
    obtain ⟨hfin, hflow, hgr⟩ := dinicRun_ok_fields F _ a b d r hrun
    simp only [dinicRun] at hrun
    split at hrun
    · rename_i r0 hrl
      simp only [MRes.ok.injEq, Prod.mk.injEq] at hrun
      obtain ⟨hd, hr⟩ := hrun
      subst hr
      match F, hrl with
      | Nat.succ f, hrl =>
        simp only [runLoop] at hrl
        split at hrl
        · exact absurd hrl (by simp)
        · rename_i bst hbfs
          have hfound : bst.found = false := by
            obtain ⟨-, c2⟩ := bfsRun_inv (buildResidual es) s [] (f + 1) hF
              (fun x _ hx => absurd hx (List.not_mem_nil x)) bst hbfs
            cases hfd : bst.found with
            | false => rfl
            | true =>
              obtain ⟨x, hx, -⟩ := c2.mp hfd
              exact absurd hx (List.not_mem_nil x)
          rw [if_neg (by rw [hfound]; exact Bool.false_ne_true)] at hrl
          simp only [MRes.ok.injEq] at hrl
          refine ⟨?_, ?_, ?_, ?_⟩
          · rw [← hrl]
          · rw [← hrl]
          · rw [← hrl]
          · have hrf : r0.flow = 0 := by rw [← hrl]
            simp only [max_flow, hfin, Bool.not_true, Bool.false_eq_true, if_false,
              hflow, hrf]
    · exact absurd hrun (by simp)
    · exact absurd hrun (by simp)
  · intro F2 d r hor hq
    rcases hor with hrun | hrun
    · exact assignment_ok d q (dinicRun_ok_fields F2 _ a b d r hrun).1 hq
    · exact assignment_ok d q (dinicRun_ok_fields F2 _ a b d r hrun).1 hq

/-- Witness for C10: the single-edge solver with empty construction-time
sources runs to flow 0; its assignment on source 0 succeeds. -/
theorem C10_empty_sources_or_targets_witness :
    dinicRun 8 (from_edge_list tinyEdges [] [1]) [] [] =
      .ok (⟨buildResidual tinyEdges, 0, true, [], [1]⟩,
        ⟨buildResidual tinyEdges, 0, 1, [], []⟩) ∧
    ∃ bs, assignment (⟨buildResidual tinyEdges, 0, true, [], [1]⟩ : Dinic) [0]
      (assignFuel (⟨buildResidual tinyEdges, 0, true, [], [1]⟩ : Dinic).graph [0]) =
        .ok (.ok bs) := by
  have h := C10_empty_sources_or_targets tinyEdges [] [1] [] [] [0] 8
  refine ⟨h.1 7, ?_⟩
  exact h.2.2 8 _ _ (Or.inl (h.1 7)) (by decide)

/-! ## Claim C1: the textbook scenarios -/

/-- C1: on the 6-node CLR network with sources `{0}` and targets `{5}`,
`run` followed by `max_flow()` yields `Ok(23)` and `assignment(&[0])` marks
exactly nodes `{0,1,2,4}`; on the network extended with `(5,6,1)` and
`(6,1,41)` and targets `{5,6}`, the flow is still 23 and the marked set is
unchanged. -/
theorem C1_textbook_networks :
    (afterRun 64 clrEdges [0] [5]).map max_flow = some (.ok 23) ∧
    (afterRun 64 clrEdges [0] [5]).map (fun d => assignment d [0] 64) =
      some (.ok (.ok [true, true, true, false, true, false])) ∧
    (afterRun 64 clrMultiEdges [0] [5, 6]).map max_flow = some (.ok 23) ∧
    (afterRun 64 clrMultiEdges [0] [5, 6]).map (fun d => assignment d [0] 64) =
      some (.ok (.ok [true, true, true, false, true, false, false])) :=
  ⟨rfl, rfl, rfl, rfl⟩

/-! ## Claim C2: levels along DFS-traversed edges -/

/-- C2 counterexample: on the diamond network, the run's DFS traverses the
edge `1 → 2` while both endpoints sit at BFS level 1, so a traversed edge
need not lead to a strictly higher BFS level. -/
theorem C2_counterexample :
    Trav.mk 1 2 1 1 1 ∈ travsOfRun 32 diamondEdges [0] [3] ∧
    ¬ (Trav.mk 1 2 1 1 1).lnode < (Trav.mk 1 2 1 1 1).ltgt :=
  ⟨by decide, by decide⟩

/-- C2 (amended): every edge the DFS traverses (queues its head or augments
through it) has strictly positive residual capacity and leads to a node
whose BFS level is at least — but not necessarily strictly above — the
level of the node it leaves. -/
theorem C2_dfs_traversal_guards (F : Nat) (es : List REdge) (srcs tgts : List Nat) :
    ∀ tr ∈ travsOfRun F es srcs tgts, 1 ≤ tr.cap ∧ tr.lnode ≤ tr.ltgt := by
  intro tr htr
  unfold travsOfRun at htr
  split at htr
  · rename_i d r hrun
    simp only [dinicRun] at hrun
    split at hrun
    · rename_i r0 hrl
      simp only [MRes.ok.injEq, Prod.mk.injEq] at hrun
      rcases runLoop_trace F (from_edge_list es srcs tgts).sources
          (from_edge_list es srcs tgts).targets F (from_edge_list es srcs tgts).graph
          0 0 [] [] r0 hrl tr (by rw [hrun.2]; exact htr) with hm | hp
      · exact absurd hm (List.not_mem_nil tr)
      · exact hp
    · exact absurd hrun (by simp)
    · exact absurd hrun (by simp)
  · exact absurd htr (List.not_mem_nil tr)

/-- Witness for C2: the first traversal of the diamond run satisfies the
guard conditions. -/
theorem C2_dfs_traversal_guards_witness :
    1 ≤ (Trav.mk 0 1 1 0 1).cap ∧ (Trav.mk 0 1 1 0 1).lnode ≤ (Trav.mk 0 1 1 0 1).ltgt :=
  C2_dfs_traversal_guards 32 diamondEdges [0] [3] (Trav.mk 0 1 1 0 1) (by decide)

/-! ## Claim C3: capacity conservation across the run -/

/-- C3: for every residual graph built by `from_edge_list` and every key
pair, the sum `cap(u→v) + cap(v→u)` after any prefix of the augmentations
performed by `run` (each post-augmentation snapshot, and the final graph)
equals its value at construction. -/
theorem C3_capacity_conservation (F : Nat) (es : List REdge) (s t a b : List Nat)
    (d : Dinic) (r : RunResult)
    (h : dinicRun F (from_edge_list es s t) a b = .ok (d, r)) :
    ∀ g' ∈ r.snaps ++ [d.graph], ∀ u v, capSum g' u v = capSum (buildResidual es) u v := by
  intro g' hg' u v
  simp only [dinicRun] at h
  split at h
  · rename_i r0 hrl
    simp only [MRes.ok.injEq, Prod.mk.injEq] at h
    obtain ⟨hd, hr⟩ := h
    obtain ⟨hfin, hsn⟩ := runLoop_graph F s t (buildResidual es) F (buildResidual es)
      0 0 [] [] r0 hrl ⟨rfl, fun _ _ => rfl⟩
      (fun gs hgs => absurd hgs (List.not_mem_nil gs))
    subst hr
    rcases List.mem_append.mp hg' with hm | hm
    · exact (hsn g' hm).2 u v
    · rcases List.mem_singleton.mp hm with rfl
      rw [← hd]
      exact hfin.2 u v
  · exact absurd h (by simp)
  · exact absurd h (by simp)

/-- Witness for C3: the first snapshot of the CLR run conserves the
`0 ↔ 1` pair sum. -/
theorem C3_capacity_conservation_witness :
    capSum (clrRun.2.snaps.getD 0 []) 0 1 = capSum (buildResidual clrEdges) 0 1 :=
  C3_capacity_conservation 64 clrEdges [0] [5] [0] [5] clrRun.1 clrRun.2 rfl
    (clrRun.2.snaps.getD 0 []) (by decide) 0 1

/-! ## Claim C4: the uncomputed-query gating -/

/-- C4: before `run()` completes, `max_flow()` and `assignment()` both
return the "uncomputed" error (without panicking); once `run()` has
returned, `max_flow()` returns `Ok` and `assignment` (on in-bounds sources,
with the flood fuel budget) returns `Ok`. -/
theorem C4_uncomputed_gating (es : List REdge) (s t q : List Nat) (F : Nat) :
    max_flow (from_edge_list es s t) = .error "Assigment was not computed." ∧
    assignment (from_edge_list es s t) q F = .ok (.error "Assigment was not computed.") ∧
    (∀ (F2 : Nat) (a b : List Nat) (d : Dinic) (r : RunResult),
      dinicRun F2 (from_edge_list es s t) a b = .ok (d, r) →
      max_flow d = .ok d.maxFlowVal ∧
      ((∀ x ∈ q, x < numberOfNodes d.graph) →
        ∃ bs, assignment d q (assignFuel d.graph q) = .ok (.ok bs))) := by
  refine ⟨rfl, rfl, ?_⟩
  intro F2 a b d r hrun
  simp only [dinicRun] at hrun
  split at hrun
  · rename_i r0 hrl
    simp only [MRes.ok.injEq, Prod.mk.injEq] at hrun
    have hd : d.finished = true := by rw [← hrun.1]
    refine ⟨?_, fun hq => assignment_ok d q hd hq⟩
    simp only [max_flow, hd, Bool.not_true, Bool.false_eq_true, if_false]
  · exact absurd hrun (by simp)
  · exact absurd hrun (by simp)

/-- Witness for C4: the finished CLR solver answers both queries with `Ok`. -/
theorem C4_uncomputed_gating_witness :
    max_flow clrRun.1 = .ok clrRun.1.maxFlowVal ∧
    ∃ bs, assignment clrRun.1 [0] (assignFuel clrRun.1.graph [0]) = .ok (.ok bs) := by
  have h := (C4_uncomputed_gating clrEdges [0] [5] [0] 64).2.2 64 [0] [5]
    clrRun.1 clrRun.2 rfl
  exact ⟨h.1, h.2 (by decide)⟩

/-! ## Tarjan: basic facts about the model's accessors -/

theorem updNI_self (f : Nat → NodeInfo) (i : Nat) (h : NodeInfo → NodeInfo) :
    updNI f i h i = h (f i) := by
  simp [updNI]

theorem updNI_ne (f : Nat → NodeInfo) (i : Nat) (h : NodeInfo → NodeInfo)
    (v : Nat) (hv : v ≠ i) : updNI f i h v = f v := by
  simp [updNI, hv]

theorem nthTarget_edge (g : List REdge) (u i w : Nat)
    (h : nthTarget g u i = some w) : EdgeR g u w := by
  simp only [nthTarget, Option.map_eq_some'] at h
  obtain ⟨e, he, hw⟩ := h
  have hmem : e ∈ edgeRange g u := List.get?_mem he
  obtain ⟨hg, hs⟩ := edgeRange_mem g u e hmem
  exact ⟨e, hg, hs, hw⟩

theorem edge_nthTarget (g : List REdge) (u w : Nat) (h : EdgeR g u w) :
    ∃ i, i < outDeg g u ∧ nthTarget g u i = some w := by
  obtain ⟨e, hg, hs, ht⟩ := h
  have hmem : e ∈ edgeRange g u := by
    simp only [edgeRange, List.mem_filter]
    exact ⟨hg, by simp [hs]⟩
  obtain ⟨i, hi⟩ := List.get_of_mem hmem
  refine ⟨i.1, i.2, ?_⟩
  simp only [nthTarget, List.get?_eq_get i.2, hi]
  simp [ht]

theorem edgeR_lt (g : List REdge) (u w : Nat) (h : EdgeR g u w) :
    u < numberOfNodes g ∧ w < numberOfNodes g := by
  obtain ⟨e, hg, hs, ht⟩ := h
  have := numberOfNodes_bound g e hg
  omega

theorem reach_refl (g : List REdge) (v : Nat) : Reach g v v :=
  Relation.ReflTransGen.refl

theorem reach_trans (g : List REdge) {u v w : Nat}
    (h1 : Reach g u v) (h2 : Reach g v w) : Reach g u w :=
  Relation.ReflTransGen.trans h1 h2

theorem reach_single (g : List REdge) {u v : Nat} (h : EdgeR g u v) : Reach g u v :=
  Relation.ReflTransGen.single h

/-- Characterization of the component-closing pop loop: popping down to
the first occurrence of `last` clears `on_stack` and assigns `c` on the
popped prefix, and leaves the remaining stack untouched. -/
theorem popScc_eq (c : Nat) : ∀ (P : List Nat) (last : Nat) (rest : List Nat)
    (dfs : Nat → NodeInfo) (asg : Nat → Nat), last ∉ P →
    popScc last c (P ++ last :: rest) dfs asg =
      .ok (rest,
        fun v => if v ∈ P ++ [last] then { dfs v with on_stack := false } else dfs v,
        fun v => if v ∈ P ++ [last] then c else asg v) := by
  intro P
  induction P with
  | nil =>
    intro last rest dfs asg _
    simp only [List.nil_append, popScc, if_pos rfl]
    refine congrArg MRes.ok ?_
    refine congrArg (Prod.mk rest) ?_
    refine congrArg₂ Prod.mk ?_ ?_
    · funext v
      by_cases hv : v = last
      · subst hv; simp [updNI]
      · simp [updNI, hv]
    · funext v
      by_cases hv : v = last
      · subst hv; simp
      · simp [hv]
  | cons p P ih =>
    intro last rest dfs asg hl
    have hpl : p ≠ last := fun h => hl (h ▸ List.mem_cons_self p P)
    have hlp : last ∉ P := fun h => hl (List.mem_cons_of_mem _ h)
    have hstep : popScc last c ((p :: P) ++ last :: rest) dfs asg
        = popScc last c (P ++ last :: rest)
            (updNI dfs p (fun ni => { ni with on_stack := false }))
            (fun x => if x = p then c else asg x) := by
      simp only [List.cons_append, popScc]
      rw [if_neg hpl]
      rfl
    rw [hstep, ih last rest _ _ hlp]
    refine congrArg MRes.ok ?_
    refine congrArg (Prod.mk rest) ?_
    refine congrArg₂ Prod.mk ?_ ?_
    · funext v
      by_cases hv : v = p
      · subst hv
        simp only [updNI_self, List.cons_append, List.mem_cons, true_or, if_pos]
        by_cases hv2 : v ∈ P ++ [last] <;> simp [hv2]
      · rw [updNI_ne _ _ _ _ hv]
        by_cases hv2 : v ∈ P ++ [last] <;>
          simp [List.cons_append, List.mem_cons, hv, hv2]
    · funext v
      by_cases hv : v = p
      · subst hv; simp
      · by_cases hv2 : v ∈ P ++ [last] <;>
          simp [List.cons_append, List.mem_cons, hv, hv2]

theorem callerLinks_congr (st st' : TState) :
    ∀ ch, (∀ v ∈ ch, (st'.dfs v).caller = (st.dfs v).caller) →
      CallerLinks st ch → CallerLinks st' ch := by
  intro ch
  induction ch with
  | nil => exact fun _ => id
  | cons c rest ih =>
    cases rest with
    | nil =>
      intro hcl h
      simpa [CallerLinks, hcl c (List.mem_cons_self _ _)] using h
    | cons c2 r2 =>
      intro hcl h
      exact ⟨by rw [hcl c (List.mem_cons_self _ _)]; exact h.1,
        ih (fun v hv => hcl v (List.mem_cons_of_mem _ hv)) h.2⟩

/-- Transport of the chain-independent invariants along a step that keeps
index, lowlink, on-stack flags, the stack, the assignment and the
counters; only the edge-accounting clause (which watches the `neighbor`
cursors) must be re-established. -/
theorem TBase_transport (g : List REdge) (st st' : TState)
    (hix : ∀ v, (st'.dfs v).index = (st.dfs v).index)
    (hlw : ∀ v, (st'.dfs v).lowlink = (st.dfs v).lowlink)
    (hos : ∀ v, (st'.dfs v).on_stack = (st.dfs v).on_stack)
    (hfr : ∀ v, ¬ Vis st v → st'.dfs v = st.dfs v)
    (hst : st'.stack = st.stack) (hasg : ∀ v, st'.asg v = st.asg v)
    (hidx : st'.idx = st.idx) (hnscc : st'.nscc = st.nscc)
    (hB : TBase g st)
    (hacct : ∀ u, Vis st' u → ∀ i, i < (st'.dfs u).neighbor →
      ∀ w, nthTarget g u i = some w →
        Vis st' w ∧ (st'.asg w ≠ USIZE_MAX ∨ (st'.dfs u).lowlink ≤ (st'.dfs w).index)) :
    TBase g st' := by
  have hvis : ∀ v, Vis st' v ↔ Vis st v := by
    intro v; unfold Vis; rw [hix]
  refine ⟨?_, ?_, ?_, ?_, ?_, ?_, ?_, ?_, ?_, ?_, ?_, ?_, ?_, ?_, ?_, ?_, ?_, ?_, ?_, hacct⟩
  · intro v hv; exact hB.vis_lt v ((hvis v).mp hv)
  · intro v hv; rw [hix v, hidx]; exact hB.vis_idx v ((hvis v).mp hv)
  · rw [hidx, ← hB.card_idx]
    exact congrArg Finset.card (Finset.filter_congr (fun v _ => hvis v))
  · intro u v hu hv he
    rw [hix u, hix v] at he
    exact hB.index_inj u v ((hvis u).mp hu) ((hvis v).mp hv) he
  · intro v hv; rw [hix v, hlw v]; exact hB.low_le v ((hvis v).mp hv)
  · intro v hv
    have hv2 : ¬ Vis st v := fun h => hv ((hvis v).mpr h)
    have := hB.unvis_fresh v hv2
    exact ⟨by rw [hfr v hv2]; exact this.1, by rw [hasg v]; exact this.2⟩
  · intro v hv; rw [hst] at hv; exact (hvis v).mpr (hB.stack_vis v hv)
  · rw [hst]; exact hB.stack_nodup
  · intro v; rw [hos v, hst]; exact hB.onstack_iff v
  · intro v hv; rw [hst] at hv; rw [hasg v]; exact hB.stack_unasg v hv
  · intro v hv
    rcases hB.vis_cover v ((hvis v).mp hv) with h | h
    · exact Or.inl (by rw [hasg v]; exact h)
    · exact Or.inr (by rw [hst]; exact h)
  · rw [hst]
    exact hB.stack_sorted.imp (fun h => by rw [hix, hix]; exact h)
  · intro v hv; rw [hasg v] at hv ⊢; rw [hnscc]; exact hB.asg_pos v hv
  · intro c hc1 hc2
    rw [hnscc] at hc2
    obtain ⟨v, hv⟩ := hB.asg_dense c hc1 hc2
    exact ⟨v, by rw [hasg v]; exact hv⟩
  · rw [hnscc]
    refine le_trans hB.nscc_card (le_of_eq ?_)
    exact congrArg Finset.card (Finset.filter_congr (fun v _ => by rw [hasg v]))
  · intro u v hu hr; rw [hasg u] at hu; rw [hasg v]; exact hB.asg_closed u v hu hr
  · intro u v hu hv he
    rw [hasg u] at hu he; rw [hasg v] at hv he
    exact hB.asg_mutual u v hu hv he
  · intro u v hu hv h1 h2
    rw [hasg u] at hu ⊢; rw [hasg v] at hv ⊢
    exact hB.mutual_asg u v hu hv h1 h2
  · intro v hv
    rw [hst] at hv
    rcases hB.low_wit v hv with h | ⟨w, hw, hwi, hwr⟩
    · exact Or.inl (by rw [hlw v, hix v]; exact h)
    · exact Or.inr ⟨w, by rw [hst]; exact hw, by rw [hix w, hlw v]; exact hwi, hwr⟩

/-- Transport of the chain invariants along a step that keeps index,
lowlink, caller and the stack; only the exhaustion clause (which watches
the `neighbor` cursors) must be re-established. -/
theorem TChain_transport (g : List REdge) (st st' : TState) (ch : List Nat)
    (hix : ∀ v, (st'.dfs v).index = (st.dfs v).index)
    (hlwch : ∀ v, (st'.dfs v).lowlink ≤ (st.dfs v).lowlink)
    (hlwnc : ∀ v, v ∉ ch → (st'.dfs v).lowlink = (st.dfs v).lowlink)
    (hcl : ∀ v, (st'.dfs v).caller = (st.dfs v).caller)
    (hst : st'.stack = st.stack)
    (hC : TChain g st ch)
    (hexh : ∀ p ∈ st'.stack, p ∉ ch → outDeg g p ≤ (st'.dfs p).neighbor) :
    TChain g st' ch := by
  refine ⟨?_, ?_, hC.edges, ?_, ?_, ?_, hexh, ?_, ?_⟩
  · intro c hc; rw [hst]; exact hC.sub_stack c hc
  · exact callerLinks_congr st st' ch (fun v _ => hcl v) hC.links
  · exact hC.sorted.imp (fun h => by rw [hix, hix]; exact h)
  · intro r hr u hu
    rw [hst] at hu; rw [hix r, hix u]
    exact hC.root_min r hr u hu
  · intro p hp hpc
    rw [hst] at hp; rw [hlwnc p hpc, hix p]
    exact hC.fin_low p hp hpc
  · intro p hp hpc
    rw [hst] at hp
    obtain ⟨c, hc, h1, h2, h3⟩ := hC.fin_anchor p hp hpc
    refine ⟨c, hc, by rw [hix c, hix p]; exact h1, ?_,
      le_trans (hlwch c) (by rw [hlwnc p hpc]; exact h3)⟩
    intro c' hc' hlt
    rw [hix c', hix p] at hlt; rw [hix c', hix c]
    exact h2 c' hc' hlt
  · intro c hc u hu hle
    rw [hst] at hu; rw [hix c, hix u] at hle
    exact hC.down_reach c hc u hu hle

/-- Transport of the chain-independent invariants along a step that may
additionally lower the lowlink of one node `x`; the lowlink-witness
clause for `x` and the edge accounting must be re-established. -/
theorem TBase_transport1 (g : List REdge) (st st' : TState) (x : Nat)
    (hix : ∀ v, (st'.dfs v).index = (st.dfs v).index)
    (hlw : ∀ v, v ≠ x → (st'.dfs v).lowlink = (st.dfs v).lowlink)
    (hlwx : (st'.dfs x).lowlink ≤ (st.dfs x).lowlink)
    (hos : ∀ v, (st'.dfs v).on_stack = (st.dfs v).on_stack)
    (hfr : ∀ v, ¬ Vis st v → st'.dfs v = st.dfs v)
    (hst : st'.stack = st.stack) (hasg : ∀ v, st'.asg v = st.asg v)
    (hidx : st'.idx = st.idx) (hnscc : st'.nscc = st.nscc)
    (hB : TBase g st)
    (hwitx : x ∈ st'.stack → (st'.dfs x).lowlink = (st'.dfs x).index ∨
      ∃ w ∈ st'.stack, (st'.dfs w).index = (st'.dfs x).lowlink ∧ Reach g x w)
    (hacct : ∀ u, Vis st' u → ∀ i, i < (st'.dfs u).neighbor →
      ∀ w, nthTarget g u i = some w →
        Vis st' w ∧ (st'.asg w ≠ USIZE_MAX ∨ (st'.dfs u).lowlink ≤ (st'.dfs w).index)) :
    TBase g st' := by
  have hvis : ∀ v, Vis st' v ↔ Vis st v := by
    intro v; unfold Vis; rw [hix]
  refine ⟨?_, ?_, ?_, ?_, ?_, ?_, ?_, ?_, ?_, ?_, ?_, ?_, ?_, ?_, ?_, ?_, ?_, ?_, ?_, hacct⟩
  · intro v hv; exact hB.vis_lt v ((hvis v).mp hv)
  · intro v hv; rw [hix v, hidx]; exact hB.vis_idx v ((hvis v).mp hv)
  · rw [hidx, ← hB.card_idx]
    exact congrArg Finset.card (Finset.filter_congr (fun v _ => hvis v))
  · intro u v hu hv he
    rw [hix u, hix v] at he
    exact hB.index_inj u v ((hvis u).mp hu) ((hvis v).mp hv) he
  · intro v hv
    by_cases hvx : v = x
    · subst hvx
      rw [hix v]
      exact le_trans hlwx (hB.low_le v ((hvis v).mp hv))
    · rw [hix v, hlw v hvx]; exact hB.low_le v ((hvis v).mp hv)
  · intro v hv
    have hv2 : ¬ Vis st v := fun h => hv ((hvis v).mpr h)
    have := hB.unvis_fresh v hv2
    exact ⟨by rw [hfr v hv2]; exact this.1, by rw [hasg v]; exact this.2⟩
  · intro v hv; rw [hst] at hv; exact (hvis v).mpr (hB.stack_vis v hv)
  · rw [hst]; exact hB.stack_nodup
  · intro v; rw [hos v, hst]; exact hB.onstack_iff v
  · intro v hv; rw [hst] at hv; rw [hasg v]; exact hB.stack_unasg v hv
  · intro v hv
    rcases hB.vis_cover v ((hvis v).mp hv) with h | h
    · exact Or.inl (by rw [hasg v]; exact h)
    · exact Or.inr (by rw [hst]; exact h)
  · rw [hst]
    exact hB.stack_sorted.imp (fun h => by rw [hix, hix]; exact h)
  · intro v hv; rw [hasg v] at hv ⊢; rw [hnscc]; exact hB.asg_pos v hv
  · intro c hc1 hc2
    rw [hnscc] at hc2
    obtain ⟨v, hv⟩ := hB.asg_dense c hc1 hc2
    exact ⟨v, by rw [hasg v]; exact hv⟩
  · rw [hnscc]
    refine le_trans hB.nscc_card (le_of_eq ?_)
    exact congrArg Finset.card (Finset.filter_congr (fun v _ => by rw [hasg v]))
  · intro u v hu hr; rw [hasg u] at hu; rw [hasg v]; exact hB.asg_closed u v hu hr
  · intro u v hu hv he
    rw [hasg u] at hu he; rw [hasg v] at hv he
    exact hB.asg_mutual u v hu hv he
  · intro u v hu hv h1 h2
    rw [hasg u] at hu ⊢; rw [hasg v] at hv ⊢
    exact hB.mutual_asg u v hu hv h1 h2
  · intro v hv
    by_cases hvx : v = x
    · subst hvx; exact hwitx hv
    rw [hst] at hv
    rcases hB.low_wit v hv with h | ⟨w, hw, hwi, hwr⟩
    · exact Or.inl (by rw [hlw v hvx, hix v]; exact h)
    · exact Or.inr ⟨w, by rw [hst]; exact hw, by rw [hix w, hlw v hvx]; exact hwi, hwr⟩

/-- The skip step (tarjan.rs line 83 falling through): the examined edge
leads to a visited node that is no longer on the stack; only the
`neighbor` cursor of the current node advances. -/
theorem step_skip (g : List REdge) (st : TState) (last : Nat) (ch : List Nat) (w : Nat)
    (hB : TBase g st) (hC : TChain g st (last :: ch))
    (hnt : nthTarget g last (st.dfs last).neighbor = some w)
    (hvw : Vis st w) (hns : ¬ (st.dfs w).on_stack = true) :
    TBase g (bumpNb st last) ∧ TChain g (bumpNb st last) (last :: ch) := by
  unfold bumpNb
  have hlast_vis : Vis st last :=
    hB.stack_vis last (hC.sub_stack last (List.mem_cons_self _ _))
  set D := updNI st.dfs last (fun ni => { ni with neighbor := ni.neighbor + 1 }) with hD
  have hDne : ∀ v, v ≠ last → D v = st.dfs v := fun v hv => updNI_ne _ _ _ v hv
  have hix : ∀ v, (D v).index = (st.dfs v).index := by
    intro v
    by_cases hv : v = last
    · subst hv; rw [hD, updNI_self]
    · rw [hDne v hv]
  have hlw : ∀ v, (D v).lowlink = (st.dfs v).lowlink := by
    intro v
    by_cases hv : v = last
    · subst hv; rw [hD, updNI_self]
    · rw [hDne v hv]
  have hos : ∀ v, (D v).on_stack = (st.dfs v).on_stack := by
    intro v
    by_cases hv : v = last
    · subst hv; rw [hD, updNI_self]
    · rw [hDne v hv]
  have hcl : ∀ v, (D v).caller = (st.dfs v).caller := by
    intro v
    by_cases hv : v = last
    · subst hv; rw [hD, updNI_self]
    · rw [hDne v hv]
  have hnbl : (D last).neighbor = (st.dfs last).neighbor + 1 := by
    rw [hD, updNI_self]
  have hvis : ∀ v, Vis { st with dfs := D } v ↔ Vis st v := by
    intro v; unfold Vis; exact not_congr (by rw [hix v])
  constructor
  · refine TBase_transport g st _ hix hlw hos
      (fun v hv => hDne v (fun he => hv (he ▸ hlast_vis))) rfl (fun _ => rfl) rfl rfl hB ?_
    intro u hu i hi w' hw'
    dsimp only at hi ⊢
    by_cases hul : u = last
    · subst hul
      rw [hnbl] at hi
      rcases Nat.lt_succ_iff_lt_or_eq.mp hi with hi2 | hi2
      · obtain ⟨h1, h2⟩ := hB.edge_acct u hlast_vis i hi2 w' hw'
        refine ⟨(hvis w').mpr h1, ?_⟩
        rcases h2 with h2 | h2
        · exact Or.inl h2
        · exact Or.inr (by rw [hlw u, hix w']; exact h2)
      · subst hi2
        rw [hnt] at hw'
        obtain rfl : w = w' := Option.some.inj hw'
        refine ⟨(hvis w).mpr hvw, Or.inl ?_⟩
        rcases hB.vis_cover w hvw with h | h
        · exact h
        · exact absurd ((hB.onstack_iff w).mpr h) hns
    · rw [hDne u hul] at hi ⊢
      obtain ⟨h1, h2⟩ := hB.edge_acct u ((hvis u).mp hu) i hi w' hw'
      refine ⟨(hvis w').mpr h1, ?_⟩
      rcases h2 with h2 | h2
      · exact Or.inl h2
      · exact Or.inr (by rw [hix w']; exact h2)
  · refine TChain_transport g st _ (last :: ch) hix (fun v => le_of_eq (hlw v))
      (fun v _ => hlw v) hcl rfl hC ?_
    intro p hp hpc
    dsimp only at hp ⊢
    have hpl : p ≠ last := fun he => hpc (he ▸ List.mem_cons_self _ _)
    rw [hDne p hpl]
    exact hC.fin_exh p hp hpc

/-- The back-edge step (tarjan.rs lines 83-86): the examined edge leads to
a node still on the stack; the current node's lowlink absorbs that node's
discovery index. -/
theorem step_back (g : List REdge) (st : TState) (last : Nat) (ch : List Nat) (w : Nat)
    (hB : TBase g st) (hC : TChain g st (last :: ch))
    (hnt : nthTarget g last (st.dfs last).neighbor = some w)
    (hons : ((bumpNb st last).dfs w).on_stack = true) :
    TBase g (backState st last w) ∧ TChain g (backState st last w) (last :: ch) := by
  unfold backState bumpNb
  unfold bumpNb at hons
  dsimp only at hons
  have hlast_vis : Vis st last :=
    hB.stack_vis last (hC.sub_stack last (List.mem_cons_self _ _))
  set D1 := updNI st.dfs last (fun ni => { ni with neighbor := ni.neighbor + 1 }) with hD1
  set D := updNI D1 last (fun ni => { ni with lowlink := min ni.lowlink (D1 w).index }) with hD
  have hD1ne : ∀ v, v ≠ last → D1 v = st.dfs v := fun v hv => updNI_ne _ _ _ v hv
  have hDne : ∀ v, v ≠ last → D v = st.dfs v := by
    intro v hv
    rw [hD, updNI_ne _ _ _ v hv, hD1ne v hv]
  have hKix : (D1 w).index = (st.dfs w).index := by
    by_cases hw : w = last
    · subst hw; rw [hD1, updNI_self]
    · rw [hD1ne w hw]
  have hwos : (st.dfs w).on_stack = true := by
    by_cases hw : w = last
    · subst hw; rw [hD1, updNI_self] at hons; exact hons
    · rw [hD1ne w hw] at hons; exact hons
  have hws : w ∈ st.stack := (hB.onstack_iff w).mp hwos
  have hvw : Vis st w := hB.stack_vis w hws
  have hDlast : D last = { st.dfs last with neighbor := (st.dfs last).neighbor + 1, lowlink := min (st.dfs last).lowlink (st.dfs w).index } := by
    rw [hD, updNI_self, hD1, updNI_self, hKix]
  have hix : ∀ v, (D v).index = (st.dfs v).index := by
    intro v
    by_cases hv : v = last
    · subst hv; rw [hDlast]
    · rw [hDne v hv]
  have hlw_ne : ∀ v, v ≠ last → (D v).lowlink = (st.dfs v).lowlink := by
    intro v hv; rw [hDne v hv]
  have hlw_last : (D last).lowlink = min (st.dfs last).lowlink (st.dfs w).index := by
    rw [hDlast]
  have hos : ∀ v, (D v).on_stack = (st.dfs v).on_stack := by
    intro v
    by_cases hv : v = last
    · subst hv; rw [hDlast]
    · rw [hDne v hv]
  have hcl : ∀ v, (D v).caller = (st.dfs v).caller := by
    intro v
    by_cases hv : v = last
    · subst hv; rw [hDlast]
    · rw [hDne v hv]
  have hnbl : (D last).neighbor = (st.dfs last).neighbor + 1 := by
    rw [hDlast]
  have hvis : ∀ v, Vis { st with dfs := D } v ↔ Vis st v := by
    intro v; unfold Vis; exact not_congr (by rw [hix v])
  have hedge : EdgeR g last w := nthTarget_edge g last (st.dfs last).neighbor w hnt
  constructor
  · refine TBase_transport1 g st _ last hix hlw_ne
      (by rw [hlw_last]; exact min_le_left _ _) hos
      (fun v hv => hDne v (fun he => hv (he ▸ hlast_vis))) rfl (fun _ => rfl) rfl rfl hB ?_ ?_
    · intro hls
      dsimp only at hls ⊢
      rcases le_or_lt (st.dfs last).lowlink (st.dfs w).index with hcmp | hcmp
      · rw [hlw_last, min_eq_left hcmp]
        rcases hB.low_wit last hls with h | ⟨w', hw', hwi', hwr'⟩
        · exact Or.inl (by rw [hix last]; exact h)
        · exact Or.inr ⟨w', hw', by rw [hix w']; exact hwi', hwr'⟩
      · rw [hlw_last, min_eq_right (le_of_lt hcmp)]
        exact Or.inr ⟨w, hws, by rw [hix w], reach_single g hedge⟩
    · intro u hu i hi w' hw'
      dsimp only at hi ⊢
      by_cases hul : u = last
      · subst hul
        rw [hnbl] at hi
        rcases Nat.lt_succ_iff_lt_or_eq.mp hi with hi2 | hi2
        · obtain ⟨h1, h2⟩ := hB.edge_acct u hlast_vis i hi2 w' hw'
          refine ⟨(hvis w').mpr h1, ?_⟩
          rcases h2 with h2 | h2
          · exact Or.inl h2
          · refine Or.inr ?_
            rw [hlw_last, hix w']
            exact le_trans (min_le_left _ _) h2
        · subst hi2
          rw [hnt] at hw'
          obtain rfl : w = w' := Option.some.inj hw'
          refine ⟨(hvis w).mpr hvw, Or.inr ?_⟩
          rw [hlw_last, hix w]
          exact min_le_right _ _
      · rw [hDne u hul] at hi ⊢
        obtain ⟨h1, h2⟩ := hB.edge_acct u ((hvis u).mp hu) i hi w' hw'
        refine ⟨(hvis w').mpr h1, ?_⟩
        rcases h2 with h2 | h2
        · exact Or.inl h2
        · exact Or.inr (by rw [hix w']; exact h2)
  · refine TChain_transport g st _ (last :: ch) hix ?_ ?_ hcl rfl hC ?_
    · intro v
      by_cases hv : v = last
      · subst hv; dsimp only; rw [hlw_last]; exact min_le_left _ _
      · dsimp only; rw [hlw_ne v hv]
    · intro v hv
      dsimp only
      exact hlw_ne v (fun he => hv (he ▸ List.mem_cons_self _ _))
    · intro p hp hpc
      dsimp only at hp ⊢
      have hpl : p ≠ last := fun he => hpc (he ▸ List.mem_cons_self _ _)
      rw [hDne p hpl]
      exact hC.fin_exh p hp hpc

/-- The descend step (tarjan.rs lines 74-82): the examined edge leads to an
unvisited node, which is discovered, pushed, and becomes the current node. -/
theorem step_desc (g : List REdge) (hn : numberOfNodes g < USIZE_MAX)
    (st : TState) (last : Nat) (ch : List Nat) (w : Nat)
    (hB : TBase g st) (hC : TChain g st (last :: ch))
    (hnt : nthTarget g last (st.dfs last).neighbor = some w)
    (hunv : ((bumpNb st last).dfs w).index = USIZE_MAX) :
    TBase g (descState st last w) ∧ TChain g (descState st last w) (w :: last :: ch) := by
  unfold descState bumpNb
  unfold bumpNb at hunv
  dsimp only at hunv ⊢
  have hlast_vis : Vis st last :=
    hB.stack_vis last (hC.sub_stack last (List.mem_cons_self _ _))
  set D1 := updNI st.dfs last (fun ni => { ni with neighbor := ni.neighbor + 1 }) with hD1
  have hD1ne : ∀ v, v ≠ last → D1 v = st.dfs v := fun v hv => updNI_ne _ _ _ v hv
  have hD1ix : ∀ v, (D1 v).index = (st.dfs v).index := by
    intro v
    by_cases hv : v = last
    · subst hv; rw [hD1, updNI_self]
    · rw [hD1ne v hv]
  have hwunv : ¬ Vis st w := by
    have h1 : (st.dfs w).index = USIZE_MAX := by rw [← hD1ix w]; exact hunv
    exact fun hc => hc h1
  have hwl : w ≠ last := fun he => hwunv (he ▸ hlast_vis)
  set D := updNI D1 w (fun ni => { ni with caller := last, neighbor := 0, index := st.idx, lowlink := st.idx, on_stack := true }) with hD
  have hDw : D w = { st.dfs w with caller := last, neighbor := 0, index := st.idx, lowlink := st.idx, on_stack := true } := by
    rw [hD, updNI_self]
  have hDlast : D last = { st.dfs last with neighbor := (st.dfs last).neighbor + 1 } := by
    rw [hD, updNI_ne _ _ _ last (Ne.symm hwl), hD1, updNI_self]
  have hDne : ∀ v, v ≠ w → v ≠ last → D v = st.dfs v := by
    intro v h1 h2
    rw [hD, updNI_ne _ _ _ v h1, hD1ne v h2]
  have hix : ∀ v, v ≠ w → (D v).index = (st.dfs v).index := by
    intro v h1
    by_cases h2 : v = last
    · subst h2; rw [hDlast]
    · rw [hDne v h1 h2]
  have hixw : (D w).index = st.idx := by rw [hDw]
  have hlw : ∀ v, v ≠ w → (D v).lowlink = (st.dfs v).lowlink := by
    intro v h1
    by_cases h2 : v = last
    · subst h2; rw [hDlast]
    · rw [hDne v h1 h2]
  have hlww : (D w).lowlink = st.idx := by rw [hDw]
  have hos : ∀ v, v ≠ w → (D v).on_stack = (st.dfs v).on_stack := by
    intro v h1
    by_cases h2 : v = last
    · subst h2; rw [hDlast]
    · rw [hDne v h1 h2]
  have hosw : (D w).on_stack = true := by rw [hDw]
  have hcl : ∀ v, v ≠ w → (D v).caller = (st.dfs v).caller := by
    intro v h1
    by_cases h2 : v = last
    · subst h2; rw [hDlast]
    · rw [hDne v h1 h2]
  have hclw : (D w).caller = last := by rw [hDw]
  have hnbw : (D w).neighbor = 0 := by rw [hDw]
  have hnbl : (D last).neighbor = (st.dfs last).neighbor + 1 := by rw [hDlast]
  have hidxle : st.idx ≤ numberOfNodes g := by
    have h1 := hB.card_idx
    have h2 : ((Finset.range (numberOfNodes g)).filter (fun v => Vis st v)).card ≤
        (Finset.range (numberOfNodes g)).card := Finset.card_filter_le _ _
    rw [Finset.card_range] at h2
    omega
  have hidxMAX : st.idx ≠ USIZE_MAX := by omega
  have hwn : w < numberOfNodes g := (edgeR_lt g last w (nthTarget_edge g last _ w hnt)).2
  have hvisD : ∀ v, (D v).index ≠ USIZE_MAX ↔ (Vis st v ∨ v = w) := by
    intro v
    by_cases hvw : v = w
    · subst hvw
      rw [hixw]
      exact ⟨fun _ => Or.inr rfl, fun _ => hidxMAX⟩
    · rw [hix v hvw]
      exact ⟨Or.inl, fun h => Or.resolve_right h hvw⟩
  have hwns : w ∉ st.stack := fun hc => hwunv (hB.stack_vis w hc)
  constructor
  · refine ⟨?_, ?_, ?_, ?_, ?_, ?_, ?_, ?_, ?_, ?_, ?_, ?_, ?_, ?_, ?_, ?_, ?_, ?_, ?_, ?_⟩
    · intro v hv
      rcases (hvisD v).mp hv with h | h
      · exact hB.vis_lt v h
      · rw [h]; exact hwn
    · intro v hv
      show (D v).index < st.idx + 1
      rcases (hvisD v).mp hv with h | h
      · rw [hix v (fun he => hwunv (he ▸ h))]
        exact lt_trans (hB.vis_idx v h) (Nat.lt_succ_self _)
      · rw [h, hixw]; exact Nat.lt_succ_self _
    · show ((Finset.range (numberOfNodes g)).filter _).card = st.idx + 1
      have hfe : (Finset.range (numberOfNodes g)).filter
            (fun v => Vis ⟨D, w :: st.stack, st.asg, st.idx + 1, st.nscc⟩ v) =
          insert w ((Finset.range (numberOfNodes g)).filter (fun v => Vis st v)) := by
        ext x
        simp only [Finset.mem_filter, Finset.mem_insert, Finset.mem_range]
        constructor
        · rintro ⟨hx1, hx2⟩
          rcases (hvisD x).mp hx2 with h | h
          · exact Or.inr ⟨hx1, h⟩
          · exact Or.inl h
        · rintro (h | ⟨hx1, hx2⟩)
          · subst h; exact ⟨hwn, (hvisD x).mpr (Or.inr rfl)⟩
          · exact ⟨hx1, (hvisD x).mpr (Or.inl hx2)⟩
      rw [hfe, Finset.card_insert_of_not_mem (by
        simp only [Finset.mem_filter]
        exact fun hc => hwunv hc.2), hB.card_idx]
    · intro u v hu hv he
      have he' : (D u).index = (D v).index := he
      rcases (hvisD u).mp hu with h1 | h1 <;> rcases (hvisD v).mp hv with h2 | h2
      · rw [hix u (fun he2 => hwunv (he2 ▸ h1)), hix v (fun he2 => hwunv (he2 ▸ h2))] at he'
        exact hB.index_inj u v h1 h2 he'
      · rw [hix u (fun he2 => hwunv (he2 ▸ h1)), h2, hixw] at he'
        exact absurd he' (Nat.ne_of_lt (hB.vis_idx u h1))
      · rw [h1, hixw, hix v (fun he2 => hwunv (he2 ▸ h2))] at he'
        exact absurd he'.symm (Nat.ne_of_lt (hB.vis_idx v h2))
      · rw [h1, h2]
    · intro v hv
      show (D v).lowlink ≤ (D v).index
      rcases (hvisD v).mp hv with h | h
      · have hvw : v ≠ w := fun he => hwunv (he ▸ h)
        rw [hix v hvw, hlw v hvw]
        exact hB.low_le v h
      · rw [h, hixw, hlww]
    · intro v hv
      have hv' : ¬ (Vis st v ∨ v = w) := fun hc => hv ((hvisD v).mpr hc)
      push_neg at hv'
      have := hB.unvis_fresh v hv'.1
      have hvl : v ≠ last := fun he => hv'.1 (he ▸ hlast_vis)
      exact ⟨by show D v = _; rw [hDne v hv'.2 hvl]; exact this.1, this.2⟩
    · intro v hv
      rcases List.mem_cons.mp hv with rfl | hv2
      · exact (hvisD v).mpr (Or.inr rfl)
      · exact (hvisD v).mpr (Or.inl (hB.stack_vis v hv2))
    · exact List.nodup_cons.mpr ⟨hwns, hB.stack_nodup⟩
    · intro v
      by_cases hvw : v = w
      · subst hvw
        exact ⟨fun _ => List.mem_cons_self _ _, fun _ => hosw⟩
      · have h1 : (D v).on_stack = (st.dfs v).on_stack := hos v hvw
        constructor
        · intro h2
          exact List.mem_cons_of_mem _ ((hB.onstack_iff v).mp (h1 ▸ h2))
        · intro h2
          rcases List.mem_cons.mp h2 with h3 | h3
          · exact absurd h3 hvw
          · show (D v).on_stack = true
            rw [h1]
            exact (hB.onstack_iff v).mpr h3
    · intro v hv
      rcases List.mem_cons.mp hv with rfl | hv2
      · exact (hB.unvis_fresh v hwunv).2
      · exact hB.stack_unasg v hv2
    · intro v hv
      rcases (hvisD v).mp hv with h | h
      · rcases hB.vis_cover v h with h2 | h2
        · exact Or.inl h2
        · exact Or.inr (List.mem_cons_of_mem _ h2)
      · subst h; exact Or.inr (List.mem_cons_self _ _)
    · rw [List.pairwise_cons]
      constructor
      · intro u hu
        have hu_vis : Vis st u := hB.stack_vis u hu
        have hune : u ≠ w := fun he => hwunv (he ▸ hu_vis)
        show (D u).index < (D w).index
        rw [hix u hune, hixw]
        exact hB.vis_idx u hu_vis
      · refine List.Pairwise.imp_of_mem ?_ hB.stack_sorted
        intro a b ha hb h
        show (D b).index < (D a).index
        rw [hix a (fun he => hwunv (he ▸ hB.stack_vis a ha)),
          hix b (fun he => hwunv (he ▸ hB.stack_vis b hb))]
        exact h
    · exact hB.asg_pos
    · exact hB.asg_dense
    · exact hB.nscc_card
    · exact hB.asg_closed
    · exact hB.asg_mutual
    · exact hB.mutual_asg
    · intro v hv
      rcases List.mem_cons.mp hv with rfl | hv2
      · left
        show (D v).lowlink = (D v).index
        rw [hlww, hixw]
      · have hvw : v ≠ w := fun he => hwunv (he ▸ hB.stack_vis v hv2)
        rcases hB.low_wit v hv2 with h | ⟨w', hw', hwi', hwr'⟩
        · left
          show (D v).lowlink = (D v).index
          rw [hlw v hvw, hix v hvw]
          exact h
        · right
          have hw'w : w' ≠ w := fun he => hwunv (he ▸ hB.stack_vis w' hw')
          refine ⟨w', List.mem_cons_of_mem _ hw', ?_, hwr'⟩
          show (D w').index = (D v).lowlink
          rw [hix w' hw'w, hlw v hvw]
          exact hwi'
    · intro u hu i hi w' hw'
      have hi' : i < (D u).neighbor := hi
      by_cases huw : u = w
      · subst huw
        rw [hnbw] at hi'
        exact absurd hi' (Nat.not_lt_zero i)
      by_cases hul : u = last
      · subst hul
        rw [hnbl] at hi'
        rcases Nat.lt_succ_iff_lt_or_eq.mp hi' with hi2 | hi2
        · obtain ⟨h1, h2⟩ := hB.edge_acct u hlast_vis i hi2 w' hw'
          have hw'w : w' ≠ w := fun he => hwunv (he ▸ h1)
          refine ⟨(hvisD w').mpr (Or.inl h1), ?_⟩
          rcases h2 with h2 | h2
          · exact Or.inl h2
          · refine Or.inr ?_
            show (D u).lowlink ≤ (D w').index
            rw [hlw u huw, hix w' hw'w]
            exact h2
        · subst hi2
          rw [hnt] at hw'
          have hww' : w' = w := (Option.some.inj hw').symm
          refine ⟨(hvisD w').mpr (Or.inr hww'), Or.inr ?_⟩
          show (D u).lowlink ≤ (D w').index
          rw [hww', hlw u huw, hixw]
          exact Nat.le_of_lt (lt_of_le_of_lt (hB.low_le u hlast_vis) (hB.vis_idx u hlast_vis))
      · rw [hDne u huw hul] at hi'
        have hu' : Vis st u := Or.resolve_right ((hvisD u).mp hu) huw
        obtain ⟨h1, h2⟩ := hB.edge_acct u hu' i hi' w' hw'
        have hw'w : w' ≠ w := fun he => hwunv (he ▸ h1)
        refine ⟨(hvisD w').mpr (Or.inl h1), ?_⟩
        rcases h2 with h2 | h2
        · exact Or.inl h2
        · refine Or.inr ?_
          show (D u).lowlink ≤ (D w').index
          rw [hDne u huw hul, hix w' hw'w]
          exact h2
  · refine ⟨?_, ?_, ?_, ?_, ?_, ?_, ?_, ?_, ?_⟩
    · intro c hc
      rcases List.mem_cons.mp hc with rfl | hc2
      · exact List.mem_cons_self _ _
      · exact List.mem_cons_of_mem _ (hC.sub_stack c hc2)
    · exact ⟨hclw, callerLinks_congr st _ (last :: ch)
        (fun v hv => hcl v (fun he => hwns (he ▸ hC.sub_stack v hv))) hC.links⟩
    · exact ⟨nthTarget_edge g last _ w hnt, hC.edges⟩
    · rw [List.pairwise_cons]
      constructor
      · intro c hc2
        have hcs : c ∈ st.stack := hC.sub_stack c hc2
        have hcw : c ≠ w := fun he => hwns (he ▸ hcs)
        show (D c).index < (D w).index
        rw [hix c hcw, hixw]
        exact hB.vis_idx c (hB.stack_vis c hcs)
      · refine List.Pairwise.imp_of_mem ?_ hC.sorted
        intro a b ha hb h
        show (D b).index < (D a).index
        rw [hix a (fun he => hwns (he ▸ hC.sub_stack a ha)),
          hix b (fun he => hwns (he ▸ hC.sub_stack b hb))]
        exact h
    · intro r hr u hu
      have hr' : (last :: ch).getLast? = some r := by
        rwa [List.getLast?_cons_cons] at hr
      have hrmem : r ∈ last :: ch := List.mem_of_getLast?_eq_some hr'
      have hrs : r ∈ st.stack := hC.sub_stack r hrmem
      have hrw : r ≠ w := fun he => hwns (he ▸ hrs)
      rcases List.mem_cons.mp hu with rfl | hu2
      · show (D r).index ≤ (D u).index
        rw [hix r hrw, hixw]
        exact Nat.le_of_lt (hB.vis_idx r (hB.stack_vis r hrs))
      · show (D r).index ≤ (D u).index
        rw [hix r hrw, hix u (fun he => hwns (he ▸ hu2))]
        exact hC.root_min r hr' u hu2
    · intro p hp hpc
      have hpw : p ≠ w := fun he => hpc (he ▸ List.mem_cons_self _ _)
      have hp2 : p ∈ st.stack := (List.mem_cons.mp hp).resolve_left hpw
      have hpc2 : p ∉ last :: ch := fun hc => hpc (List.mem_cons_of_mem _ hc)
      show (D p).lowlink < (D p).index
      rw [hlw p hpw, hix p hpw]
      exact hC.fin_low p hp2 hpc2
    · intro p hp hpc
      have hpw : p ≠ w := fun he => hpc (he ▸ List.mem_cons_self _ _)
      have hp2 : p ∈ st.stack := (List.mem_cons.mp hp).resolve_left hpw
      have hpc2 : p ∉ last :: ch := fun hc => hpc (List.mem_cons_of_mem _ hc)
      have hpl : p ≠ last := fun he => hpc2 (he ▸ List.mem_cons_self _ _)
      show outDeg g p ≤ (D p).neighbor
      rw [hDne p hpw hpl]
      exact hC.fin_exh p hp2 hpc2
    · intro p hp hpc
      have hpw : p ≠ w := fun he => hpc (he ▸ List.mem_cons_self _ _)
      have hp2 : p ∈ st.stack := (List.mem_cons.mp hp).resolve_left hpw
      have hpc2 : p ∉ last :: ch := fun hc => hpc (List.mem_cons_of_mem _ hc)
      obtain ⟨c, hc, h1, h2, h3⟩ := hC.fin_anchor p hp2 hpc2
      have hcw : c ≠ w := fun he => hwns (he ▸ hC.sub_stack c hc)
      refine ⟨c, List.mem_cons_of_mem _ hc, ?_, ?_, ?_⟩
      · show (D c).index < (D p).index
        rw [hix c hcw, hix p hpw]
        exact h1
      · intro c' hc' hlt
        rcases List.mem_cons.mp hc' with rfl | hc'2
        · exfalso
          have hlt' : (D c').index < (D p).index := hlt
          rw [hixw, hix p hpw] at hlt'
          exact absurd (hB.vis_idx p (hB.stack_vis p hp2)) (by omega)
        · have hc'w : c' ≠ w := fun he => hwns (he ▸ hC.sub_stack c' hc'2)
          have hlt' : (D c').index < (D p).index := hlt
          rw [hix c' hc'w, hix p hpw] at hlt'
          show (D c').index ≤ (D c).index
          rw [hix c' hc'w, hix c hcw]
          exact h2 c' hc'2 hlt'
      · show (D c).lowlink ≤ (D p).lowlink
        rw [hlw c hcw, hlw p hpw]
        exact h3
    · intro c hc u hu hle
      have hle' : (D c).index ≤ (D u).index := hle
      rcases List.mem_cons.mp hc with hcq | hc2
      · rcases List.mem_cons.mp hu with huq | hu2
        · rw [hcq, huq]; exact reach_refl g w
        · exfalso
          have huw : u ≠ w := fun he => hwns (he ▸ hu2)
          rw [hcq, hixw, hix u huw] at hle'
          have := hB.vis_idx u (hB.stack_vis u hu2)
          omega
      · rcases List.mem_cons.mp hu with huq | hu2
        · have hcs : c ∈ st.stack := hC.sub_stack c hc2
          have hcle : (st.dfs c).index ≤ (st.dfs last).index := by
            rcases List.mem_cons.mp hc2 with hcq2 | hc3
            · rw [hcq2]
            · exact Nat.le_of_lt ((List.pairwise_cons.mp hC.sorted).1 c hc3)
          have h1 : Reach g c last := hC.down_reach c hc2 last
            (hC.sub_stack last (List.mem_cons_self _ _)) hcle
          rw [huq]
          exact reach_trans g h1 (reach_single g (nthTarget_edge g last _ w hnt))
        · have hcw : c ≠ w := fun he => hwns (he ▸ hC.sub_stack c hc2)
          have huw : u ≠ w := fun he => hwns (he ▸ hu2)
          rw [hix c hcw, hix u huw] at hle'
          exact hC.down_reach c hc2 u hu2 hle'

/-- The component-closing step (tarjan.rs lines 88-102): when the current
node has exhausted its edges and is a root (`lowlink = index`), the stack
prefix down to it is popped and assigned the fresh component id. The
popped set is exactly one strongly connected component. -/
theorem close_step (g : List REdge) (hn : numberOfNodes g < USIZE_MAX)
    (st : TState) (last : Nat) (ch : List Nat) (P rest : List Nat)
    (hB : TBase g st) (hC : TChain g st (last :: ch))
    (hsp : st.stack = P ++ last :: rest)
    (hexh : outDeg g last ≤ (st.dfs last).neighbor)
    (hcls : (st.dfs last).lowlink = (st.dfs last).index) :
    TBase g (popState st (P ++ [last]) rest) ∧
    TChain g (popState st (P ++ [last]) rest) ch ∧
    (ch = [] → rest = []) := by
  set Q := P ++ [last] with hQdef
  have hlastQ : last ∈ Q := List.mem_append.mpr (Or.inr (List.mem_singleton.mpr rfl))
  have hQ_cases : ∀ v ∈ Q, v ∈ P ∨ v = last := by
    intro v hv
    rcases List.mem_append.mp hv with h | h
    · exact Or.inl h
    · exact Or.inr (List.mem_singleton.mp h)
  have hQ_stack : ∀ v ∈ Q, v ∈ st.stack := by
    intro v hv
    rw [hsp]
    rcases hQ_cases v hv with h | h
    · exact List.mem_append_left _ h
    · exact List.mem_append_right _ (h ▸ List.mem_cons_self _ _)
  have hsort := hB.stack_sorted
  rw [hsp] at hsort
  obtain ⟨hsP, hsLR, hcross⟩ := List.pairwise_append.mp hsort
  have hPgt : ∀ p ∈ P, (st.dfs last).index < (st.dfs p).index :=
    fun p hp => hcross p hp last (List.mem_cons_self _ _)
  have hrest_lt : ∀ u ∈ rest, (st.dfs u).index < (st.dfs last).index :=
    (List.pairwise_cons.mp hsLR).1
  have hrest_pw := (List.pairwise_cons.mp hsLR).2
  have hnd := hB.stack_nodup
  rw [hsp] at hnd
  obtain ⟨hndP, hndLR, hdisj⟩ := List.nodup_append.mp hnd
  have hlast_rest : last ∉ rest := (List.nodup_cons.mp hndLR).1
  have hrest_nd : rest.Nodup := (List.nodup_cons.mp hndLR).2
  have hQ_rest : ∀ v ∈ Q, v ∉ rest := by
    intro v hv hvr
    rcases hQ_cases v hv with h | h
    · exact hdisj h (List.mem_cons_of_mem _ hvr)
    · exact hlast_rest (h ▸ hvr)
  have hmem_split : ∀ v, v ∈ st.stack ↔ (v ∈ Q ∨ v ∈ rest) := by
    intro v
    rw [hsp, hQdef]
    simp only [List.mem_append, List.mem_cons, List.mem_singleton]
    tauto
  have hQge : ∀ p ∈ Q, (st.dfs last).index ≤ (st.dfs p).index := by
    intro p hp
    rcases hQ_cases p hp with h | h
    · exact Nat.le_of_lt (hPgt p h)
    · rw [h]
  have hch_lt : ∀ c ∈ ch, (st.dfs c).index < (st.dfs last).index :=
    (List.pairwise_cons.mp hC.sorted).1
  have hQnotch : ∀ p ∈ Q, p ≠ last → p ∉ last :: ch := by
    intro p hp hpl hc
    rcases List.mem_cons.mp hc with h | h
    · exact hpl h
    · have h1 := hch_lt p h
      rcases hQ_cases p hp with h2 | h2
      · exact absurd (hPgt p h2) (by omega)
      · exact hpl h2
  have hVisQ : ∀ p ∈ Q, Vis st p := fun p hp => hB.stack_vis p (hQ_stack p hp)
  have hQ_exh : ∀ p ∈ Q, outDeg g p ≤ (st.dfs p).neighbor := by
    intro p hp
    by_cases hpl : p = last
    · rw [hpl]; exact hexh
    · exact hC.fin_exh p (hQ_stack p hp) (hQnotch p hp hpl)
  have hQ_lowge : ∀ p ∈ Q, (st.dfs last).index ≤ (st.dfs p).lowlink := by
    intro p hp
    by_cases hpl : p = last
    · rw [hpl, hcls]
    · obtain ⟨c, hc, h1, h2, h3⟩ :=
        hC.fin_anchor p (hQ_stack p hp) (hQnotch p hp hpl)
      have hpP : p ∈ P := (hQ_cases p hp).resolve_right hpl
      have h4 : (st.dfs last).index ≤ (st.dfs c).index :=
        h2 last (List.mem_cons_self _ _) (hPgt p hpP)
      rcases List.mem_cons.mp hc with h5 | h5
      · rw [h5] at h3
        rw [← hcls]
        exact h3
      · exact absurd (hch_lt c h5) (by omega)
  have reach_down_aux : ∀ k p, p ∈ Q → (st.dfs p).index = k → Reach g p last := by
    intro k
    induction k using Nat.strong_induction_on with
    | _ k ih =>
      intro p hp hk
      by_cases hpl : p = last
      · rw [hpl]; exact reach_refl g last
      · have hfl : (st.dfs p).lowlink < (st.dfs p).index :=
          hC.fin_low p (hQ_stack p hp) (hQnotch p hp hpl)
        rcases hB.low_wit p (hQ_stack p hp) with hd | ⟨w', hw's, hw'i, hw'r⟩
        · exact absurd hd (by omega)
        · have hw'ge : (st.dfs last).index ≤ (st.dfs w').index := by
            rw [hw'i]; exact hQ_lowge p hp
          have hw'Q : w' ∈ Q := by
            rcases (hmem_split w').mp hw's with h | h
            · exact h
            · exact absurd (hrest_lt w' h) (by omega)
          have hlt : (st.dfs w').index < k := by
            rw [hw'i, ← hk]; exact hfl
          exact reach_trans g hw'r (ih (st.dfs w').index hlt w' hw'Q rfl)
  have reach_down : ∀ p ∈ Q, Reach g p last :=
    fun p hp => reach_down_aux (st.dfs p).index p hp rfl
  have reach_up : ∀ p ∈ Q, Reach g last p :=
    fun p hp => hC.down_reach last (List.mem_cons_self _ _) p (hQ_stack p hp) (hQge p hp)
  have no_escape : ∀ p ∈ Q, ∀ y, EdgeR g p y → y ∈ Q ∨ st.asg y ≠ USIZE_MAX := by
    intro p hp y hey
    obtain ⟨i, hilt, hint⟩ := edge_nthTarget g p y hey
    have hi2 : i < (st.dfs p).neighbor := lt_of_lt_of_le hilt (hQ_exh p hp)
    obtain ⟨hyv, hyd⟩ := hB.edge_acct p (hVisQ p hp) i hi2 y hint
    rcases hyd with h | h
    · exact Or.inr h
    · have hyge : (st.dfs last).index ≤ (st.dfs y).index :=
        le_trans (hQ_lowge p hp) h
      rcases hB.vis_cover y hyv with h2 | h2
      · exact Or.inr h2
      · rcases (hmem_split y).mp h2 with h3 | h3
        · exact Or.inl h3
        · exact absurd (hrest_lt y h3) (by omega)
  have closure : ∀ u y, (u ∈ Q ∨ st.asg u ≠ USIZE_MAX) → Reach g u y →
      (y ∈ Q ∨ st.asg y ≠ USIZE_MAX) := by
    intro u y hu hr
    revert hu
    induction hr using Relation.ReflTransGen.head_induction_on with
    | refl => exact id
    | @head a c h' h ih =>
      intro ha
      rcases ha with ha | ha
      · exact ih (no_escape a ha c h')
      · exact ih (Or.inr (hB.asg_closed a c ha (reach_single g h')))
  have hd_in : ∀ v ∈ Q, (popState st Q rest).dfs v = { st.dfs v with on_stack := false } := by
    intro v hv
    show (if v ∈ Q then { st.dfs v with on_stack := false } else st.dfs v) = _
    rw [if_pos hv]
  have hd_out : ∀ v, v ∉ Q → (popState st Q rest).dfs v = st.dfs v := by
    intro v hv
    show (if v ∈ Q then { st.dfs v with on_stack := false } else st.dfs v) = _
    rw [if_neg hv]
  have ha_in : ∀ v ∈ Q, (popState st Q rest).asg v = st.nscc + 1 := by
    intro v hv
    show (if v ∈ Q then st.nscc + 1 else st.asg v) = _
    rw [if_pos hv]
  have ha_out : ∀ v, v ∉ Q → (popState st Q rest).asg v = st.asg v := by
    intro v hv
    show (if v ∈ Q then st.nscc + 1 else st.asg v) = _
    rw [if_neg hv]
  have hix : ∀ v, ((popState st Q rest).dfs v).index = (st.dfs v).index := by
    intro v
    by_cases hv : v ∈ Q
    · rw [hd_in v hv]
    · rw [hd_out v hv]
  have hlw : ∀ v, ((popState st Q rest).dfs v).lowlink = (st.dfs v).lowlink := by
    intro v
    by_cases hv : v ∈ Q
    · rw [hd_in v hv]
    · rw [hd_out v hv]
  have hcl : ∀ v, ((popState st Q rest).dfs v).caller = (st.dfs v).caller := by
    intro v
    by_cases hv : v ∈ Q
    · rw [hd_in v hv]
    · rw [hd_out v hv]
  have hnb : ∀ v, ((popState st Q rest).dfs v).neighbor = (st.dfs v).neighbor := by
    intro v
    by_cases hv : v ∈ Q
    · rw [hd_in v hv]
    · rw [hd_out v hv]
  have hvis : ∀ v, Vis (popState st Q rest) v ↔ Vis st v := by
    intro v; unfold Vis; rw [hix v]
  have hasg_notQ : ∀ v, st.asg v ≠ USIZE_MAX → v ∉ Q :=
    fun v hv hq => hv (hB.stack_unasg v (hQ_stack v hq))
  have hlast_lt_n : last < numberOfNodes g := hB.vis_lt last (hVisQ last hlastQ)
  have hlast_unasg : st.asg last = USIZE_MAX := hB.stack_unasg last (hQ_stack last hlastQ)
  have hnscc_lt : st.nscc < numberOfNodes g := by
    have h1 : (Finset.range (numberOfNodes g)).filter (fun v => st.asg v ≠ USIZE_MAX) ⊆
        Finset.range (numberOfNodes g) := Finset.filter_subset _ _
    have h3 : last ∉ (Finset.range (numberOfNodes g)).filter (fun v => st.asg v ≠ USIZE_MAX) := by
      simp only [Finset.mem_filter]
      exact fun hc => hc.2 hlast_unasg
    have h4 := Finset.card_lt_card ((Finset.ssubset_iff_of_subset h1).mpr
      ⟨last, Finset.mem_range.mpr hlast_lt_n, h3⟩)
    rw [Finset.card_range] at h4
    exact lt_of_le_of_lt hB.nscc_card h4
  have hfresh : st.nscc + 1 ≠ USIZE_MAX := by omega
  have hasg' : ∀ v, (popState st Q rest).asg v ≠ USIZE_MAX ↔ (v ∈ Q ∨ st.asg v ≠ USIZE_MAX) := by
    intro v
    by_cases hv : v ∈ Q
    · rw [ha_in v hv]
      exact ⟨fun _ => Or.inl hv, fun _ => hfresh⟩
    · rw [ha_out v hv]
      exact ⟨Or.inr, fun h => h.resolve_left hv⟩
  have hrestnil : ch = [] → rest = [] := by
    intro hchnil
    have hroot := hC.root_min last (by rw [hchnil]; rfl)
    refine List.eq_nil_iff_forall_not_mem.mpr ?_
    intro u hu
    have h1 := hroot u ((hmem_split u).mpr (Or.inr hu))
    have h2 := hrest_lt u hu
    omega
  refine ⟨?_, ?_, hrestnil⟩
  · refine ⟨?_, ?_, ?_, ?_, ?_, ?_, ?_, ?_, ?_, ?_, ?_, ?_, ?_, ?_, ?_, ?_, ?_, ?_, ?_, ?_⟩
    · intro v hv; exact hB.vis_lt v ((hvis v).mp hv)
    · intro v hv
      show ((popState st Q rest).dfs v).index < st.idx
      rw [hix v]
      exact hB.vis_idx v ((hvis v).mp hv)
    · show ((Finset.range (numberOfNodes g)).filter _).card = st.idx
      rw [← hB.card_idx]
      exact congrArg Finset.card (Finset.filter_congr (fun v _ => hvis v))
    · intro u v hu hv he
      have he' : ((popState st Q rest).dfs u).index = ((popState st Q rest).dfs v).index := he
      rw [hix u, hix v] at he'
      exact hB.index_inj u v ((hvis u).mp hu) ((hvis v).mp hv) he'
    · intro v hv
      show ((popState st Q rest).dfs v).lowlink ≤ ((popState st Q rest).dfs v).index
      rw [hix v, hlw v]
      exact hB.low_le v ((hvis v).mp hv)
    · intro v hv
      have hv2 : ¬ Vis st v := fun h => hv ((hvis v).mpr h)
      have hvq : v ∉ Q := fun hq => hv2 (hVisQ v hq)
      have := hB.unvis_fresh v hv2
      exact ⟨by rw [hd_out v hvq]; exact this.1, by rw [ha_out v hvq]; exact this.2⟩
    · intro v hv
      have hv' : v ∈ rest := hv
      exact (hvis v).mpr (hB.stack_vis v ((hmem_split v).mpr (Or.inr hv')))
    · exact hrest_nd
    · intro v
      by_cases hv : v ∈ Q
      · have h1 : ((popState st Q rest).dfs v).on_stack = false := by rw [hd_in v hv]
        constructor
        · intro hb; rw [h1] at hb; exact absurd hb Bool.false_ne_true
        · intro hm; exact absurd hm (hQ_rest v hv)
      · have h1 : ((popState st Q rest).dfs v).on_stack = (st.dfs v).on_stack := by
          rw [hd_out v hv]
        constructor
        · intro hb
          rw [h1] at hb
          exact ((hmem_split v).mp ((hB.onstack_iff v).mp hb)).resolve_left hv
        · intro hm
          show ((popState st Q rest).dfs v).on_stack = true
          rw [h1]
          exact (hB.onstack_iff v).mpr ((hmem_split v).mpr (Or.inr hm))
    · intro v hv
      have hv' : v ∈ rest := hv
      have hvq : v ∉ Q := fun hq => hQ_rest v hq hv'
      rw [ha_out v hvq]
      exact hB.stack_unasg v ((hmem_split v).mpr (Or.inr hv'))
    · intro v hv
      rcases hB.vis_cover v ((hvis v).mp hv) with h | h
      · exact Or.inl ((hasg' v).mpr (Or.inr h))
      · rcases (hmem_split v).mp h with h2 | h2
        · exact Or.inl ((hasg' v).mpr (Or.inl h2))
        · exact Or.inr h2
    · exact hrest_pw.imp (fun h => by rw [hix, hix]; exact h)
    · intro v hv
      show 1 ≤ (popState st Q rest).asg v ∧ (popState st Q rest).asg v ≤ st.nscc + 1
      by_cases hq : v ∈ Q
      · rw [ha_in v hq]; omega
      · rw [ha_out v hq] at hv ⊢
        have := hB.asg_pos v hv
        omega
    · intro c hc1 hc2
      have hc2' : c ≤ st.nscc + 1 := hc2
      by_cases hceq : c = st.nscc + 1
      · exact ⟨last, by rw [ha_in last hlastQ, hceq]⟩
      · have hcle : c ≤ st.nscc := by omega
        obtain ⟨v, hv⟩ := hB.asg_dense c hc1 hcle
        have hcne : c ≠ USIZE_MAX := by omega
        have hvq : v ∉ Q := hasg_notQ v (by rw [hv]; exact hcne)
        exact ⟨v, by rw [ha_out v hvq]; exact hv⟩
    · show st.nscc + 1 ≤ ((Finset.range (numberOfNodes g)).filter
        (fun v => (popState st Q rest).asg v ≠ USIZE_MAX)).card
      have hsub : insert last ((Finset.range (numberOfNodes g)).filter
            (fun v => st.asg v ≠ USIZE_MAX)) ⊆
          (Finset.range (numberOfNodes g)).filter
            (fun v => (popState st Q rest).asg v ≠ USIZE_MAX) := by
        intro x hx
        rcases Finset.mem_insert.mp hx with heq | hx2
        · rw [heq]
          exact Finset.mem_filter.mpr
            ⟨Finset.mem_range.mpr hlast_lt_n, (hasg' last).mpr (Or.inl hlastQ)⟩
        · obtain ⟨hx3, hx4⟩ := Finset.mem_filter.mp hx2
          exact Finset.mem_filter.mpr ⟨hx3, (hasg' x).mpr (Or.inr hx4)⟩
      have h3 : last ∉ (Finset.range (numberOfNodes g)).filter
          (fun v => st.asg v ≠ USIZE_MAX) := by
        simp only [Finset.mem_filter]
        exact fun hc => hc.2 hlast_unasg
      have h5 := Finset.card_le_card hsub
      rw [Finset.card_insert_of_not_mem h3] at h5
      have h6 := hB.nscc_card
      omega
    · intro u y hu hr
      exact (hasg' y).mpr (closure u y ((hasg' u).mp hu) hr)
    · intro u v hu hv he
      have he' : (popState st Q rest).asg u = (popState st Q rest).asg v := he
      by_cases hq1 : u ∈ Q <;> by_cases hq2 : v ∈ Q
      · exact ⟨reach_trans g (reach_down u hq1) (reach_up v hq2),
          reach_trans g (reach_down v hq2) (reach_up u hq1)⟩
      · have h2 : st.asg v ≠ USIZE_MAX := ((hasg' v).mp hv).resolve_left hq2
        rw [ha_in u hq1, ha_out v hq2] at he'
        have h4 := (hB.asg_pos v h2).2
        exact absurd he' (by omega)
      · have h2 : st.asg u ≠ USIZE_MAX := ((hasg' u).mp hu).resolve_left hq1
        rw [ha_out u hq1, ha_in v hq2] at he'
        have h4 := (hB.asg_pos u h2).2
        exact absurd he' (by omega)
      · rw [ha_out u hq1, ha_out v hq2] at he'
        exact hB.asg_mutual u v (((hasg' u).mp hu).resolve_left hq1)
          (((hasg' v).mp hv).resolve_left hq2) he'
    · intro u v hu hv h1 h2
      show (popState st Q rest).asg u = (popState st Q rest).asg v
      by_cases hq1 : u ∈ Q <;> by_cases hq2 : v ∈ Q
      · rw [ha_in u hq1, ha_in v hq2]
      · have hva : st.asg v ≠ USIZE_MAX := ((hasg' v).mp hv).resolve_left hq2
        have h3 : st.asg u ≠ USIZE_MAX := hB.asg_closed v u hva h2
        exact absurd (hB.stack_unasg u (hQ_stack u hq1)) h3
      · have hua : st.asg u ≠ USIZE_MAX := ((hasg' u).mp hu).resolve_left hq1
        have h3 : st.asg v ≠ USIZE_MAX := hB.asg_closed u v hua h1
        exact absurd (hB.stack_unasg v (hQ_stack v hq2)) h3
      · rw [ha_out u hq1, ha_out v hq2]
        exact hB.mutual_asg u v (((hasg' u).mp hu).resolve_left hq1)
          (((hasg' v).mp hv).resolve_left hq2) h1 h2
    · intro v hv
      have hv' : v ∈ rest := hv
      have hvs : v ∈ st.stack := (hmem_split v).mpr (Or.inr hv')
      rcases hB.low_wit v hvs with h | ⟨w', hw's, hw'i, hw'r⟩
      · refine Or.inl ?_
        show ((popState st Q rest).dfs v).lowlink = ((popState st Q rest).dfs v).index
        rw [hlw v, hix v]
        exact h
      · have hvlow : (st.dfs v).lowlink ≤ (st.dfs v).index :=
          hB.low_le v (hB.stack_vis v hvs)
        have hvlt : (st.dfs v).index < (st.dfs last).index := hrest_lt v hv'
        have hw'lt : (st.dfs w').index < (st.dfs last).index := by rw [hw'i]; omega
        have hw'r2 : w' ∈ rest := by
          rcases (hmem_split w').mp hw's with hq | hr
          · exact absurd (hQge w' hq) (by omega)
          · exact hr
        refine Or.inr ⟨w', hw'r2, ?_, hw'r⟩
        show ((popState st Q rest).dfs w').index = ((popState st Q rest).dfs v).lowlink
        rw [hix w', hlw v]
        exact hw'i
    · intro u hu i hi y hy
      have hi' : i < (st.dfs u).neighbor := by rw [← hnb u]; exact hi
      obtain ⟨h1, h2⟩ := hB.edge_acct u ((hvis u).mp hu) i hi' y hy
      refine ⟨(hvis y).mpr h1, ?_⟩
      rcases h2 with h2 | h2
      · exact Or.inl ((hasg' y).mpr (Or.inr h2))
      · refine Or.inr ?_
        show ((popState st Q rest).dfs u).lowlink ≤ ((popState st Q rest).dfs y).index
        rw [hlw u, hix y]
        exact h2
  · by_cases hch : ch = []
    · subst hch
      have hrest0 : rest = [] := hrestnil rfl
      refine ⟨?_, trivial, trivial, List.Pairwise.nil, ?_, ?_, ?_, ?_, ?_⟩
      · intro c hc; exact absurd hc (List.not_mem_nil c)
      · intro r hr; exact absurd hr (by simp)
      · intro p hp
        have hp' : p ∈ rest := hp
        rw [hrest0] at hp'
        exact absurd hp' (List.not_mem_nil p)
      · intro p hp
        have hp' : p ∈ rest := hp
        rw [hrest0] at hp'
        exact absurd hp' (List.not_mem_nil p)
      · intro p hp
        have hp' : p ∈ rest := hp
        rw [hrest0] at hp'
        exact absurd hp' (List.not_mem_nil p)
      · intro c hc; exact absurd hc (List.not_mem_nil c)
    · obtain ⟨nl, ch2, hche⟩ := List.exists_cons_of_ne_nil hch
      subst hche
      have hch_rest : ∀ c ∈ nl :: ch2, c ∈ rest := by
        intro c hc
        have hcs : c ∈ st.stack := hC.sub_stack c (List.mem_cons_of_mem _ hc)
        rcases (hmem_split c).mp hcs with hq | hr
        · have h1 := hch_lt c hc
          exact absurd (hQge c hq) (by omega)
        · exact hr
      obtain ⟨-, hlinks2⟩ := hC.links
      obtain ⟨-, hedges2⟩ := hC.edges
      refine ⟨hch_rest, ?_, hedges2, ?_, ?_, ?_, ?_, ?_, ?_⟩
      · exact callerLinks_congr st (popState st Q rest) (nl :: ch2) (fun v _ => hcl v) hlinks2
      · exact ((List.pairwise_cons.mp hC.sorted).2).imp (fun h => by rw [hix, hix]; exact h)
      · intro r hr u hu
        have hr' : (last :: nl :: ch2).getLast? = some r := by
          rw [List.getLast?_cons_cons]; exact hr
        have hu' : u ∈ rest := hu
        show ((popState st Q rest).dfs r).index ≤ ((popState st Q rest).dfs u).index
        rw [hix r, hix u]
        exact hC.root_min r hr' u ((hmem_split u).mpr (Or.inr hu'))
      · intro p hp hpc
        have hp' : p ∈ rest := hp
        have hps : p ∈ st.stack := (hmem_split p).mpr (Or.inr hp')
        have hpc2 : p ∉ last :: nl :: ch2 := by
          intro hc
          rcases List.mem_cons.mp hc with heq | hc2
          · exact hlast_rest (heq ▸ hp')
          · exact hpc hc2
        show ((popState st Q rest).dfs p).lowlink < ((popState st Q rest).dfs p).index
        rw [hlw p, hix p]
        exact hC.fin_low p hps hpc2
      · intro p hp hpc
        have hp' : p ∈ rest := hp
        have hps : p ∈ st.stack := (hmem_split p).mpr (Or.inr hp')
        have hpc2 : p ∉ last :: nl :: ch2 := by
          intro hc
          rcases List.mem_cons.mp hc with heq | hc2
          · exact hlast_rest (heq ▸ hp')
          · exact hpc hc2
        show outDeg g p ≤ ((popState st Q rest).dfs p).neighbor
        rw [hnb p]
        exact hC.fin_exh p hps hpc2
      · intro p hp hpc
        have hp' : p ∈ rest := hp
        have hps : p ∈ st.stack := (hmem_split p).mpr (Or.inr hp')
        have hpc2 : p ∉ last :: nl :: ch2 := by
          intro hc
          rcases List.mem_cons.mp hc with heq | hc2
          · exact hlast_rest (heq ▸ hp')
          · exact hpc hc2
        obtain ⟨c, hc, h1, h2, h3⟩ := hC.fin_anchor p hps hpc2
        have hcne : c ≠ last := by
          intro heq
          rw [heq] at h1
          have h4 := hrest_lt p hp'
          omega
        have hc2m : c ∈ nl :: ch2 := (List.mem_cons.mp hc).resolve_left hcne
        refine ⟨c, hc2m, ?_, ?_, ?_⟩
        · show ((popState st Q rest).dfs c).index < ((popState st Q rest).dfs p).index
          rw [hix c, hix p]
          exact h1
        · intro c' hc' hlt
          have hlt' : (st.dfs c').index < (st.dfs p).index := by
            rw [← hix c', ← hix p]; exact hlt
          show ((popState st Q rest).dfs c').index ≤ ((popState st Q rest).dfs c).index
          rw [hix c', hix c]
          exact h2 c' (List.mem_cons_of_mem _ hc') hlt'
        · show ((popState st Q rest).dfs c).lowlink ≤ ((popState st Q rest).dfs p).lowlink
          rw [hlw c, hlw p]
          exact h3
      · intro c hc u hu hle
        have hu' : u ∈ rest := hu
        have hle' : (st.dfs c).index ≤ (st.dfs u).index := by
          rw [← hix c, ← hix u]; exact hle
        exact hC.down_reach c (List.mem_cons_of_mem _ hc) u
          ((hmem_split u).mpr (Or.inr hu')) hle'

/-- The return step without a component close (tarjan.rs lines 104-110):
the exhausted non-root node hands its lowlink to its caller and leaves the
chain (staying on the candidate stack). -/
theorem step_ret (g : List REdge) (st : TState) (last nl : Nat) (ch2 : List Nat)
    (hB : TBase g st) (hC : TChain g st (last :: nl :: ch2))
    (hexh : outDeg g last ≤ (st.dfs last).neighbor)
    (hncls : (st.dfs last).lowlink ≠ (st.dfs last).index) :
    TBase g (retState st last nl) ∧ TChain g (retState st last nl) (nl :: ch2) := by
  unfold retState
  have hlast_st : last ∈ st.stack := hC.sub_stack last (List.mem_cons_self _ _)
  have hlast_vis : Vis st last := hB.stack_vis last hlast_st
  have hnl_st : nl ∈ st.stack :=
    hC.sub_stack nl (List.mem_cons_of_mem _ (List.mem_cons_self _ _))
  have hnl_vis : Vis st nl := hB.stack_vis nl hnl_st
  have hnl_lt : (st.dfs nl).index < (st.dfs last).index :=
    (List.pairwise_cons.mp hC.sorted).1 nl (List.mem_cons_self _ _)
  have hlast_ne : last ≠ nl := by
    intro he; rw [he] at hnl_lt; omega
  set D := updNI st.dfs nl (fun ni => { ni with lowlink := min ni.lowlink (st.dfs last).lowlink }) with hD
  have hDne : ∀ v, v ≠ nl → D v = st.dfs v := fun v hv => updNI_ne _ _ _ v hv
  have hDnl : D nl = { st.dfs nl with lowlink := min (st.dfs nl).lowlink (st.dfs last).lowlink } := by
    rw [hD, updNI_self]
  have hix : ∀ v, (D v).index = (st.dfs v).index := by
    intro v
    by_cases hv : v = nl
    · rw [hv, hDnl]
    · rw [hDne v hv]
  have hlw_ne : ∀ v, v ≠ nl → (D v).lowlink = (st.dfs v).lowlink := by
    intro v hv; rw [hDne v hv]
  have hlw_nl : (D nl).lowlink = min (st.dfs nl).lowlink (st.dfs last).lowlink := by
    rw [hDnl]
  have hos : ∀ v, (D v).on_stack = (st.dfs v).on_stack := by
    intro v
    by_cases hv : v = nl
    · rw [hv, hDnl]
    · rw [hDne v hv]
  have hcl : ∀ v, (D v).caller = (st.dfs v).caller := by
    intro v
    by_cases hv : v = nl
    · rw [hv, hDnl]
    · rw [hDne v hv]
  have hnb : ∀ v, (D v).neighbor = (st.dfs v).neighbor := by
    intro v
    by_cases hv : v = nl
    · rw [hv, hDnl]
    · rw [hDne v hv]
  obtain ⟨hedge, hedges2⟩ := hC.edges
  obtain ⟨hcall_last, hlinks2⟩ := hC.links
  have hvis : ∀ v, Vis { st with dfs := D } v ↔ Vis st v := by
    intro v; unfold Vis; exact not_congr (by rw [hix v])
  constructor
  · refine TBase_transport1 g st _ nl hix hlw_ne
      (by rw [hlw_nl]; exact min_le_left _ _) hos
      (fun v hv => hDne v (fun he => hv (he ▸ hnl_vis))) rfl (fun _ => rfl) rfl rfl hB ?_ ?_
    · intro hls
      rcases le_or_lt (st.dfs nl).lowlink (st.dfs last).lowlink with hcmp | hcmp
      · have hval : (D nl).lowlink = (st.dfs nl).lowlink := by
          rw [hlw_nl]; exact min_eq_left hcmp
        rcases hB.low_wit nl hnl_st with h | ⟨w', hw', hwi', hwr'⟩
        · refine Or.inl ?_
          show (D nl).lowlink = (D nl).index
          rw [hval, hix nl]
          exact h
        · refine Or.inr ⟨w', hw', ?_, hwr'⟩
          show (D w').index = (D nl).lowlink
          rw [hix w', hval]
          exact hwi'
      · have hval : (D nl).lowlink = (st.dfs last).lowlink := by
          rw [hlw_nl]; exact min_eq_right (le_of_lt hcmp)
        rcases hB.low_wit last hlast_st with h | ⟨w', hw', hwi', hwr'⟩
        · exact absurd h hncls
        · refine Or.inr ⟨w', hw', ?_, reach_trans g (reach_single g hedge) hwr'⟩
          show (D w').index = (D nl).lowlink
          rw [hix w', hval]
          exact hwi'
    · intro u hu i hi y hy
      dsimp only at hi ⊢
      have hi' : i < (st.dfs u).neighbor := by rw [← hnb u]; exact hi
      obtain ⟨h1, h2⟩ := hB.edge_acct u ((hvis u).mp hu) i hi' y hy
      refine ⟨(hvis y).mpr h1, ?_⟩
      rcases h2 with h2 | h2
      · exact Or.inl h2
      · refine Or.inr ?_
        by_cases hun : u = nl
        · rw [hun, hlw_nl, hix y]
          exact le_trans (min_le_left _ _) (hun ▸ h2)
        · rw [hlw_ne u hun, hix y]
          exact h2
  · refine ⟨?_, ?_, hedges2, ?_, ?_, ?_, ?_, ?_, ?_⟩
    · intro c hc
      exact hC.sub_stack c (List.mem_cons_of_mem _ hc)
    · exact callerLinks_congr st _ (nl :: ch2) (fun v _ => hcl v) hlinks2
    · exact ((List.pairwise_cons.mp hC.sorted).2).imp (fun h => by rw [hix, hix]; exact h)
    · intro r hr u hu
      have hr' : (last :: nl :: ch2).getLast? = some r := by
        rw [List.getLast?_cons_cons]; exact hr
      show (D r).index ≤ (D u).index
      rw [hix r, hix u]
      exact hC.root_min r hr' u hu
    · intro p hp hpc
      have hp' : p ∈ st.stack := hp
      by_cases hpl : p = last
      · show (D p).lowlink < (D p).index
        rw [hpl, hlw_ne last hlast_ne, hix last]
        exact lt_of_le_of_ne (hB.low_le last hlast_vis) hncls
      · have hpnl : p ≠ nl := fun he => hpc (he ▸ List.mem_cons_self _ _)
        have hpc2 : p ∉ last :: nl :: ch2 := by
          intro hc
          rcases List.mem_cons.mp hc with heq | hc2
          · exact hpl heq
          · exact hpc hc2
        show (D p).lowlink < (D p).index
        rw [hlw_ne p hpnl, hix p]
        exact hC.fin_low p hp' hpc2
    · intro p hp hpc
      have hp' : p ∈ st.stack := hp
      by_cases hpl : p = last
      · show outDeg g p ≤ (D p).neighbor
        rw [hpl, hnb last]
        exact hexh
      · have hpc2 : p ∉ last :: nl :: ch2 := by
          intro hc
          rcases List.mem_cons.mp hc with heq | hc2
          · exact hpl heq
          · exact hpc hc2
        show outDeg g p ≤ (D p).neighbor
        rw [hnb p]
        exact hC.fin_exh p hp' hpc2
    · intro p hp hpc
      have hp' : p ∈ st.stack := hp
      have hch2_le : ∀ c' ∈ nl :: ch2, (st.dfs c').index ≤ (st.dfs nl).index := by
        intro c' hc'
        rcases List.mem_cons.mp hc' with heq | hc'2
        · rw [heq]
        · exact Nat.le_of_lt
            ((List.pairwise_cons.mp (List.pairwise_cons.mp hC.sorted).2).1 c' hc'2)
      by_cases hpl : p = last
      · refine ⟨nl, List.mem_cons_self _ _, ?_, ?_, ?_⟩
        · show (D nl).index < (D p).index
          rw [hpl, hix nl, hix last]
          exact hnl_lt
        · intro c' hc' hlt
          show (D c').index ≤ (D nl).index
          rw [hix c', hix nl]
          exact hch2_le c' hc'
        · show (D nl).lowlink ≤ (D p).lowlink
          rw [hpl, hlw_nl, hlw_ne last hlast_ne]
          exact min_le_right _ _
      · have hpnl : p ≠ nl := fun he => hpc (he ▸ List.mem_cons_self _ _)
        have hpc2 : p ∉ last :: nl :: ch2 := by
          intro hc
          rcases List.mem_cons.mp hc with heq | hc2
          · exact hpl heq
          · exact hpc hc2
        obtain ⟨c, hc, h1, h2, h3⟩ := hC.fin_anchor p hp' hpc2
        rcases List.mem_cons.mp hc with heq | hc2
        · refine ⟨nl, List.mem_cons_self _ _, ?_, ?_, ?_⟩
          · show (D nl).index < (D p).index
            rw [hix nl, hix p]
            have h4 : (st.dfs last).index < (st.dfs p).index := by
              rw [← heq]; exact h1
            omega
          · intro c' hc' hlt
            show (D c').index ≤ (D nl).index
            rw [hix c', hix nl]
            exact hch2_le c' hc'
          · show (D nl).lowlink ≤ (D p).lowlink
            rw [hlw_nl, hlw_ne p hpnl]
            refine le_trans (min_le_right _ _) ?_
            rw [← heq]
            exact h3
        · refine ⟨c, hc2, ?_, ?_, ?_⟩
          · show (D c).index < (D p).index
            rw [hix c, hix p]
            exact h1
          · intro c' hc' hlt
            have hlt' : (st.dfs c').index < (st.dfs p).index := by
              rw [← hix c', ← hix p]; exact hlt
            show (D c').index ≤ (D c).index
            rw [hix c', hix c]
            exact h2 c' (List.mem_cons_of_mem _ hc') hlt'
          · show (D c).lowlink ≤ (D p).lowlink
            by_cases hcn : c = nl
            · rw [hcn, hlw_nl, hlw_ne p hpnl]
              refine le_trans (min_le_left _ _) ?_
              rw [← hcn]
              exact h3
            · rw [hlw_ne c hcn, hlw_ne p hpnl]
              exact h3
    · intro c hc u hu hle
      have hle' : (st.dfs c).index ≤ (st.dfs u).index := by
        rw [← hix c, ← hix u]; exact hle
      exact hC.down_reach c (List.mem_cons_of_mem _ hc) u hu hle'

/-- A DFS tree root whose edges are exhausted always satisfies
`lowlink = index` (so the close at the break, tarjan.rs lines 88 and 112,
always fires for the root). -/
theorem root_no_ret (g : List REdge) (st : TState) (last : Nat)
    (hB : TBase g st) (hC : TChain g st [last])
    (hncls : (st.dfs last).lowlink ≠ (st.dfs last).index) : False := by
  have hls : last ∈ st.stack := hC.sub_stack last (List.mem_cons_self _ _)
  have hvl : Vis st last := hB.stack_vis last hls
  have hle : (st.dfs last).lowlink ≤ (st.dfs last).index := hB.low_le last hvl
  rcases hB.low_wit last hls with h | ⟨w', hw', hwi', hwr'⟩
  · exact hncls h
  · have hmin := hC.root_min last rfl w' hw'
    omega

/-- Rooting a fresh DFS tree at a still-unvisited node (tarjan.rs lines
57-63) on an empty candidate stack establishes the invariants for the
singleton chain. -/
theorem step_root (g : List REdge) (hn : numberOfNodes g < USIZE_MAX)
    (st : TState) (m : Nat)
    (hB : TBase g st) (hstk : st.stack = [])
    (hunv : ¬ Vis st m) (hmn : m < numberOfNodes g) :
    TBase g (rootState st m) ∧ TChain g (rootState st m) [m] := by
  unfold rootState
  set D := updNI st.dfs m (fun ni => { ni with index := st.idx, lowlink := st.idx, neighbor := 0, caller := USIZE_MAX, on_stack := true }) with hD
  have hDm : D m = { st.dfs m with index := st.idx, lowlink := st.idx, neighbor := 0, caller := USIZE_MAX, on_stack := true } := by
    rw [hD, updNI_self]
  have hDne : ∀ v, v ≠ m → D v = st.dfs v := fun v hv => updNI_ne _ _ _ v hv
  have hixm : (D m).index = st.idx := by rw [hDm]
  have hix : ∀ v, v ≠ m → (D v).index = (st.dfs v).index := by
    intro v hv; rw [hDne v hv]
  have hidxle : st.idx ≤ numberOfNodes g := by
    have h1 := hB.card_idx
    have h2 : ((Finset.range (numberOfNodes g)).filter (fun v => Vis st v)).card ≤
        (Finset.range (numberOfNodes g)).card := Finset.card_filter_le _ _
    rw [Finset.card_range] at h2
    omega
  have hidxMAX : st.idx ≠ USIZE_MAX := by omega
  have hvisD : ∀ v, (D v).index ≠ USIZE_MAX ↔ (Vis st v ∨ v = m) := by
    intro v
    by_cases hvm : v = m
    · rw [hvm, hixm]
      exact ⟨fun _ => Or.inr rfl, fun _ => hidxMAX⟩
    · rw [hix v hvm]
      exact ⟨Or.inl, fun h => Or.resolve_right h hvm⟩
  have hsm : ∀ v, v ∈ m :: st.stack ↔ v = m := by
    intro v
    rw [hstk]
    simp
  constructor
  · refine ⟨?_, ?_, ?_, ?_, ?_, ?_, ?_, ?_, ?_, ?_, ?_, ?_, ?_, ?_, ?_, ?_, ?_, ?_, ?_, ?_⟩
    · intro v hv
      rcases (hvisD v).mp hv with h | h
      · exact hB.vis_lt v h
      · rw [h]; exact hmn
    · intro v hv
      show (D v).index < st.idx + 1
      rcases (hvisD v).mp hv with h | h
      · rw [hix v (fun he => hunv (he ▸ h))]
        exact lt_trans (hB.vis_idx v h) (Nat.lt_succ_self _)
      · rw [h, hixm]; exact Nat.lt_succ_self _
    · show ((Finset.range (numberOfNodes g)).filter _).card = st.idx + 1
      have hfe : (Finset.range (numberOfNodes g)).filter
            (fun v => Vis ⟨D, m :: st.stack, st.asg, st.idx + 1, st.nscc⟩ v) =
          insert m ((Finset.range (numberOfNodes g)).filter (fun v => Vis st v)) := by
        ext x
        simp only [Finset.mem_filter, Finset.mem_insert, Finset.mem_range]
        constructor
        · rintro ⟨hx1, hx2⟩
          rcases (hvisD x).mp hx2 with h | h
          · exact Or.inr ⟨hx1, h⟩
          · exact Or.inl h
        · rintro (h | ⟨hx1, hx2⟩)
          · rw [h]; exact ⟨hmn, (hvisD m).mpr (Or.inr rfl)⟩
          · exact ⟨hx1, (hvisD x).mpr (Or.inl hx2)⟩
      rw [hfe, Finset.card_insert_of_not_mem (by
        simp only [Finset.mem_filter]
        exact fun hc => hunv hc.2), hB.card_idx]
    · intro u v hu hv he
      have he' : (D u).index = (D v).index := he
      rcases (hvisD u).mp hu with h1 | h1 <;> rcases (hvisD v).mp hv with h2 | h2
      · rw [hix u (fun he2 => hunv (he2 ▸ h1)), hix v (fun he2 => hunv (he2 ▸ h2))] at he'
        exact hB.index_inj u v h1 h2 he'
      · rw [hix u (fun he2 => hunv (he2 ▸ h1)), h2, hixm] at he'
        exact absurd he' (Nat.ne_of_lt (hB.vis_idx u h1))
      · rw [h1, hixm, hix v (fun he2 => hunv (he2 ▸ h2))] at he'
        exact absurd he'.symm (Nat.ne_of_lt (hB.vis_idx v h2))
      · rw [h1, h2]
    · intro v hv
      show (D v).lowlink ≤ (D v).index
      rcases (hvisD v).mp hv with h | h
      · have hvm : v ≠ m := fun he => hunv (he ▸ h)
        rw [hix v hvm, hDne v hvm]
        exact hB.low_le v h
      · rw [h, hDm]
    · intro v hv
      have hv' : ¬ (Vis st v ∨ v = m) := fun hc => hv ((hvisD v).mpr hc)
      push_neg at hv'
      have := hB.unvis_fresh v hv'.1
      exact ⟨by show D v = _; rw [hDne v hv'.2]; exact this.1, this.2⟩
    · intro v hv
      exact (hvisD v).mpr (Or.inr ((hsm v).mp hv))
    · show (m :: st.stack).Nodup
      rw [hstk]
      simp
    · intro v
      by_cases hvm : v = m
      · constructor
        · intro _; rw [hvm]; exact List.mem_cons_self _ _
        · intro _
          show (D v).on_stack = true
          rw [hvm, hDm]
      · constructor
        · intro hb
          have hb' : (st.dfs v).on_stack = true := by rw [← hDne v hvm]; exact hb
          have h2 := (hB.onstack_iff v).mp hb'
          rw [hstk] at h2
          exact absurd h2 (List.not_mem_nil v)
        · intro hm2
          exact absurd ((hsm v).mp hm2) hvm
    · intro v hv
      have hvm : v = m := (hsm v).mp hv
      rw [hvm]
      exact (hB.unvis_fresh m hunv).2
    · intro v hv
      rcases (hvisD v).mp hv with h | h
      · rcases hB.vis_cover v h with h2 | h2
        · exact Or.inl h2
        · rw [hstk] at h2
          exact absurd h2 (List.not_mem_nil v)
      · exact Or.inr (by rw [h]; exact List.mem_cons_self _ _)
    · show (m :: st.stack).Pairwise _
      rw [hstk]
      exact List.pairwise_singleton _ m
    · exact hB.asg_pos
    · exact hB.asg_dense
    · exact hB.nscc_card
    · exact hB.asg_closed
    · exact hB.asg_mutual
    · exact hB.mutual_asg
    · intro v hv
      refine Or.inl ?_
      show (D v).lowlink = (D v).index
      rw [(hsm v).mp hv, hDm]
    · intro u hu i hi y hy
      have hi' : i < (D u).neighbor := hi
      by_cases hum : u = m
      · rw [hum, hDm] at hi'
        exact absurd hi' (Nat.not_lt_zero i)
      · rw [hDne u hum] at hi'
        have hu' : Vis st u := Or.resolve_right ((hvisD u).mp hu) hum
        obtain ⟨h1, h2⟩ := hB.edge_acct u hu' i hi' y hy
        have hym : y ≠ m := fun he => hunv (he ▸ h1)
        refine ⟨(hvisD y).mpr (Or.inl h1), ?_⟩
        rcases h2 with h2 | h2
        · exact Or.inl h2
        · refine Or.inr ?_
          show (D u).lowlink ≤ (D y).index
          rw [hDne u hum, hix y hym]
          exact h2
  · refine ⟨?_, ?_, trivial, ?_, ?_, ?_, ?_, ?_, ?_⟩
    · intro c hc
      rw [(List.mem_singleton).mp hc]
      exact List.mem_cons_self _ _
    · show (D m).caller = USIZE_MAX
      rw [hDm]
    · exact List.pairwise_singleton _ m
    · intro r hr u hu
      have hrm : m = r := Option.some.inj hr
      have hum : u = m := (hsm u).mp hu
      rw [← hrm, hum]
    · intro p hp hpc
      exact absurd (List.mem_singleton.mpr ((hsm p).mp hp)) hpc
    · intro p hp hpc
      exact absurd (List.mem_singleton.mpr ((hsm p).mp hp)) hpc
    · intro p hp hpc
      exact absurd (List.mem_singleton.mpr ((hsm p).mp hp)) hpc
    · intro c hc u hu hle
      rw [List.mem_singleton.mp hc, (hsm u).mp hu]
      exact reach_refl g m

theorem vis_bumpNb (st : TState) (last v : Nat) :
    ((bumpNb st last).dfs v).index = (st.dfs v).index := by
  unfold bumpNb
  dsimp only
  by_cases hv : v = last
  · rw [hv, updNI_self]
  · rw [updNI_ne _ _ _ v hv]

theorem os_bumpNb (st : TState) (last v : Nat) :
    ((bumpNb st last).dfs v).on_stack = (st.dfs v).on_stack := by
  unfold bumpNb
  dsimp only
  by_cases hv : v = last
  · rw [hv, updNI_self]
  · rw [updNI_ne _ _ _ v hv]

theorem vis_backState (st : TState) (last w v : Nat) :
    ((backState st last w).dfs v).index = (st.dfs v).index := by
  unfold backState
  dsimp only
  by_cases hv : v = last
  · rw [hv, updNI_self]
    exact vis_bumpNb st last last
  · rw [updNI_ne _ _ _ v hv]
    exact vis_bumpNb st last v

theorem vis_descState (st : TState) (last w v : Nat) (hv : v ≠ w) :
    ((descState st last w).dfs v).index = (st.dfs v).index := by
  unfold descState
  dsimp only
  rw [updNI_ne _ _ _ v hv]
  exact vis_bumpNb st last v

theorem vis_popState (st : TState) (Q rest : List Nat) (v : Nat) :
    ((popState st Q rest).dfs v).index = (st.dfs v).index := by
  show (if v ∈ Q then ({ st.dfs v with on_stack := false } : NodeInfo) else st.dfs v).index = _
  by_cases hv : v ∈ Q
  · rw [if_pos hv]
  · rw [if_neg hv]

theorem vis_retState (st : TState) (last nl v : Nat) :
    ((retState st last nl).dfs v).index = (st.dfs v).index := by
  unfold retState
  dsimp only
  by_cases hv : v = nl
  · rw [hv, updNI_self]
  · rw [updNI_ne _ _ _ v hv]

theorem vis_rootState (st : TState) (m v : Nat) (hv : v ≠ m) :
    ((rootState st m).dfs v).index = (st.dfs v).index := by
  unfold rootState
  dsimp only
  rw [updNI_ne _ _ _ v hv]

/-- Any `ok` run of the inner DFS state machine, started in a state
satisfying the invariants for the chain `last :: chrest`, ends with the
candidate stack empty and the invariants intact; visited nodes stay
visited. -/
theorem tarjanInner_ok (g : List REdge) (hn : numberOfNodes g < USIZE_MAX) :
    ∀ (fuel last : Nat) (chrest : List Nat) (st st' : TState),
      TBase g st → TChain g st (last :: chrest) →
      tarjanInner g fuel last st = .ok st' →
      TBase g st' ∧ st'.stack = [] ∧ (∀ v, Vis st v → Vis st' v) := by
  intro fuel
  induction fuel with
  | zero =>
    intro last chrest st st' _ _ hrun
    exact absurd hrun (by simp [tarjanInner])
  | succ fuel ih =>
    intro last chrest st st' hB hC hrun
    simp only [tarjanInner] at hrun
    by_cases hnb : (st.dfs last).neighbor < outDeg g last
    · rw [if_pos hnb] at hrun
      cases hnt : nthTarget g last (st.dfs last).neighbor with
      | none =>
        rw [hnt] at hrun
        exact absurd hrun (by simp)
      | some w =>
        rw [hnt] at hrun
        dsimp only at hrun
        by_cases hidx : ((bumpNb st last).dfs w).index = USIZE_MAX
        · rw [if_pos hidx] at hrun
          obtain ⟨hB2, hC2⟩ := step_desc g hn st last chrest w hB hC hnt hidx
          obtain ⟨hB', hs', hm'⟩ := ih w (last :: chrest) (descState st last w) st' hB2 hC2 hrun
          refine ⟨hB', hs', ?_⟩
          intro v hv
          refine hm' v ?_
          have hwunv : (st.dfs w).index = USIZE_MAX := by
            rw [← vis_bumpNb st last w]; exact hidx
          have hvw : v ≠ w := by
            intro he
            unfold Vis at hv
            rw [he] at hv
            exact hv hwunv
          unfold Vis at hv ⊢
          rw [vis_descState st last w v hvw]
          exact hv
        · rw [if_neg hidx] at hrun
          have hvw : Vis st w := by
            unfold Vis
            rw [← vis_bumpNb st last w]
            exact hidx
          by_cases hons : ((bumpNb st last).dfs w).on_stack = true
          · rw [if_pos hons] at hrun
            obtain ⟨hB2, hC2⟩ := step_back g st last chrest w hB hC hnt hons
            obtain ⟨hB', hs', hm'⟩ := ih last chrest (backState st last w) st' hB2 hC2 hrun
            refine ⟨hB', hs', ?_⟩
            intro v hv
            refine hm' v ?_
            unfold Vis at hv ⊢
            rw [vis_backState st last w v]
            exact hv
          · rw [if_neg hons] at hrun
            have hns : ¬ (st.dfs w).on_stack = true := by
              intro hc
              exact hons (by rw [os_bumpNb st last w]; exact hc)
            obtain ⟨hB2, hC2⟩ := step_skip g st last chrest w hB hC hnt hvw hns
            obtain ⟨hB', hs', hm'⟩ := ih last chrest (bumpNb st last) st' hB2 hC2 hrun
            refine ⟨hB', hs', ?_⟩
            intro v hv
            refine hm' v ?_
            unfold Vis at hv ⊢
            rw [vis_bumpNb st last v]
            exact hv
    · rw [if_neg hnb] at hrun
      have hexh : outDeg g last ≤ (st.dfs last).neighbor := Nat.le_of_not_lt hnb
      by_cases hcls : (st.dfs last).lowlink = (st.dfs last).index
      · rw [if_pos hcls] at hrun
        have hlast_mem : last ∈ st.stack := hC.sub_stack last (List.mem_cons_self _ _)
        obtain ⟨P, rest, hsp⟩ := List.append_of_mem hlast_mem
        have hlP : last ∉ P := by
          have hnd := hB.stack_nodup
          rw [hsp] at hnd
          obtain ⟨-, -, hdisj⟩ := List.nodup_append.mp hnd
          exact fun hc => hdisj hc (List.mem_cons_self _ _)
        rw [hsp, popScc_eq (st.nscc + 1) P last rest st.dfs st.asg hlP] at hrun
        dsimp only at hrun
        have hlQ : last ∈ P ++ [last] :=
          List.mem_append_right _ (List.mem_singleton.mpr rfl)
        have hcall0 : (if last ∈ P ++ [last] then ({ st.dfs last with on_stack := false } : NodeInfo) else st.dfs last).caller = (st.dfs last).caller := by
          rw [if_pos hlQ]
        rw [hcall0] at hrun
        obtain ⟨hB1, hC1, hrnil⟩ := close_step g hn st last chrest P rest hB hC hsp hexh hcls
        by_cases hcu : (st.dfs last).caller = USIZE_MAX
        · rw [if_pos hcu] at hrun
          have hst' : popState st (P ++ [last]) rest = st' := MRes.ok.inj hrun
          have hchnil : chrest = [] := by
            cases chrest with
            | nil => rfl
            | cons c1 ch2 =>
              obtain ⟨hcall1, -⟩ := hC.links
              have hc1s : c1 ∈ st.stack :=
                hC.sub_stack c1 (List.mem_cons_of_mem _ (List.mem_cons_self _ _))
              have h2 := hB.vis_lt c1 (hB.stack_vis c1 hc1s)
              rw [hcall1] at hcu
              omega
          have hrest0 : rest = [] := hrnil hchnil
          rw [← hst']
          refine ⟨hB1, hrest0, ?_⟩
          intro v hv
          unfold Vis at hv ⊢
          rw [vis_popState]
          exact hv
        · rw [if_neg hcu] at hrun
          cases chrest with
          | nil => exact absurd hC.links hcu
          | cons nl ch2 =>
            obtain ⟨hcall1, -⟩ := hC.links
            rw [hcall1] at hrun
            have hnl_vis : Vis st nl := hB.stack_vis nl
              (hC.sub_stack nl (List.mem_cons_of_mem _ (List.mem_cons_self _ _)))
            have hnl_lt : (st.dfs nl).index < (st.dfs last).index :=
              (List.pairwise_cons.mp hC.sorted).1 nl (List.mem_cons_self _ _)
            have hll_last : ((popState st (P ++ [last]) rest).dfs last).lowlink = (st.dfs last).lowlink := by
              show (if last ∈ P ++ [last] then ({ st.dfs last with on_stack := false } : NodeInfo) else st.dfs last).lowlink = _
              rw [if_pos hlQ]
            have hll_nl : ((popState st (P ++ [last]) rest).dfs nl).lowlink = (st.dfs nl).lowlink := by
              show (if nl ∈ P ++ [last] then ({ st.dfs nl with on_stack := false } : NodeInfo) else st.dfs nl).lowlink = _
              by_cases hq : nl ∈ P ++ [last]
              · rw [if_pos hq]
              · rw [if_neg hq]
            have hnoop : retState (popState st (P ++ [last]) rest) last nl = popState st (P ++ [last]) rest := by
              unfold retState
              have hdfseq : updNI (popState st (P ++ [last]) rest).dfs nl
                  (fun ni => { ni with lowlink := min ni.lowlink ((popState st (P ++ [last]) rest).dfs last).lowlink }) =
                  (popState st (P ++ [last]) rest).dfs := by
                funext v
                by_cases hv : v = nl
                · rw [hv, updNI_self]
                  have h3 : min ((popState st (P ++ [last]) rest).dfs nl).lowlink
                      ((popState st (P ++ [last]) rest).dfs last).lowlink =
                      ((popState st (P ++ [last]) rest).dfs nl).lowlink := by
                    rw [hll_nl, hll_last, hcls]
                    exact min_eq_left (by have := hB.low_le nl hnl_vis; omega)
                  rw [h3]
                · rw [updNI_ne _ _ _ v hv]
              rw [hdfseq]
            have hrun2 : tarjanInner g fuel nl
                (retState (popState st (P ++ [last]) rest) last nl) = .ok st' := hrun
            rw [hnoop] at hrun2
            obtain ⟨hB', hs', hm'⟩ := ih nl ch2 (popState st (P ++ [last]) rest) st' hB1 hC1 hrun2
            refine ⟨hB', hs', ?_⟩
            intro v hv
            refine hm' v ?_
            unfold Vis at hv ⊢
            rw [vis_popState]
            exact hv
      · rw [if_neg hcls] at hrun
        dsimp only at hrun
        by_cases hcu : (st.dfs last).caller = USIZE_MAX
        · exfalso
          cases chrest with
          | nil => exact root_no_ret g st last hB hC hcls
          | cons nl ch2 =>
            obtain ⟨hcall1, -⟩ := hC.links
            have hnls : nl ∈ st.stack :=
              hC.sub_stack nl (List.mem_cons_of_mem _ (List.mem_cons_self _ _))
            have h2 := hB.vis_lt nl (hB.stack_vis nl hnls)
            rw [hcall1] at hcu
            omega
        · rw [if_neg hcu] at hrun
          cases chrest with
          | nil => exact absurd hC.links hcu
          | cons nl ch2 =>
            obtain ⟨hcall1, -⟩ := hC.links
            rw [hcall1] at hrun
            obtain ⟨hB2, hC2⟩ := step_ret g st last nl ch2 hB hC hexh hcls
            obtain ⟨hB', hs', hm'⟩ := ih nl ch2 (retState st last nl) st' hB2 hC2 hrun
            refine ⟨hB', hs', ?_⟩
            intro v hv
            refine hm' v ?_
            unfold Vis at hv ⊢
            rw [vis_retState]
            exact hv

/-- Any `ok` run of the outer loop preserves the invariants, keeps the
stack empty between trees, and leaves every processed node visited. -/
theorem tarjanOuter_ok (g : List REdge) (hn : numberOfNodes g < USIZE_MAX) :
    ∀ (ns : List Nat) (F : Nat) (st st' : TState),
      TBase g st → st.stack = [] →
      (∀ m ∈ ns, m < numberOfNodes g) →
      tarjanOuter g F ns st = .ok st' →
      TBase g st' ∧ st'.stack = [] ∧ (∀ v, Vis st v → Vis st' v) ∧
        (∀ m ∈ ns, Vis st' m) := by
  intro ns
  induction ns with
  | nil =>
    intro F st st' hB hstk _ hrun
    simp only [tarjanOuter] at hrun
    have heq : st = st' := MRes.ok.inj hrun
    subst heq
    exact ⟨hB, hstk, fun _ hv => hv, fun x hx => absurd hx (List.not_mem_nil x)⟩
  | cons m ns ih =>
    intro F st st' hB hstk hbnd hrun
    simp only [tarjanOuter] at hrun
    by_cases hvm : (st.dfs m).index ≠ USIZE_MAX
    · rw [if_pos hvm] at hrun
      obtain ⟨hB', hs', hmono, hall⟩ :=
        ih F st st' hB hstk (fun x hx => hbnd x (List.mem_cons_of_mem _ hx)) hrun
      refine ⟨hB', hs', hmono, ?_⟩
      intro x hx
      rcases List.mem_cons.mp hx with heq | hx2
      · rw [heq]; exact hmono m hvm
      · exact hall x hx2
    · rw [if_neg hvm] at hrun
      have hunv : ¬ Vis st m := fun hc => hvm hc
      have hmn : m < numberOfNodes g := hbnd m (List.mem_cons_self _ _)
      obtain ⟨hBr, hCr⟩ := step_root g hn st m hB hstk hunv hmn
      cases hti : tarjanInner g F m (rootState st m) with
      | fail => rw [hti] at hrun; exact absurd hrun (by simp)
      | out => rw [hti] at hrun; exact absurd hrun (by simp)
      | ok st2 =>
        rw [hti] at hrun
        dsimp only at hrun
        obtain ⟨hB2, hs2, hmono2⟩ := tarjanInner_ok g hn F m [] (rootState st m) st2 hBr hCr hti
        obtain ⟨hB', hs', hmono3, hall⟩ :=
          ih F st2 st' hB2 hs2 (fun x hx => hbnd x (List.mem_cons_of_mem _ hx)) hrun
        have hidxle : st.idx ≤ numberOfNodes g := by
          have h1 := hB.card_idx
          have h2 : ((Finset.range (numberOfNodes g)).filter (fun v => Vis st v)).card ≤
              (Finset.range (numberOfNodes g)).card := Finset.card_filter_le _ _
          rw [Finset.card_range] at h2
          omega
        refine ⟨hB', hs', ?_, ?_⟩
        · intro v hv
          refine hmono3 v (hmono2 v ?_)
          have hvnm : v ≠ m := fun he => hunv (he ▸ hv)
          unfold Vis at hv ⊢
          rw [vis_rootState st m v hvnm]
          exact hv
        · intro x hx
          rcases List.mem_cons.mp hx with heq | hx2
          · rw [heq]
            refine hmono3 m (hmono2 m ?_)
            unfold Vis rootState
            dsimp only
            rw [updNI_self]
            show ¬ st.idx = USIZE_MAX
            omega
          · exact hall x hx2

/-- The fresh solver state satisfies the chain-independent invariants. -/
theorem TBase_init (g : List REdge) :
    TBase g ⟨fun _ => NodeInfo.fresh, [], fun _ => USIZE_MAX, 0, 0⟩ := by
  have hnv : ∀ v, ¬ Vis (⟨fun _ => NodeInfo.fresh, [], fun _ => USIZE_MAX, 0, 0⟩ : TState) v := by
    intro v hv
    exact hv rfl
  refine ⟨?_, ?_, ?_, ?_, ?_, ?_, ?_, ?_, ?_, ?_, ?_, ?_, ?_, ?_, ?_, ?_, ?_, ?_, ?_, ?_⟩
  · intro v hv; exact absurd hv (hnv v)
  · intro v hv; exact absurd hv (hnv v)
  · show ((Finset.range (numberOfNodes g)).filter _).card = 0
    rw [Finset.filter_false_of_mem (fun x _ => hnv x), Finset.card_empty]
  · intro u v hu; exact absurd hu (hnv u)
  · intro v hv; exact absurd hv (hnv v)
  · intro v _; exact ⟨rfl, rfl⟩
  · intro v hv; exact absurd hv (List.not_mem_nil v)
  · exact List.nodup_nil
  · intro v
    constructor
    · intro hb; exact absurd hb Bool.false_ne_true
    · intro hm; exact absurd hm (List.not_mem_nil v)
  · intro v hv; exact absurd hv (List.not_mem_nil v)
  · intro v hv; exact absurd hv (hnv v)
  · exact List.Pairwise.nil
  · intro v hv; exact absurd rfl hv
  · intro c hc1 hc2
    have hc2' : c ≤ 0 := hc2
    exact absurd (le_trans hc1 hc2') (by omega)
  · exact Nat.zero_le _
  · intro u v hu; exact absurd rfl hu
  · intro u v hu; exact absurd rfl hu
  · intro u v hu; exact absurd rfl hu
  · intro v hv; exact absurd hv (List.not_mem_nil v)
  · intro u hu; exact absurd hu (hnv u)

theorem mapRange_getD (f : Nat → Nat) (n v : Nat) (h : v < n) :
    ((List.range n).map f).getD v 0 = f v := by
  rw [List.getD_eq_get?, List.get?_map, List.get?_range h]
  rfl

/-- C6: `Tarjan::run` returns a vector assigning every node of the graph
exactly one component id; the ids are dense unsigned integers starting
from 1, and two nodes receive the same id if and only if each is reachable
from the other in the graph. The hypothesis is the spec's data-model
condition that the node count stays below the `usize::MAX` sentinel. -/
theorem C6_tarjan_scc (g : List REdge) (F : Nat) (out : List Nat)
    (hn : numberOfNodes g < USIZE_MAX)
    (hrun : tarjanRun g F = .ok out) :
    out.length = numberOfNodes g ∧
    (∃ m : Nat, (∀ v, v < numberOfNodes g → 1 ≤ out.getD v 0 ∧ out.getD v 0 ≤ m) ∧
      ∀ c, 1 ≤ c → c ≤ m → ∃ v, v < numberOfNodes g ∧ out.getD v 0 = c) ∧
    (∀ u v, u < numberOfNodes g → v < numberOfNodes g →
      (out.getD u 0 = out.getD v 0 ↔ Reach g u v ∧ Reach g v u)) := by
  unfold tarjanRun at hrun
  cases hto : tarjanOuter g F (List.range (numberOfNodes g))
      ⟨fun _ => NodeInfo.fresh, [], fun _ => USIZE_MAX, 0, 0⟩ with
  | fail => rw [hto] at hrun; exact absurd hrun (by simp)
  | out => rw [hto] at hrun; exact absurd hrun (by simp)
  | ok stf =>
    rw [hto] at hrun
    dsimp only at hrun
    have hout : out = (List.range (numberOfNodes g)).map stf.asg := (MRes.ok.inj hrun).symm
    obtain ⟨hBf, hsf, -, hallf⟩ := tarjanOuter_ok g hn (List.range (numberOfNodes g)) F _ stf
      (TBase_init g) rfl (fun m hm => List.mem_range.mp hm) hto
    have hvisall : ∀ v, v < numberOfNodes g → Vis stf v :=
      fun v hv => hallf v (List.mem_range.mpr hv)
    have hasgall : ∀ v, v < numberOfNodes g → stf.asg v ≠ USIZE_MAX := by
      intro v hv
      rcases hBf.vis_cover v (hvisall v hv) with h | h
      · exact h
      · rw [hsf] at h; exact absurd h (List.not_mem_nil v)
    have hGetD : ∀ v, v < numberOfNodes g → out.getD v 0 = stf.asg v := by
      intro v hv
      rw [hout]
      exact mapRange_getD stf.asg (numberOfNodes g) v hv
    refine ⟨by rw [hout]; simp, ⟨stf.nscc, ?_, ?_⟩, ?_⟩
    · intro v hv
      rw [hGetD v hv]
      exact hBf.asg_pos v (hasgall v hv)
    · intro c hc1 hc2
      obtain ⟨v, hv⟩ := hBf.asg_dense c hc1 hc2
      have hcard : stf.nscc ≤ numberOfNodes g := by
        have h1 := hBf.nscc_card
        have h2 : ((Finset.range (numberOfNodes g)).filter
            (fun v => stf.asg v ≠ USIZE_MAX)).card ≤
            (Finset.range (numberOfNodes g)).card := Finset.card_filter_le _ _
        rw [Finset.card_range] at h2
        omega
      have hcne : c ≠ USIZE_MAX := by omega
      have hvvis : Vis stf v := by
        by_contra hcon
        have h3 := (hBf.unvis_fresh v hcon).2
        rw [hv] at h3
        exact hcne h3
      have hvlt : v < numberOfNodes g := hBf.vis_lt v hvvis
      exact ⟨v, hvlt, by rw [hGetD v hvlt]; exact hv⟩
    · intro u v hu hv
      rw [hGetD u hu, hGetD v hv]
      constructor
      · intro he
        exact hBf.asg_mutual u v (hasgall u hu) (hasgall v hv) he
      · rintro ⟨h1, h2⟩
        exact hBf.mutual_asg u v (hasgall u hu) (hasgall v hv) h1 h2

/-- Witness for C6: on the two-node graph with the single edge (0,1) the
solver returns the dense assignment [2, 1], and the instantiated
conclusions hold. -/
theorem C6_tarjan_scc_witness :
    numberOfNodes tinyEdges < USIZE_MAX ∧
    ([2, 1].length = numberOfNodes tinyEdges ∧
      (∃ m : Nat, (∀ v, v < numberOfNodes tinyEdges →
          1 ≤ [2, 1].getD v 0 ∧ [2, 1].getD v 0 ≤ m) ∧
        ∀ c, 1 ≤ c → c ≤ m → ∃ v, v < numberOfNodes tinyEdges ∧ [2, 1].getD v 0 = c) ∧
      (∀ u v, u < numberOfNodes tinyEdges → v < numberOfNodes tinyEdges →
        ([2, 1].getD u 0 = [2, 1].getD v 0 ↔
          Reach tinyEdges u v ∧ Reach tinyEdges v u))) :=
  ⟨by decide, C6_tarjan_scc tinyEdges 10 [2, 1] (by decide) rfl⟩

end Toolbox
